import Mathlib

/-!
# depclean: the dependency-directory scanner

A shallow embedding of `cmd/depclean/main.go`.  The file system is a finite tree of
`Node`s, `filepath.Walk` is a structural recursion over that tree which threads the
state captured by the callback, and the string and path helpers of Go's standard
library that the scanner calls are rendered over lists of characters (Unix separator).
-/

namespace Depclean

/-! ## Strings (Go package `strings`) -/

/-- Go `strings.HasPrefix(s, prefix)`. -/
def stringsHasPrefix (s pre : String) : Bool := pre.data.isPrefixOf s.data

/-- Go `strings.HasSuffix(s, suffix)`. -/
def stringsHasSuffix (s suf : String) : Bool := suf.data.reverse.isPrefixOf s.data.reverse

/-- Go `strings.Contains(s, sub)` for a one-character `sub`. -/
def stringsContains (s : String) (c : Char) : Bool := s.data.contains c

/-- Go `strings.Count(s, sub)` for a one-character `sub`. -/
def stringsCount (s : String) (c : Char) : Nat := s.data.count c

/-- Go `strings.Join(elems, "/")` over character lists. -/
def joinSep : List (List Char) → List Char
  | [] => []
  | [e] => e
  | e :: f :: rest => e ++ '/' :: joinSep (f :: rest)

/-- The elements of a slash-separated text: the pieces between separators
(Go `strings.Split(s, "/")`). -/
def splitSep : List Char → List (List Char)
  | [] => [[]]
  | c :: cs =>
    if c = '/' then [] :: splitSep cs
    else
      match splitSep cs with
      | [] => [[c]]
      | w :: ws => (c :: w) :: ws

/-! ## Paths (Go package `path/filepath`, Unix) -/

/-- One step of `filepath.Clean` over path elements; `stack` holds the elements
written so far, last one first.  Empty and `.` elements are dropped, `..` removes the
last real element, is kept at the front of a relative path and is dropped at the root. -/
def cleanStep (rooted : Bool) (stack : List (List Char)) (e : List Char) : List (List Char) :=
  if e = [] ∨ e = ['.'] then stack
  else if e = ['.', '.'] then
    match stack with
    | [] => if rooted then [] else [e]
    | top :: rest => if top = ['.', '.'] then e :: top :: rest else rest
  else e :: stack

/-- The elements `filepath.Clean` keeps, in order. -/
def cleanElems (rooted : Bool) (cs : List Char) : List (List Char) :=
  ((splitSep cs).foldl (cleanStep rooted) []).reverse

/-- Go `filepath.Clean`. -/
def filepathClean (p : String) : String :=
  if p.data = [] then "."
  else
    let rooted := p.data.head? = some '/'
    let elems := cleanElems rooted p.data
    if rooted then ⟨'/' :: joinSep elems⟩
    else if elems = [] then "."
    else ⟨joinSep elems⟩

/-- Go `filepath.Join(a, b)`: empty elements are ignored, the rest is joined by the
separator and cleaned. -/
def filepathJoin (a b : String) : String :=
  if a ≠ "" then filepathClean ⟨a.data ++ '/' :: b.data⟩
  else if b ≠ "" then filepathClean b
  else ""

/-- The part of a path up to and including its last separator. -/
def dirPrefix (cs : List Char) : List Char :=
  (cs.reverse.dropWhile (fun c => c ≠ '/')).reverse

/-- Go `filepath.Dir`: everything up to the last separator, cleaned. -/
def filepathDir (p : String) : String := filepathClean ⟨dirPrefix p.data⟩

/-- The elements of a cleaned path as `filepath.Rel` compares them: none for `.`,
a single empty element for the root, the leading empty element and the names for
an absolute path. -/
def relElems (p : String) : List (List Char) :=
  if p = "." then []
  else if p = "/" then [[]]
  else splitSep p.data

/-- Drops the longest common prefix of two element lists. -/
def stripCommon : List (List Char) → List (List Char) → List (List Char) × List (List Char)
  | b :: bs, t :: ts => if b = t then stripCommon bs ts else (b :: bs, t :: ts)
  | bs, ts => (bs, ts)

/-- Go `filepath.Rel(basepath, targpath)` with its error dropped, as the scanner
calls it (`relPath, _ := filepath.Rel(root, path)`): on failure the result is `""`. -/
def filepathRel (basepath targpath : String) : String :=
  let base := filepathClean basepath
  let targ := filepathClean targpath
  if targ = base then "."
  else
    let baseSlashed := base.data.head? = some '/'
    let targSlashed := targ.data.head? = some '/'
    if baseSlashed ≠ targSlashed then ""
    else
      match stripCommon (relElems base) (relElems targ) with
      | ([], t) => ⟨joinSep t⟩
      | (b :: bs, []) => ⟨joinSep ((b :: bs).map (fun _ => ['.', '.']))⟩
      | (b :: bs, t :: ts) =>
        if b = ['.', '.'] then ""
        else ⟨joinSep ((b :: bs).map (fun _ => ['.', '.']) ++ t :: ts)⟩

/-- Removes the trailing separators of a path given last character first, keeping
at least one character. -/
def stripTrailingSep : List Char → List Char
  | '/' :: c :: rest => stripTrailingSep (c :: rest)
  | cs => cs

/-- Go `basename` of package `os`, which names the `os.FileInfo` that `os.Lstat(p)`
returns: trailing separators and the leading directory are removed. -/
def osBasename (p : String) : String :=
  match stripTrailingSep p.data.reverse with
  | [] => ""
  | c :: rest => ⟨(c :: rest.takeWhile (fun x => x ≠ '/')).reverse⟩

/-! ## The file system -/

/-- An entry of the file system as `os.Lstat` and `readDirNames` show it.
`file` is any entry that is not a directory, `dir` lists its entries in the order
`readDirNames` returns them (sorted by name) and `readErr` tells that reading the
directory fails, `broken` is an entry whose `Lstat` fails. -/
inductive Node where
  | file (name : String) (size : Int) (modTime : Int)
  | dir (name : String) (size : Int) (modTime : Int) (readErr : Bool) (entries : List Node)
  | broken (name : String)
deriving Repr

namespace Node

/-- Go `info.Name()`. -/
def name : Node → String
  | file n _ _ => n
  | dir n _ _ _ _ => n
  | broken n => n

/-- Go `info.IsDir()`. -/
def isDir : Node → Bool
  | dir _ _ _ _ _ => true
  | _ => false

/-- Go `info.Size()`. -/
def size : Node → Int
  | file _ s _ => s
  | dir _ s _ _ _ => s
  | broken _ => 0

/-- Go `info.ModTime()`, in nanoseconds. -/
def modTime : Node → Int
  | file _ _ t => t
  | dir _ _ t _ _ => t
  | broken _ => 0

/-- Whether `os.Lstat` fails on the entry. -/
def lstatErr : Node → Bool
  | broken _ => true
  | _ => false

/-- The entries of a directory that can be read. -/
def children : Node → List Node
  | dir _ _ _ false es => es
  | _ => []

end Node

/-! ## `filepath.Walk` -/

/-- What a `filepath.WalkFunc` returns: `nil`, `filepath.SkipDir`, or any other error
(`filepath.SkipAll` included). -/
inductive WalkRet where
  | nil
  | skipDir
  | abort
deriving DecidableEq, Repr

/-- A `filepath.WalkFunc` with the variables it captures made an explicit state:
`fn s path info err`.  `info` is the visited entry, standing for the `os.FileInfo` and
for the content found under `path`; `err` tells that the walk passes a non-nil error. -/
abbrev WalkFunc (σ : Type) := σ → String → Node → Bool → σ × WalkRet

/-- One call of the walk's callback: where in the tree (child indices from the root),
on which path and entry, whether with an error, and what the callback returned. -/
structure Visit where
  pos : List Nat
  path : String
  info : Node
  err : Bool
  ret : WalkRet
deriving Repr

mutual
/-- Go `filepath.walk` (and the `lstat`-failure call of its caller): visits `info` at
`path` and then, for a readable directory on which the callback returned `nil`, its
entries.  Returns the state, the error and the calls made. -/
def walk {σ : Type} (fn : WalkFunc σ) (pos : List Nat) (path : String) (info : Node) (s : σ) :
    σ × WalkRet × List Visit :=
  match info with
  | .dir name size mt readErr entries =>
    let r := fn s path (.dir name size mt readErr entries) readErr
    if readErr = true ∨ r.2 ≠ .nil then
      (r.1, r.2, [⟨pos, path, .dir name size mt readErr entries, readErr, r.2⟩])
    else
      let w := walkNames fn pos path 0 entries r.1
      (w.1, w.2.1, ⟨pos, path, .dir name size mt readErr entries, false, .nil⟩ :: w.2.2)
  | .file name size mt =>
    let r := fn s path (.file name size mt) false
    (r.1, r.2, [⟨pos, path, .file name size mt, false, r.2⟩])
  | .broken name =>
    let r := fn s path (.broken name) true
    (r.1, r.2, [⟨pos, path, .broken name, true, r.2⟩])
/-- The loop of Go `filepath.walk` over the names of a directory, from index `i` on.
`SkipDir` from a directory, or from the call on an entry whose `Lstat` failed, is
swallowed; from another entry it ends the loop, as every other error does. -/
def walkNames {σ : Type} (fn : WalkFunc σ) (pos : List Nat) (path : String) (i : Nat)
    (names : List Node) (s : σ) : σ × WalkRet × List Visit :=
  match names with
  | [] => (s, .nil, [])
  | c :: rest =>
    let w := walk fn (pos ++ [i]) (filepathJoin path c.name) c s
    if w.2.1 = .abort ∨ (w.2.1 = .skipDir ∧ c.isDir = false ∧ c.lstatErr = false) then w
    else
      let w2 := walkNames fn pos path (i + 1) rest w.1
      (w2.1, w2.2.1, w.2.2 ++ w2.2.2)
end

/-- Go `filepath.Walk(root, fn)`: the final state and the calls made. -/
def filepathWalk {σ : Type} (fn : WalkFunc σ) (root : String) (tree : Node) (s : σ) :
    σ × List Visit :=
  let w := walk fn [] root tree s
  (w.1, w.2.2)

/-! ## The rule table -/

/-- Go `DependencyType`: a kind of dependency folder. -/
structure DependencyType where
  Name : String
  Folders : List String
  Description : String
  Indicator : String
deriving Repr, DecidableEq

/-- Go `dependencyTypes`, in table order. -/
def dependencyTypes : List DependencyType :=
  [ ⟨"Node.js", ["node_modules"], "npm/yarn/pnpm 패키지", "package.json"⟩,
    ⟨"Python venv", ["venv", ".venv", "env", ".env", "__pycache__"],
      "Python 가상환경 및 캐시", "requirements.txt"⟩,
    ⟨"Go", ["vendor"], "Go vendor 모듈", "go.mod"⟩,
    ⟨"Gradle", [".gradle", "build"], "Gradle 캐시 및 빌드", "build.gradle"⟩,
    ⟨"Maven", ["target"], "Maven 빌드 결과물", "pom.xml"⟩,
    ⟨"Rust", ["target"], "Cargo 빌드 결과물", "Cargo.toml"⟩,
    ⟨"Ruby", ["vendor/bundle", ".bundle"], "Bundler 패키지", "Gemfile"⟩,
    ⟨"PHP", ["vendor"], "Composer 패키지", "composer.json"⟩,
    ⟨".NET", ["bin", "obj", "packages"], ".NET 빌드 및 패키지", "*.csproj"⟩,
    ⟨"iOS/macOS", ["Pods", "DerivedData"], "CocoaPods 및 Xcode 빌드", "Podfile"⟩ ]

/-- Go `FoundDependency`. -/
structure FoundDependency where
  ProjectPath : String
  DepPath : String
  DepType : String
  Size : Int
  LastAccess : Int
  DaysSince : Int
deriving Repr, DecidableEq

/-! ## The host: clock and `os.Stat` -/

/-- What the scanner reads from its host besides the walked tree.  Instants are
nanoseconds.  `now` is `time.Now()`, `addDays t d` is `t.AddDate(0, 0, d)`,
`statNotExist p` is `os.IsNotExist(err)` for the error of `os.Stat(p)`,
`statModTime p` is the `ModTime()` of what `os.Stat(p)` returns, `none` when `os.Stat(p)`
fails (`os.Stat` follows symbolic links: for a link it is about the target, and it fails
on a link whose target is missing), and `daysSince t` is
`int(time.Since(t).Hours() / 24)`, a float64 computation. -/
structure Env where
  now : Int
  addDays : Int → Int → Int
  statNotExist : String → Bool
  statModTime : String → Option Int
  daysSince : Int → Int

/-- The value an `int64` holds after an operation whose exact result is `x`. -/
def wrapInt64 (x : Int) : Int := (x + 2 ^ 63) % 2 ^ 64 - 2 ^ 63

/-! ## Aggregates -/

/-- The callback of `getLastAccessTime`: keeps the latest modification time seen. -/
def lastAccessFn : WalkFunc Int := fun modTime _p info err =>
  if err then (modTime, .nil)
  else if info.modTime > modTime then (info.modTime, .nil)
  else (modTime, .nil)

/-- Go `getLastAccessTime(path)`, with `info` the entry at `path` as `os.Lstat` shows it
to the walk: the time of `os.Stat(path)`, or `time.Now()` when `os.Stat` fails, and then
the walk from `path`. -/
def getLastAccessTime (env : Env) (path : String) (info : Node) : Int :=
  match env.statModTime path with
  | none => env.now
  | some modTime => (filepathWalk lastAccessFn path info modTime).1

/-- The callback of `getDirSize`: adds the size of every entry that is not a
directory. -/
def dirSizeFn : WalkFunc Int := fun size _p info err =>
  if err then (size, .nil)
  else if !info.isDir then (wrapInt64 (size + info.size), .nil)
  else (size, .nil)

/-- Go `getDirSize(path)`, with `info` the entry at `path`. -/
def getDirSize (path : String) (info : Node) : Int :=
  (filepathWalk dirSizeFn path info 0).1

/-! ## The scanner -/

/-- Go `skipDirs`: the directories never descended into. -/
def skipDirs (dirName : String) : Bool :=
  dirName = ".git" ∨ dirName = ".svn" ∨ dirName = ".hg" ∨ dirName = "node_modules" ∨
  dirName = "vendor" ∨ dirName = ".gradle" ∨ dirName = "target" ∨ dirName = "build" ∨
  dirName = "venv" ∨ dirName = ".venv"

/-- The hidden-directory test of `scanDependencies`. -/
def hiddenDir (dirName : String) : Bool :=
  dirName ≠ "." ∧ stringsHasPrefix dirName "." ∧ dirName ≠ ".gradle" ∧ dirName ≠ ".venv" ∧
  dirName ≠ ".env" ∧ dirName ≠ ".bundle"

/-- The folder test of `scanDependencies`:
`dirName == folder || (strings.Contains(folder, "/") && strings.HasSuffix(path, folder))`. -/
def folderMatches (path dirName folder : String) : Bool :=
  dirName = folder ∨ (stringsContains folder '/' ∧ stringsHasSuffix path folder)

/-- The indicator test of `scanDependencies` that ends in `continue`: the rule has a
plain indicator, `os.Stat` reports it missing in the parent of `path`, and the folder
is neither `node_modules` nor `__pycache__`. -/
def indicatorRejects (env : Env) (path : String) (depType : DependencyType)
    (folder : String) : Bool :=
  depType.Indicator ≠ "" ∧ !stringsContains depType.Indicator '*' ∧
  env.statNotExist (filepathJoin (filepathDir path) depType.Indicator) ∧
  folder ≠ "node_modules" ∧ folder ≠ "__pycache__"

/-- The inner loop of `scanDependencies` over the folders of one rule: the first
folder that matches and is not rejected; a rejected folder is followed by the next
folder (`continue`). -/
def matchFolders (env : Env) (path dirName : String) (depType : DependencyType) :
    List String → Option String
  | [] => none
  | folder :: rest =>
    if folderMatches path dirName folder then
      if indicatorRejects env path depType folder then
        matchFolders env path dirName depType rest
      else some folder
    else matchFolders env path dirName depType rest

/-- The outer loop of `scanDependencies` over the rule table: the first rule with an
accepted folder, and that folder. -/
def classify (env : Env) (path dirName : String) :
    List DependencyType → Option (DependencyType × String)
  | [] => none
  | depType :: rest =>
    match matchFolders env path dirName depType depType.Folders with
    | some folder => some (depType, folder)
    | none => classify env path dirName rest

/-- The reference inner loop: the first folder that matches decides the rule; when
it is rejected the whole rule is abandoned. -/
def matchFoldersRef (env : Env) (path dirName : String) (depType : DependencyType) :
    List String → Option String
  | [] => none
  | folder :: rest =>
    if folderMatches path dirName folder then
      if indicatorRejects env path depType folder then none
      else some folder
    else matchFoldersRef env path dirName depType rest

/-- The reference classification of the specification: rules in table order, a
rejected rule is followed by the next rule. -/
def classifyRef (env : Env) (path dirName : String) :
    List DependencyType → Option (DependencyType × String)
  | [] => none
  | depType :: rest =>
    match matchFoldersRef env path dirName depType depType.Folders with
    | some folder => some (depType, folder)
    | none => classifyRef env path dirName rest

/-- The callback `scanDependencies` passes to `filepath.Walk`; the state is `found`. -/
def scanFn (env : Env) (root : String) (maxDepth : Int) (cutoffTime : Int) (minSize : Int) :
    WalkFunc (List FoundDependency) := fun found path info err =>
  if err then (found, .nil)
  else
    let relPath := filepathRel root path
    let depth : Int := stringsCount relPath '/'
    if depth > maxDepth then
      if info.isDir then (found, .skipDir) else (found, .nil)
    else if !info.isDir then (found, .nil)
    else
      let dirName := info.name
      if hiddenDir dirName then (found, .skipDir)
      else
        match classify env path dirName dependencyTypes with
        | some (depType, _) =>
          let projectPath := filepathDir path
          let lastAccess := getLastAccessTime env path info
          if lastAccess > cutoffTime then (found, .skipDir)
          else
            let size := getDirSize path info
            if size < minSize then (found, .skipDir)
            else
              let daysSince := env.daysSince lastAccess
              (found ++ [⟨projectPath, path, depType.Name, size, lastAccess, daysSince⟩],
                .skipDir)
        | none =>
          if skipDirs dirName then (found, .skipDir) else (found, .nil)

/-- The cutoff of `scanDependencies`: `time.Now().AddDate(0, 0, -days)`. -/
def cutoffTime (env : Env) (days : Int) : Int := env.addDays env.now (wrapInt64 (-days))

/-- Go `scanDependencies(root, maxDepth, days, minSize)` on the tree found at `root`. -/
def scanDependencies (env : Env) (tree : Node) (root : String) (maxDepth days : Int)
    (minSize : Int) : List FoundDependency :=
  (filepathWalk (scanFn env root maxDepth (cutoffTime env days) minSize) root tree []).1

/-- The calls the walk of `scanDependencies` makes, in order. -/
def scanVisits (env : Env) (tree : Node) (root : String) (maxDepth days : Int)
    (minSize : Int) : List Visit :=
  (filepathWalk (scanFn env root maxDepth (cutoffTime env days) minSize) root tree []).2

/-! ## Reading the walk -/

/-- The state after one call of the callback. -/
def stepState {σ : Type} (fn : WalkFunc σ) (s : σ) (v : Visit) : σ :=
  (fn s v.path v.info v.err).1

/-- The depth `scanDependencies` computes for `path`: the number of separators in
the path relative to `root`. -/
def depthOf (root path : String) : Int := stringsCount (filepathRel root path) '/'

/-- What the call of the scanner's callback on a visited entry appends to `found`. -/
def emitted (env : Env) (root : String) (maxDepth cutoff minSize : Int) (v : Visit) :
    List FoundDependency :=
  (scanFn env root maxDepth cutoff minSize [] v.path v.info v.err).1

/-! ## Sample hosts and trees -/

/-- Nanoseconds in 24 hours. -/
def nanosPerDay : Int := 86400000000000

/-- The paths of the entries of `tree`, as a walk from `root` names them. -/
def pathsOf (root : String) (tree : Node) : List String :=
  (filepathWalk (fun (s : Unit) _ _ _ => (s, WalkRet.nil)) root tree ()).2.map Visit.path

/-- The paths of the entries of `tree` on which `os.Lstat` succeeds, as a walk from
`root` names them, each with its modification time. -/
def statsOf (root : String) (tree : Node) : List (String × Int) :=
  (filepathWalk (fun (s : Unit) _ _ _ => (s, WalkRet.nil)) root tree ()).2.filterMap
    (fun v => if v.info.lstatErr then none else some (v.path, v.info.modTime))

/-- A host at instant `now` whose `os.Stat` finds exactly the paths in `files`, all last
modified at instant 0, whose days are 24 hours long and whose day count is exact. -/
def hostWithFiles (now : Int) (files : List String) : Env where
  now := now
  addDays := fun t d => t + d * nanosPerDay
  statNotExist := fun p => !files.contains p
  statModTime := fun p => if files.contains p then some 0 else none
  daysSince := fun t => (now - t).tdiv nanosPerDay

/-- A host at instant `now` whose `os.Stat` finds exactly the entries of `tree` at
`root`, with their modification times (the tree holds no symbolic link). -/
def hostOf (now : Int) (root : String) (tree : Node) : Env :=
  { hostWithFiles now (pathsOf root tree) with
    statModTime := fun p => (statsOf root tree).lookup p }

/-- A host on day 100 where `/r/link` is a symbolic link to a directory last modified on
day 70, and `/r/dangling` is a symbolic link whose target is missing: `os.Stat` shows the
target of the first and fails on the second. -/
def linkHost : Env :=
  { hostWithFiles (100 * nanosPerDay) ["/r/link"] with
    statModTime := fun p => if p = "/r/link" then some (70 * nanosPerDay) else none }

/-- A tree with three projects: `projectA` (Node.js, `node_modules` of 50 MB last
modified on day 60, with a nested `node_modules`), `projectB` (Rust, `target` last
modified on day 95) and `projectC` (a `target` with a `bin` inside and no manifest). -/
def sampleTree : Node :=
  .dir "r" 4096 0 false
    [ .dir "projectA" 4096 0 false
        [ .dir "node_modules" 4096 (60 * nanosPerDay) false
            [ .dir "node_modules" 4096 0 false [.file "y.js" 7 0],
              .file "x.js" 52428800 (60 * nanosPerDay) ],
          .file "package.json" 10 0 ],
      .dir "projectB" 4096 0 false
        [ .file "Cargo.toml" 1 0,
          .dir "target" 4096 (95 * nanosPerDay) false [.file "a" 10485760 (95 * nanosPerDay)] ],
      .dir "projectC" 4096 0 false
        [ .dir "target" 4096 0 false [.dir "bin" 4096 0 false [.file "z" 1 0]] ] ]

/-- The call of the walk on `projectA/node_modules` of `sampleTree`. -/
def visitA : Visit :=
  ⟨[0, 0], "/r/projectA/node_modules",
    .dir "node_modules" 4096 (60 * nanosPerDay) false
      [ .dir "node_modules" 4096 0 false [.file "y.js" 7 0],
        .file "x.js" 52428800 (60 * nanosPerDay) ],
    false, .skipDir⟩

/-- The call of the walk on `projectB/target` of `sampleTree`. -/
def visitB : Visit :=
  ⟨[1, 1], "/r/projectB/target",
    .dir "target" 4096 (95 * nanosPerDay) false [.file "a" 10485760 (95 * nanosPerDay)],
    false, .skipDir⟩

/-- The call of the walk on `projectC/target` of `sampleTree`. -/
def visitC : Visit :=
  ⟨[2, 0], "/r/projectC/target",
    .dir "target" 4096 0 false [.dir "bin" 4096 0 false [.file "z" 1 0]],
    false, .skipDir⟩

/-- The host of `sampleTree` mounted at `/r`, on day 100. -/
def sampleHost : Env := hostOf (100 * nanosPerDay) "/r" sampleTree

/-- The dependency reported in `sampleTree`. -/
def sampleDep : FoundDependency :=
  ⟨"/r/projectA", "/r/projectA/node_modules", "Node.js", 52428807, 60 * nanosPerDay, 40⟩

/-- A tree with one .NET project: `app/bin` of 100 bytes, last modified at instant 0,
and no project file. -/
def dotnetTree : Node :=
  .dir "r" 4096 0 false
    [ .dir "app" 4096 0 false [ .dir "bin" 4096 0 false [.file "app.dll" 100 0] ] ]

/-- The call of the walk on `app/bin` of `dotnetTree`. -/
def visitBin : Visit :=
  ⟨[0, 0], "/r/app/bin", .dir "bin" 4096 0 false [.file "app.dll" 100 0], false, .skipDir⟩

/-- A Bundler directory scanned as the root `/p/vendor/bundle`. -/
def bundleTree : Node := .dir "bundle" 4096 0 false [.file "gem.rb" 10 0]

/-- A host on day 100 with a `Gemfile` next to `bundle`, inside `/p/vendor`. -/
def bundleHost : Env :=
  hostWithFiles (100 * nanosPerDay)
    ["/p/vendor/Gemfile", "/p/vendor/bundle", "/p/vendor/bundle/gem.rb"]

/-- The dependency reported for `bundleTree`. -/
def bundleDep : FoundDependency := ⟨"/p/vendor", "/p/vendor/bundle", "Ruby", 10, 0, 100⟩

/-! ## Aggregates over the tree -/

/-- Go `fs.GetDirSize(path)` of package `pkg/fs`, with `info` the entry at `path`:
`0` when `os.Stat` reports the path missing, else the same walk as `getDirSize`. -/
def fsGetDirSize (env : Env) (path : String) (info : Node) : Int :=
  if env.statNotExist path then 0
  else (filepathWalk dirSizeFn path info 0).1

mutual
/-- The exact sum of the sizes of the entries other than directories in the subtree
of an entry, as far as it can be read: a directory counts for nothing itself, an entry
whose `Lstat` fails counts for nothing, and a directory that cannot be read hides what
it holds. -/
def Node.fileBytes : Node → Int
  | .file _ size _ => size
  | .dir _ _ _ readErr entries => if readErr then 0 else fileBytesAll entries
  | .broken _ => 0
/-- The sum of `Node.fileBytes` over a list of entries. -/
def fileBytesAll : List Node → Int
  | [] => 0
  | c :: rest => c.fileBytes + fileBytesAll rest
end

mutual
/-- The modification times of the entries in the subtree of an entry that a walk reads
without error: the entry itself unless its `Lstat` or its listing fails, and the
entries of a directory that can be read. -/
def Node.seenModTimes : Node → List Int
  | .file _ _ t => [t]
  | .dir _ _ t readErr entries => if readErr then [] else t :: seenModTimesAll entries
  | .broken _ => []
/-- The list `Node.seenModTimes` of every entry of a list, in order. -/
def seenModTimesAll : List Node → List Int
  | [] => []
  | c :: rest => c.seenModTimes ++ seenModTimesAll rest
end

/-- Whether `x` is an `int64`. -/
abbrev isInt64 (x : Int) : Prop := -2 ^ 63 ≤ x ∧ x < 2 ^ 63

/-- A Python project with a version-control directory that holds a `node_modules`, and
a virtual environment `.venv`. -/
def hiddenTree : Node :=
  .dir "r" 4096 0 false
    [ .dir ".git" 4096 0 false [ .dir "node_modules" 4096 0 false [.file "f" 9 0] ],
      .dir ".venv" 4096 0 false [.file "lib" 5 0],
      .file "requirements.txt" 3 0 ]

/-- The host of `hiddenTree` mounted at `/r`, on day 100. -/
def hiddenHost : Env := hostOf (100 * nanosPerDay) "/r" hiddenTree

/-- The call of the walk on `.git` of `hiddenTree`. -/
def visitGit : Visit :=
  ⟨[0], "/r/.git", .dir ".git" 4096 0 false [ .dir "node_modules" 4096 0 false [.file "f" 9 0] ],
    false, .skipDir⟩

/-- The call of the walk on `.venv` of `hiddenTree`. -/
def visitVenv : Visit :=
  ⟨[1], "/r/.venv", .dir ".venv" 4096 0 false [.file "lib" 5 0], false, .skipDir⟩

/-! ## Order of discovery -/

/-- The dependency, if any, that the call of the scanner's callback on a visited entry
reports. -/
def reported (env : Env) (root : String) (maxDepth cutoff minSize : Int) (v : Visit) :
    Option FoundDependency :=
  (emitted env root maxDepth cutoff minSize v).head?

/-- The total that `main` prints: `totalSize += dep.Size` over `found`, in `int64`. -/
def totalSize (found : List FoundDependency) : Int :=
  found.foldl (fun total dep => wrapInt64 (total + dep.Size)) 0

/-- The entry of a tree at a position, following child indices through directories
that can be read. -/
def Node.at? : Node → List Nat → Option Node
  | n, [] => some n
  | .dir _ _ _ false entries, i :: rest =>
    match entries[i]? with
    | some c => c.at? rest
    | none => none
  | _, _ :: _ => none

/-- Depth-first pre-order on positions: `a` comes before `b` when `a` is a proper
ancestor of `b`, or when the two branch off at a common ancestor and `a` goes through
the entry listed first. -/
def preorderBefore (a b : List Nat) : Prop :=
  (a <+: b ∧ a ≠ b) ∨ ∃ p i j ra rb, i < j ∧ a = p ++ i :: ra ∧ b = p ++ j :: rb

mutual
/-- Every directory of the tree lists its entries in increasing order of name, as
`readDirNames` returns them. -/
def Node.sortedNames : Node → Prop
  | .dir _ _ _ _ entries => (entries.map Node.name).Pairwise (fun a b => a < b) ∧
      sortedNamesAll entries
  | .file _ _ _ => True
  | .broken _ => True
/-- The predicate `Node.sortedNames` on every entry of a list. -/
def sortedNamesAll : List Node → Prop
  | [] => True
  | c :: rest => c.sortedNames ∧ sortedNamesAll rest
end

/-- Two projects `a` and `b`, each with a `node_modules`, of 1 and 2 bytes. -/
def orderTree : Node :=
  .dir "r" 4096 0 false
    [ .dir "a" 4096 0 false [ .dir "node_modules" 4096 0 false [.file "x" 1 0] ],
      .dir "b" 4096 0 false [ .dir "node_modules" 4096 0 false [.file "y" 2 0] ] ]

/-- The host of `orderTree` mounted at `/r`, on day 100. -/
def orderHost : Env := hostOf (100 * nanosPerDay) "/r" orderTree

/-! ## `pkg/fs`: the depth-limited walk -/

/-- The callback `fs.WalkWithDepth` passes to `filepath.Walk`, for a callback `fn` whose
captured variables are the state `σ`. -/
def walkWithDepthFn {σ : Type} (root : String) (maxDepth : Int)
    (fn : σ → String → Int → σ × WalkRet) : WalkFunc σ := fun s path info err =>
  if err then (s, .nil)
  else
    let relPath := filepathRel root path
    let depth : Int := stringsCount relPath '/'
    if depth > maxDepth ∧ info.isDir then (s, .skipDir)
    else fn s path depth

/-- Go `fs.WalkWithDepth(root, maxDepth, fn)` on the tree found at `root`: the final
state of `fn` and the calls of the walk (the error returned is left out). -/
def fsWalkWithDepth {σ : Type} (root : String) (tree : Node) (maxDepth : Int)
    (fn : σ → String → Int → σ × WalkRet) (s : σ) : σ × List Visit :=
  filepathWalk (walkWithDepthFn root maxDepth fn) root tree s

/-- A callback for `fs.WalkWithDepth` that records the path and the depth of each of
its calls and returns `nil`. -/
def recordCall (calls : List (String × Int)) (path : String) (depth : Int) :
    List (String × Int) × WalkRet :=
  (calls ++ [(path, depth)], .nil)

/-- A directory `a` that holds the file `f`. -/
def depthTree : Node :=
  .dir "r" 4096 0 false [ .dir "a" 4096 0 false [.file "f" 1 0] ]

/-! ## `float64` (IEEE 754 binary64) -/

/-- A `float64` value: a finite number, an infinity or a NaN.  The sign of zero is not
kept. -/
inductive Float64 where
  | fin (q : ℚ)
  | inf (neg : Bool)
  | nan
deriving DecidableEq

/-- Rounding to the nearest integer, a tie going to the even one. -/
def roundHalfEven (x : ℚ) : ℤ :=
  if x - ⌊x⌋ < 1 / 2 then ⌊x⌋
  else if 1 / 2 < x - ⌊x⌋ then ⌊x⌋ + 1
  else if ⌊x⌋ % 2 = 0 then ⌊x⌋
  else ⌊x⌋ + 1

/-- The exponent of the unit in the last place that binary64 has at `x`: 53 significant
bits, and no exponent below that of the subnormal numbers. -/
def ulpExp (x : ℚ) : ℤ := max (Int.log 2 |x| - 52) (-1074)

/-- The `float64` nearest to the exact value `x` (ties to even), an infinity when the
rounded magnitude reaches `2 ^ 1024`. -/
def roundFloat64 (x : ℚ) : Float64 :=
  if (2 : ℚ) ^ 1024 ≤ |(roundHalfEven (x / 2 ^ ulpExp x) : ℚ) * 2 ^ ulpExp x| then
    .inf (decide (x < 0))
  else .fin ((roundHalfEven (x / 2 ^ ulpExp x) : ℚ) * 2 ^ ulpExp x)

namespace Float64

/-- Go `float64(n)` for an integer `n`. -/
def ofInt (n : Int) : Float64 := roundFloat64 n

/-- Go `x * y` on `float64`. -/
def mul : Float64 → Float64 → Float64
  | fin a, fin b => roundFloat64 (a * b)
  | fin a, inf n => if a = 0 then nan else inf (n != decide (a < 0))
  | inf n, fin b => if b = 0 then nan else inf (n != decide (b < 0))
  | inf n, inf m => inf (n != m)
  | _, _ => nan

/-- Go `x / y` on `float64` (a zero divisor counts as positive). -/
def div : Float64 → Float64 → Float64
  | fin a, fin b =>
    if b = 0 then (if a = 0 then nan else inf (decide (a < 0)))
    else roundFloat64 (a / b)
  | fin _, inf _ => fin 0
  | inf n, fin b => inf (n != decide (b < 0))
  | _, _ => nan

/-- Go `x + y` on `float64`. -/
def add : Float64 → Float64 → Float64
  | fin a, fin b => roundFloat64 (a + b)
  | fin _, inf n => inf n
  | inf n, fin _ => inf n
  | inf n, inf m => if n = m then inf n else nan
  | _, _ => nan

/-- Go `int64(x)` for a `float64` `x`: the fraction is dropped; when the value is not
an `int64` the result depends on the machine and is `arch x`. -/
def toInt64 (arch : Float64 → Int) : Float64 → Int
  | fin q =>
    if -2 ^ 63 ≤ (if 0 ≤ q then ⌊q⌋ else ⌈q⌉) ∧ (if 0 ≤ q then ⌊q⌋ else ⌈q⌉) < 2 ^ 63 then
      (if 0 ≤ q then ⌊q⌋ else ⌈q⌉)
    else arch (fin q)
  | x => arch x

end Float64

/-- The conversion of an out-of-range `float64` to `int64` on amd64: the smallest
`int64`. -/
def archAmd64 (_ : Float64) : Int := -2 ^ 63

/-! ## Package `strings`: trimming and case -/

/-- Go `unicode.IsSpace`, which is also the white space of package `fmt`. -/
def isSpace (c : Char) : Bool :=
  (0x09 ≤ c.toNat ∧ c.toNat ≤ 0x0d) ∨ c.toNat = 0x20 ∨ c.toNat = 0x85 ∨ c.toNat = 0xa0 ∨
  c.toNat = 0x1680 ∨ (0x2000 ≤ c.toNat ∧ c.toNat ≤ 0x200a) ∨ c.toNat = 0x2028 ∨
  c.toNat = 0x2029 ∨ c.toNat = 0x202f ∨ c.toNat = 0x205f ∨ c.toNat = 0x3000

/-- Go `strings.TrimSpace`. -/
def stringsTrimSpace (s : String) : String :=
  ⟨((s.data.dropWhile isSpace).reverse.dropWhile isSpace).reverse⟩

/-- Go `unicode.ToUpper` as far as `parseSize` can tell: the ASCII letters, and the two
letters outside ASCII whose upper case is an ASCII letter (dotless i and long s);
every other character outside ASCII stays outside ASCII and is left as it is. -/
def unicodeToUpper (c : Char) : Char :=
  if 'a' ≤ c ∧ c ≤ 'z' then Char.ofNat (c.toNat - 32)
  else if c = 'ı' then 'I'
  else if c = 'ſ' then 'S'
  else c

/-- Go `strings.ToUpper`. -/
def stringsToUpper (s : String) : String := ⟨s.data.map unicodeToUpper⟩

/-- Go `strings.TrimSuffix`. -/
def stringsTrimSuffix (s suf : String) : String :=
  if stringsHasSuffix s suf then ⟨s.data.take (s.data.length - suf.data.length)⟩ else s

/-! ## Package `strconv`: `ParseFloat` -/

/-- The ASCII lower case of a character (`lower` of package `strconv`). -/
def asciiLower (c : Char) : Char :=
  if 'A' ≤ c ∧ c ≤ 'Z' then Char.ofNat (c.toNat + 32) else c

/-- The value of a decimal digit. -/
def decDigit? (c : Char) : Option Nat :=
  if '0' ≤ c ∧ c ≤ '9' then some (c.toNat - 48) else none

/-- The value of a hexadecimal digit, in either case. -/
def hexDigit? (c : Char) : Option Nat :=
  if '0' ≤ c ∧ c ≤ '9' then some (c.toNat - 48)
  else if 'a' ≤ asciiLower c ∧ asciiLower c ≤ 'f' then some ((asciiLower c).toNat - 87)
  else none

/-- The length of the longest common prefix of `s` and the lower-case `pre`, the case
of `s` being ignored (`commonPrefixLenIgnoreCase`). -/
def commonPrefixLen : List Char → List Char → Nat
  | c :: cs, p :: ps => if asciiLower c = p then commonPrefixLen cs ps + 1 else 0
  | _, _ => 0

/-- The `special` values of `strconv`: an optionally signed `inf` or `infinity`, or
`nan`, at the start of `s`, with the number of characters it takes. -/
def parseSpecial (s : List Char) : Option (Float64 × Nat) :=
  match s with
  | [] => none
  | c :: cs =>
    if c = '+' ∨ c = '-' then
      if commonPrefixLen cs "infinity".data = 8 then some (.inf (decide (c = '-')), 9)
      else if 3 ≤ commonPrefixLen cs "infinity".data then some (.inf (decide (c = '-')), 4)
      else none
    else if c = 'i' ∨ c = 'I' then
      if commonPrefixLen (c :: cs) "infinity".data = 8 then some (.inf false, 8)
      else if 3 ≤ commonPrefixLen (c :: cs) "infinity".data then some (.inf false, 3)
      else none
    else if c = 'n' ∨ c = 'N' then
      if commonPrefixLen (c :: cs) "nan".data = 3 then some (.nan, 3) else none
    else none

/-- The mantissa loop of `readFloat`: the digits read as a number in `base`, how many
of them follow the point, whether a digit, a point and an underscore were seen, and
what is left unread. -/
structure Mantissa where
  value : Nat
  frac : Nat
  sawDigits : Bool
  sawDot : Bool
  underscores : Bool
  rest : List Char

/-- The mantissa loop of `readFloat`. -/
def readMantissa (hex : Bool) (m : Mantissa) : List Char → Mantissa
  | [] => { m with rest := [] }
  | c :: cs =>
    if c = '_' then readMantissa hex { m with underscores := true } cs
    else if c = '.' then
      if m.sawDot then { m with rest := c :: cs }
      else readMantissa hex { m with sawDot := true } cs
    else
      match (if hex then hexDigit? c else decDigit? c) with
      | some d =>
        readMantissa hex
          { m with value := m.value * (if hex then 16 else 10) + d,
                   frac := if m.sawDot then m.frac + 1 else m.frac,
                   sawDigits := true } cs
      | none => { m with rest := c :: cs }

/-- The exponent digits of `readFloat`: underscores are skipped and a value that has
reached 10000 is no longer extended. -/
def readExpDigits (e : Nat) (underscores : Bool) : List Char → Nat × Bool × List Char
  | [] => (e, underscores, [])
  | c :: cs =>
    if c = '_' then readExpDigits e true cs
    else
      match decDigit? c with
      | some d => readExpDigits (if e < 10000 then e * 10 + d else e) underscores cs
      | none => (e, underscores, c :: cs)

/-- The state `saw` of `underscoreOK`. -/
inductive Saw where
  | start
  | digit
  | underscore
  | other
deriving DecidableEq

/-- The loop of `underscoreOK` over the number proper. -/
def underscoreLoop (hex : Bool) : Saw → List Char → Bool
  | saw, [] => saw ≠ .underscore
  | saw, c :: cs =>
    if (decDigit? c).isSome ∨ (hex ∧ 'a' ≤ asciiLower c ∧ asciiLower c ≤ 'f') then
      underscoreLoop hex .digit cs
    else if c = '_' then
      if saw ≠ .digit then false else underscoreLoop hex .underscore cs
    else if saw = .underscore then false
    else underscoreLoop hex .other cs

/-- Go `underscoreOK` of `strconv`: underscores only between digits, or between a base
prefix and a digit. -/
def underscoreOK (s : List Char) : Bool :=
  let t := match s with
    | c :: cs => if c = '-' ∨ c = '+' then cs else c :: cs
    | [] => []
  match t with
  | '0' :: x :: rest =>
    if asciiLower x = 'b' ∨ asciiLower x = 'o' ∨ asciiLower x = 'x' then
      underscoreLoop (asciiLower x = 'x') .digit rest
    else underscoreLoop false .start t
  | _ => underscoreLoop false .start t

/-- The exact value of the numeral that `readFloat` accepts at the start of `s`, and
what it leaves unread; `none` when there is no well-formed numeral. -/
def readFloat (s : List Char) : Option (ℚ × List Char) :=
  let neg := s.head? = some '-'
  let s1 := if s.head? = some '+' ∨ s.head? = some '-' then s.tail else s
  let hex := match s1 with
    | '0' :: x :: _ :: _ => asciiLower x = 'x'
    | _ => false
  let m := readMantissa hex ⟨0, 0, false, false, false, []⟩ (if hex then s1.drop 2 else s1)
  if !m.sawDigits then none
  else
    let scaled : ℚ := (m.value : ℚ) / (if hex then 16 else 10) ^ m.frac
    let signed : ℚ := if neg then -scaled else scaled
    let done (value : ℚ) (underscores : Bool) (rest : List Char) : Option (ℚ × List Char) :=
      if underscores ∧ !underscoreOK (s.take (s.length - rest.length)) then none
      else some (value, rest)
    match m.rest with
    | c :: cs =>
      if asciiLower c = (if hex then 'p' else 'e') then
        match cs with
        | [] => none
        | d :: ds =>
          let esign : Int := if d = '-' then -1 else 1
          let digits := if d = '+' ∨ d = '-' then ds else d :: ds
          match digits with
          | [] => none
          | f :: _ =>
            if (decDigit? f).isNone then none
            else
              let r := readExpDigits 0 m.underscores digits
              done (signed * (if hex then 2 else 10) ^ (esign * (r.1 : Int))) r.2.1 r.2.2
      else if hex then none
      else done signed m.underscores (c :: cs)
    | [] => if hex then none else done signed m.underscores []

/-- Go `strconv.ParseFloat(s, 64)`: the nearest `float64` of a well-formed numeral that
takes the whole of `s`; `none` for a syntax error and for a value out of range. -/
def parseFloat (s : List Char) : Option Float64 :=
  match parseSpecial s with
  | some (v, n) => if n = s.length then some v else none
  | none =>
    match readFloat s with
    | some (q, []) =>
      match roundFloat64 q with
      | .fin r => some (.fin r)
      | _ => none
    | _ => none
/-! ## Package `fmt`: scanning a `float64`, printing -/

/-- Go `ss.SkipSpace` of package `fmt` as `Sscanf` runs it: white space is passed over,
a newline is an error (`none`). -/
def skipSpace : List Char → Option (List Char)
  | [] => some []
  | c :: cs =>
    if c = '\r' ∧ cs.head? = some '\n' then skipSpace cs
    else if c = '\n' then none
    else if isSpace c then skipSpace cs
    else some (c :: cs)

/-- Go `ss.accept`: takes the next character into the token when it is one of `ok`. -/
def acceptChar (ok : List Char) (buf rest : List Char) : Bool × List Char × List Char :=
  match rest with
  | c :: cs => if ok.contains c then (true, buf ++ [c], cs) else (false, buf, rest)
  | [] => (false, buf, rest)

/-- The loop `for s.accept(ok) {}`. -/
def acceptAll (ok : List Char) (buf : List Char) : List Char → List Char × List Char
  | [] => (buf, [])
  | c :: cs => if ok.contains c then acceptAll ok (buf ++ [c]) cs else (buf, c :: cs)

/-- Go `ss.floatToken`: the characters at the start of the input that look like a
floating-point number. -/
def floatToken (input : List Char) : List Char :=
  let n1 := acceptChar "nN".data [] input
  let n2 := if n1.1 then acceptChar "aA".data n1.2.1 n1.2.2 else (false, n1.2)
  let n3 := if n2.1 then acceptChar "nN".data n2.2.1 n2.2.2 else (false, n2.2)
  if n3.1 then n3.2.1
  else
    let sg := acceptChar "+-".data n3.2.1 n3.2.2
    let i1 := acceptChar "iI".data sg.2.1 sg.2.2
    let i2 := if i1.1 then acceptChar "nN".data i1.2.1 i1.2.2 else (false, i1.2)
    let i3 := if i2.1 then acceptChar "fF".data i2.2.1 i2.2.2 else (false, i2.2)
    if i3.1 then i3.2.1
    else
      let z := acceptChar "0".data i3.2.1 i3.2.2
      let x := if z.1 then acceptChar "xX".data z.2.1 z.2.2 else (false, z.2)
      let digits := if x.1 then "0123456789aAbBcCdDeEfF_".data else "0123456789_".data
      let exp := if x.1 then "pP".data else "eEpP".data
      let d := acceptAll digits x.2.1 x.2.2
      let p := acceptChar ".".data d.1 d.2
      let f := if p.1 then acceptAll digits p.2.1 p.2.2 else p.2
      let e := acceptChar exp f.1 f.2
      if e.1 then
        let es := acceptChar "+-".data e.2.1 e.2.2
        (acceptAll "0123456789_".data es.2.1 es.2.2).1
      else e.2.1

/-- Go `strconv.Atoi`: an optional sign and decimal digits that make an `int`. -/
def atoi (s : List Char) : Option Int :=
  let digits := if s.head? = some '+' ∨ s.head? = some '-' then s.tail else s
  if digits = [] ∨ !digits.all (fun c => (decDigit? c).isSome) then none
  else
    let n : Int := (digits.foldl (fun acc c => acc * 10 + (decDigit? c).getD 0) 0 : Nat)
    let v : Int := if s.head? = some '-' then -n else n
    if -2 ^ 63 ≤ v ∧ v < 2 ^ 63 then some v else none

/-- Go `ss.convertFloat(token, 64)`: `strconv.ParseFloat`, and for a decimal number
with a `p` exponent the number times that power of two; `none` when it fails. -/
def convertFloat (token : List Char) : Option Float64 :=
  if token.contains 'p' ∧ !(token.contains 'x' ∨ token.contains 'X') then
    match parseFloat (token.takeWhile (fun c => c ≠ 'p')),
        atoi ((token.dropWhile (fun c => c ≠ 'p')).drop 1) with
    | some (.fin q), some m => some (roundFloat64 (q * 2 ^ m))
    | some v, some _ => some v
    | _, _ => none
  else parseFloat token

/-- The value `fmt.Sscanf(s, "%f", &value)` leaves in `value`, which was `0` before:
the number scanned at the start of `s`, or `0` when the scan fails. -/
def sscanfFloat (s : String) : Float64 :=
  match skipSpace s.data with
  | none => .fin 0
  | some [] => .fin 0
  | some (c :: cs) =>
    match convertFloat (floatToken (c :: cs)) with
    | some v => v
    | none => .fin 0

/-- Go `fmt.Sprintf("%d", n)`. -/
def sprintD (n : Int) : String :=
  if n < 0 then ⟨'-' :: Nat.toDigits 10 n.natAbs⟩ else ⟨Nat.toDigits 10 n.natAbs⟩

/-- Go `fmt.Sprintf("%.2f", x)` for a finite `x`: the exact value rounded to two
decimals, a tie going to the even digit. -/
def sprintF2 : Float64 → String
  | .fin q =>
    ⟨(if q < 0 then ['-'] else []) ++ Nat.toDigits 10 ((roundHalfEven (|q| * 100)).natAbs / 100) ++
      ['.', Nat.digitChar ((roundHalfEven (|q| * 100)).natAbs / 10 % 10),
        Nat.digitChar ((roundHalfEven (|q| * 100)).natAbs % 10)]⟩
  | .inf neg => if neg then "-Inf" else "+Inf"
  | .nan => "NaN"

/-! ## `parseSize`, `formatSize` and the day count -/

/-- Go `parseSize(s)` of `cmd/depclean`.  The conversion of an out-of-range `float64`
to `int64` depends on the machine and is the parameter `arch`. -/
def parseSize (arch : Float64 → Int) (s : String) : Int :=
  let s1 := stringsToUpper (stringsTrimSpace s)
  if s1 = "0" ∨ s1 = "" then 0
  else
    let multiplier : Int :=
      if stringsHasSuffix s1 "GB" then 1024 * 1024 * 1024
      else if stringsHasSuffix s1 "MB" then 1024 * 1024
      else if stringsHasSuffix s1 "KB" then 1024
      else 1
    let s2 :=
      if stringsHasSuffix s1 "GB" then stringsTrimSuffix s1 "GB"
      else if stringsHasSuffix s1 "MB" then stringsTrimSuffix s1 "MB"
      else if stringsHasSuffix s1 "KB" then stringsTrimSuffix s1 "KB"
      else s1
    let value := sscanfFloat (stringsTrimSpace s2)
    Float64.toInt64 arch (Float64.mul value (Float64.ofInt multiplier))

/-- Go `formatSize(bytes)` of `cmd/depclean`. -/
def formatSize (bytes : Int) : String :=
  if bytes ≥ 1024 * 1024 * 1024 then
    sprintF2 (Float64.div (Float64.ofInt bytes) (Float64.ofInt (1024 * 1024 * 1024))) ++ " GB"
  else if bytes ≥ 1024 * 1024 then
    sprintF2 (Float64.div (Float64.ofInt bytes) (Float64.ofInt (1024 * 1024))) ++ " MB"
  else if bytes ≥ 1024 then
    sprintF2 (Float64.div (Float64.ofInt bytes) (Float64.ofInt 1024)) ++ " KB"
  else sprintD bytes ++ " B"

/-- Nanoseconds in an hour (`time.Hour`). -/
def nanosPerHour : Int := 3600000000000

/-- Go `time.Duration.Hours`. -/
def durationHours (d : Int) : Float64 :=
  Float64.add (Float64.ofInt (d.tdiv nanosPerHour))
    (Float64.div (Float64.ofInt (d.tmod nanosPerHour)) (.fin 3600000000000))

/-- Go `time.Since(t)` at the instant `now`: the difference, kept within the smallest
and the largest `time.Duration`. -/
def timeSince (now t : Int) : Int := max (-2 ^ 63) (min (2 ^ 63 - 1) (now - t))

/-- The day count of `scanDependencies`: `int(time.Since(lastAccess).Hours() / 24)`. -/
def goDaysSince (arch : Float64 → Int) (now t : Int) : Int :=
  Float64.toInt64 arch (Float64.div (durationHours (timeSince now t)) (.fin 24))

/-- A host like `hostWithFiles` whose day count is the one the Go code computes. -/
def goHost (arch : Float64 → Int) (now : Int) (files : List String) : Env where
  now := now
  addDays := fun t d => t + d * nanosPerDay
  statNotExist := fun p => !files.contains p
  statModTime := fun p => if files.contains p then some 0 else none
  daysSince := goDaysSince arch now

/-- The value of a string of decimal digits read after the value `acc`. -/
def decimalValue (acc : Nat) (ds : List Char) : Nat :=
  ds.foldl (fun a c => a * 10 + (c.toNat - 48)) acc

/-- The decimal digits as characters. -/
def decimalDigitChars : List Char := "0123456789".data

/-- Go `text.ParseSize(s)` of `pkg/text`, whose body is that of `parseSize`. -/
def textParseSize (arch : Float64 → Int) (s : String) : Int :=
  let s1 := stringsToUpper (stringsTrimSpace s)
  if s1 = "0" ∨ s1 = "" then 0
  else
    let multiplier : Int :=
      if stringsHasSuffix s1 "GB" then 1024 * 1024 * 1024
      else if stringsHasSuffix s1 "MB" then 1024 * 1024
      else if stringsHasSuffix s1 "KB" then 1024
      else 1
    let s2 :=
      if stringsHasSuffix s1 "GB" then stringsTrimSuffix s1 "GB"
      else if stringsHasSuffix s1 "MB" then stringsTrimSuffix s1 "MB"
      else if stringsHasSuffix s1 "KB" then stringsTrimSuffix s1 "KB"
      else s1
    let value := sscanfFloat (stringsTrimSpace s2)
    Float64.toInt64 arch (Float64.mul value (Float64.ofInt multiplier))

/-- Go `fs.FormatSize(bytes)` of `pkg/fs`, whose body is that of `formatSize`. -/
def fsFormatSize (bytes : Int) : String :=
  if bytes ≥ 1024 * 1024 * 1024 then
    sprintF2 (Float64.div (Float64.ofInt bytes) (Float64.ofInt (1024 * 1024 * 1024))) ++ " GB"
  else if bytes ≥ 1024 * 1024 then
    sprintF2 (Float64.div (Float64.ofInt bytes) (Float64.ofInt (1024 * 1024))) ++ " MB"
  else if bytes ≥ 1024 then
    sprintF2 (Float64.div (Float64.ofInt bytes) (Float64.ofInt 1024)) ++ " KB"
  else sprintD bytes ++ " B"

/-- The string that `parseSize` has in `s` when it calls `fmt.Sscanf`: the input
trimmed, in upper case, and without the unit. -/
def numericContent (s : String) : String :=
  let s1 := stringsToUpper (stringsTrimSpace s)
  if stringsHasSuffix s1 "GB" then stringsTrimSuffix s1 "GB"
  else if stringsHasSuffix s1 "MB" then stringsTrimSuffix s1 "MB"
  else if stringsHasSuffix s1 "KB" then stringsTrimSuffix s1 "KB"
  else s1

/-- The host of `dotnetTree` mounted at `/r`, with the day count of the Go code, at the
instant `now`. -/
def dotnetHost (arch : Float64 → Int) (now : Int) : Env :=
  goHost arch now (pathsOf "/r" dotnetTree)

/-! ## Path display -/

/-- The bytes of a string: its UTF-8 encoding, which is what a Go string holds. -/
def utf8 (s : String) : List UInt8 := s.data.flatMap String.utf8EncodeChar

/-- Go `s[i:]` on a string, a sequence of bytes, with `i` an `int`; `none` is the
run-time panic for an index out of range. -/
def sliceFrom (s : List UInt8) (i : Int) : Option (List UInt8) :=
  if 0 ≤ i ∧ i ≤ s.length then some (s.drop i.toNat) else none

/-- Go `text.TruncatePath(path, maxLen, homeDir)`; `none` is a run-time panic.  The
index `len(path)-maxLen+3` is computed in a 64-bit `int`. -/
def TruncatePath (path : List UInt8) (maxLen : Int) (homeDir : List UInt8) :
    Option (List UInt8) :=
  match (if homeDir.isPrefixOf path then
      (sliceFrom path homeDir.length).map (fun rest => utf8 "~" ++ rest)
    else some path) with
  | none => none
  | some p =>
    if (p.length : Int) ≤ maxLen then some p
    else
      (sliceFrom p (wrapInt64 (wrapInt64 (p.length - maxLen) + 3))).map
        (fun rest => utf8 "..." ++ rest)

/-- Go `truncatePath(path, maxLen)` of `cmd/depclean`; `home` is what `os.UserHomeDir()`
returns, the empty string when it fails. -/
def truncatePath (home : List UInt8) (path : List UInt8) (maxLen : Int) :
    Option (List UInt8) :=
  match (if home.isPrefixOf path then
      (sliceFrom path home.length).map (fun rest => utf8 "~" ++ rest)
    else some path) with
  | none => none
  | some p =>
    if (p.length : Int) ≤ maxLen then some p
    else
      (sliceFrom p (wrapInt64 (wrapInt64 (p.length - maxLen) + 3))).map
        (fun rest => utf8 "..." ++ rest)

/-! ## Package `text`: the natural order -/

/-- One turn of the loop of `SplitByNumbers` on the rune `r`; the state is `parts`,
`current` and `inNumber`. -/
def splitByNumbersStep (st : List String × List Char × Bool) (r : Char) :
    List String × List Char × Bool :=
  let isDigit : Bool := decide ('0' ≤ r ∧ r ≤ '9')
  if 0 < st.2.1.length ∧ isDigit ≠ st.2.2 then (st.1 ++ [⟨st.2.1⟩], [r], isDigit)
  else (st.1, st.2.1 ++ [r], isDigit)

/-- Go `text.SplitByNumbers(s)`: the runs of decimal digits and of other runes of `s`. -/
def SplitByNumbers (s : String) : List String :=
  let st := s.data.foldl splitByNumbersStep ([], [], false)
  if 0 < st.2.1.length then st.1 ++ [⟨st.2.1⟩] else st.1

/-- Go `a < b` on strings: the comparison byte by byte, which on UTF-8 is the comparison
code point by code point; a proper prefix is less. -/
def stringLess : List Char → List Char → Bool
  | [], [] => false
  | [], _ :: _ => true
  | _ :: _, [] => false
  | a :: as, b :: bs =>
    if a.toNat < b.toNat then true
    else if b.toNat < a.toNat then false
    else stringLess as bs

/-- The loop of `NaturalLess` over the two lists of parts: the value returned at the
first index where the parts differ, `none` when the loop ends without returning. -/
def naturalLessLoop : List String → List String → Option Bool
  | a :: partsA, b :: partsB =>
    if a ≠ b then
      match atoi a.data, atoi b.data with
      | some numA, some numB => some (decide (numA < numB))
      | _, _ => some (stringLess a.data b.data)
    else naturalLessLoop partsA partsB
  | _, _ => none

/-- Go `text.NaturalLess(a, b)`, with a 64-bit `int`. -/
def NaturalLess (a b : String) : Bool :=
  match naturalLessLoop (SplitByNumbers a) (SplitByNumbers b) with
  | some r => r
  | none => decide ((SplitByNumbers a).length < (SplitByNumbers b).length)

/-- A Ruby project under `/r`: `app` holds a `Gemfile` and `vendor/bundle`, last modified
at instant 0. -/
def rubyTree : Node :=
  .dir "r" 4096 0 false
    [ .dir "app" 4096 0 false
        [ .file "Gemfile" 10 0,
          .dir "vendor" 4096 0 false
            [ .dir "bundle" 4096 0 false [.file "gem.rb" 100 0] ] ] ]

/-- A directory called `name` that holds a Node.js project with a `node_modules` of 100
bytes, last modified at instant 0. -/
def cacheTree (name : String) : Node :=
  .dir name 4096 0 false
    [ .dir "app" 4096 0 false
        [ .dir "node_modules" 4096 0 false [.file "x.js" 100 0],
          .file "package.json" 10 0 ] ]

/-- A directory `myvendor` under `/r` that holds a `Gemfile` and a `bundle`. -/
def myvendorTree : Node :=
  .dir "r" 4096 0 false
    [ .dir "myvendor" 4096 0 false
        [ .file "Gemfile" 10 0,
          .dir "bundle" 4096 0 false [.file "gem.rb" 100 0] ] ]

/-- A `node_modules` of 100 bytes, last modified at instant 0. -/
def modulesTree : Node := .dir "node_modules" 4096 0 false [.file "x.js" 100 0]

/-- What `fmt.Sscanf(s, "%f", &value)` stores in `value`: the number scanned at the start
of `s`, `none` when the scan fails and `value` is left as it was. -/
def sscanfReads (s : String) : Option Float64 :=
  match skipSpace s.data with
  | none => none
  | some [] => none
  | some (c :: cs) => convertFloat (floatToken (c :: cs))

/-- The multiplier `parseSize` takes from the unit at the end of its input. -/
def sizeMultiplier (s : String) : Int :=
  let s1 := stringsToUpper (stringsTrimSpace s)
  if stringsHasSuffix s1 "GB" then 1024 * 1024 * 1024
  else if stringsHasSuffix s1 "MB" then 1024 * 1024
  else if stringsHasSuffix s1 "KB" then 1024
  else 1

/-! ## Lemmas on `filepath.Walk` -/

mutual
theorem walk_fst {σ : Type} (fn : WalkFunc σ) (pos : List Nat) (path : String) :
    ∀ (info : Node) (s : σ),
      (walk fn pos path info s).1 = (walk fn pos path info s).2.2.foldl (stepState fn) s
  | .dir name size mt readErr entries, s => by
    rw [walk]
    by_cases h : readErr = true ∨ (fn s path (.dir name size mt readErr entries) readErr).2 ≠ .nil
    · simp only [h, if_true, List.foldl_cons, List.foldl_nil, stepState]
    · have hr : readErr = false := by
        cases readErr
        · rfl
        · exact absurd (Or.inl rfl) h
      subst hr
      simp only [h, if_false, List.foldl_cons, stepState]
      exact walkNames_fst fn pos path 0 entries _
  | .file name size mt, s => by
    simp [walk, stepState]
  | .broken name, s => by
    simp [walk, stepState]
theorem walkNames_fst {σ : Type} (fn : WalkFunc σ) (pos : List Nat) (path : String) :
    ∀ (i : Nat) (names : List Node) (s : σ),
      (walkNames fn pos path i names s).1
        = (walkNames fn pos path i names s).2.2.foldl (stepState fn) s
  | _, [], s => by simp [walkNames]
  | i, c :: rest, s => by
    rw [walkNames]
    have h1 := walk_fst fn (pos ++ [i]) (filepathJoin path c.name) c s
    split
    · exact h1
    · simp only [List.foldl_append]
      rw [← h1]
      exact walkNames_fst fn pos path (i + 1) rest _
end

theorem snoc_prefix_inj {pos l : List Nat} {i j : Nat}
    (hi : (pos ++ [i]) <+: l) (hj : (pos ++ [j]) <+: l) : i = j := by
  have h := List.prefix_of_prefix_length_le hi hj (by simp)
  have h2 := h.eq_of_length (by simp)
  simpa using h2

theorem not_snoc_prefix {pos : List Nat} {j : Nat} : ¬ (pos ++ [j]) <+: pos := by
  intro h
  have := h.length_le
  simp at this

mutual
theorem walk_pos {σ : Type} (fn : WalkFunc σ) (pos : List Nat) (path : String) :
    ∀ (info : Node) (s : σ), ∀ v ∈ (walk fn pos path info s).2.2, pos <+: v.pos
  | .dir name size mt readErr entries, s => by
    rw [walk]
    intro v hv
    split at hv
    · simp only [List.mem_singleton] at hv
      subst hv
      exact List.prefix_refl _
    · simp only [List.mem_cons] at hv
      rcases hv with hv | hv
      · subst hv
        exact List.prefix_refl _
      · obtain ⟨j, _, hj⟩ := walkNames_pos fn pos path 0 entries _ v hv
        exact (List.prefix_append pos [j]).trans hj
  | .file name size mt, s => by
    intro v hv
    simp only [walk, List.mem_singleton] at hv
    subst hv
    exact List.prefix_refl _
  | .broken name, s => by
    intro v hv
    simp only [walk, List.mem_singleton] at hv
    subst hv
    exact List.prefix_refl _
theorem walkNames_pos {σ : Type} (fn : WalkFunc σ) (pos : List Nat) (path : String) :
    ∀ (i : Nat) (names : List Node) (s : σ), ∀ v ∈ (walkNames fn pos path i names s).2.2,
      ∃ j, i ≤ j ∧ (pos ++ [j]) <+: v.pos
  | _, [], s => by simp [walkNames]
  | i, c :: rest, s => by
    rw [walkNames]
    intro v hv
    have h1 := walk_pos fn (pos ++ [i]) (filepathJoin path c.name) c s
    split at hv
    · exact ⟨i, le_refl _, h1 v hv⟩
    · simp only [List.mem_append] at hv
      rcases hv with hv | hv
      · exact ⟨i, le_refl _, h1 v hv⟩
      · obtain ⟨j, hij, hj⟩ := walkNames_pos fn pos path (i + 1) rest _ v hv
        exact ⟨j, by omega, hj⟩
end

mutual
theorem walk_excl {σ : Type} (fn : WalkFunc σ) (pos : List Nat) (path : String) :
    ∀ (info : Node) (s : σ), ∀ v ∈ (walk fn pos path info s).2.2,
      ∀ w ∈ (walk fn pos path info s).2.2, v.ret ≠ .nil → v.pos <+: w.pos → w.pos = v.pos
  | .dir name size mt readErr entries, s => by
    rw [walk]
    intro v hv w hw hret hpre
    by_cases h : readErr = true ∨ (fn s path (.dir name size mt readErr entries) readErr).2 ≠ .nil
    · rw [if_pos h] at hv hw
      simp only [List.mem_singleton] at hv hw
      rw [hv, hw]
    · rw [if_neg h] at hv hw
      simp only [List.mem_cons] at hv hw
      rcases hv with hv | hv
      · subst hv
        exact absurd rfl hret
      · obtain ⟨j, _, hj⟩ := walkNames_pos fn pos path 0 entries _ v hv
        rcases hw with hw | hw
        · subst hw
          exact absurd (hj.trans hpre) not_snoc_prefix
        · exact walkNames_excl fn pos path 0 entries _ v hv w hw hret hpre
  | .file name size mt, s => by
    intro v hv w hw _ _
    simp only [walk, List.mem_singleton] at hv hw
    rw [hv, hw]
  | .broken name, s => by
    intro v hv w hw _ _
    simp only [walk, List.mem_singleton] at hv hw
    rw [hv, hw]
theorem walkNames_excl {σ : Type} (fn : WalkFunc σ) (pos : List Nat) (path : String) :
    ∀ (i : Nat) (names : List Node) (s : σ), ∀ v ∈ (walkNames fn pos path i names s).2.2,
      ∀ w ∈ (walkNames fn pos path i names s).2.2,
        v.ret ≠ .nil → v.pos <+: w.pos → w.pos = v.pos
  | _, [], s => by simp [walkNames]
  | i, c :: rest, s => by
    rw [walkNames]
    intro v hv w hw hret hpre
    have h1 := walk_excl fn (pos ++ [i]) (filepathJoin path c.name) c s
    have p1 := walk_pos fn (pos ++ [i]) (filepathJoin path c.name) c s
    by_cases h : (walk fn (pos ++ [i]) (filepathJoin path c.name) c s).2.1 = .abort ∨
        ((walk fn (pos ++ [i]) (filepathJoin path c.name) c s).2.1 = .skipDir ∧
          c.isDir = false ∧ c.lstatErr = false)
    · rw [if_pos h] at hv hw
      exact h1 v hv w hw hret hpre
    · rw [if_neg h] at hv hw
      have p2 := walkNames_pos fn pos path (i + 1) rest
        (walk fn (pos ++ [i]) (filepathJoin path c.name) c s).1
      simp only [List.mem_append] at hv hw
      rcases hv with hv | hv <;> rcases hw with hw | hw
      · exact h1 v hv w hw hret hpre
      · obtain ⟨j, hij, hj⟩ := p2 w hw
        have := snoc_prefix_inj ((p1 v hv).trans hpre) hj
        omega
      · obtain ⟨j, hij, hj⟩ := p2 v hv
        have := snoc_prefix_inj (p1 w hw) (hj.trans hpre)
        omega
      · exact walkNames_excl fn pos path (i + 1) rest _ v hv w hw hret hpre
end

mutual
theorem walk_ret {σ : Type} (fn : WalkFunc σ) (pos : List Nat) (path : String) :
    ∀ (info : Node) (s : σ), ∀ v ∈ (walk fn pos path info s).2.2,
      ∃ s', v.ret = (fn s' v.path v.info v.err).2
  | .dir name size mt readErr entries, s => by
    rw [walk]
    intro v hv
    split at hv
    · simp only [List.mem_singleton] at hv
      subst hv
      exact ⟨s, rfl⟩
    · rename_i h
      simp only [List.mem_cons] at hv
      rcases hv with hv | hv
      · subst hv
        have hr : readErr = false := by
          cases readErr
          · rfl
          · exact absurd (Or.inl rfl) h
        subst hr
        refine ⟨s, ?_⟩
        by_contra hne
        exact h (Or.inr (fun h' => hne h'.symm))
      · exact walkNames_ret fn pos path 0 entries _ v hv
  | .file name size mt, s => by
    intro v hv
    simp only [walk, List.mem_singleton] at hv
    subst hv
    exact ⟨s, rfl⟩
  | .broken name, s => by
    intro v hv
    simp only [walk, List.mem_singleton] at hv
    subst hv
    exact ⟨s, rfl⟩
theorem walkNames_ret {σ : Type} (fn : WalkFunc σ) (pos : List Nat) (path : String) :
    ∀ (i : Nat) (names : List Node) (s : σ), ∀ v ∈ (walkNames fn pos path i names s).2.2,
      ∃ s', v.ret = (fn s' v.path v.info v.err).2
  | _, [], s => by simp [walkNames]
  | i, c :: rest, s => by
    rw [walkNames]
    intro v hv
    have h1 := walk_ret fn (pos ++ [i]) (filepathJoin path c.name) c s
    split at hv
    · exact h1 v hv
    · simp only [List.mem_append] at hv
      rcases hv with hv | hv
      · exact h1 v hv
      · exact walkNames_ret fn pos path (i + 1) rest _ v hv
end

/-! ## Lemmas on the scanner's callback -/

theorem scanFn_fst (env : Env) (root : String) (maxDepth cutoff minSize : Int)
    (found : List FoundDependency) (path : String) (info : Node) (err : Bool) :
    (scanFn env root maxDepth cutoff minSize found path info err).1
      = found ++ (scanFn env root maxDepth cutoff minSize [] path info err).1 := by
  unfold scanFn
  dsimp only
  repeat' split
  all_goals simp

theorem scanFn_snd (env : Env) (root : String) (maxDepth cutoff minSize : Int)
    (found : List FoundDependency) (path : String) (info : Node) (err : Bool) :
    (scanFn env root maxDepth cutoff minSize found path info err).2
      = (scanFn env root maxDepth cutoff minSize [] path info err).2 := by
  unfold scanFn
  dsimp only
  repeat' split
  all_goals rfl

theorem foldl_scanFn (env : Env) (root : String) (maxDepth cutoff minSize : Int)
    (vs : List Visit) (found : List FoundDependency) :
    vs.foldl (stepState (scanFn env root maxDepth cutoff minSize)) found
      = found ++ vs.flatMap (emitted env root maxDepth cutoff minSize) := by
  induction vs generalizing found with
  | nil => simp
  | cons v vs ih =>
    rw [List.foldl_cons, ih, stepState, scanFn_fst]
    simp [emitted, List.flatMap_cons]

theorem scan_eq_flatMap (env : Env) (tree : Node) (root : String) (maxDepth days minSize : Int) :
    scanDependencies env tree root maxDepth days minSize
      = (scanVisits env tree root maxDepth days minSize).flatMap
          (emitted env root maxDepth (cutoffTime env days) minSize) := by
  unfold scanDependencies scanVisits filepathWalk
  dsimp only
  rw [walk_fst, foldl_scanFn]
  simp

theorem mem_emitted (env : Env) (root : String) (maxDepth cutoff minSize : Int) (v : Visit)
    (d : FoundDependency) :
    d ∈ emitted env root maxDepth cutoff minSize v ↔
      v.err = false ∧ depthOf root v.path ≤ maxDepth ∧ v.info.isDir = true ∧
      hiddenDir v.info.name = false ∧
      ∃ depType folder, classify env v.path v.info.name dependencyTypes = some (depType, folder) ∧
        getLastAccessTime env v.path v.info ≤ cutoff ∧
        minSize ≤ getDirSize v.path v.info ∧
        d = ⟨filepathDir v.path, v.path, depType.Name, getDirSize v.path v.info,
              getLastAccessTime env v.path v.info,
              env.daysSince (getLastAccessTime env v.path v.info)⟩ := by
  unfold emitted scanFn depthOf
  dsimp only
  by_cases he : v.err = true
  · simp [he]
  · by_cases hd : (stringsCount (filepathRel root v.path) '/' : Int) > maxDepth
    · have hd' : ¬ ((stringsCount (filepathRel root v.path) '/' : Int) ≤ maxDepth) := by omega
      by_cases hdir : v.info.isDir = true <;> simp [he, hd, hd', hdir]
    · have hd' : (stringsCount (filepathRel root v.path) '/' : Int) ≤ maxDepth := by omega
      by_cases hdir : v.info.isDir = true
      · by_cases hh : hiddenDir v.info.name = true
        · simp [he, hd, hdir, hh]
        · cases hc : classify env v.path v.info.name dependencyTypes with
          | none =>
            by_cases hs : skipDirs v.info.name = true <;> simp [he, hd, hd', hdir, hh, hs]
          | some p =>
            obtain ⟨depType, folder⟩ := p
            by_cases hl : getLastAccessTime env v.path v.info > cutoff
            · have hl' : ¬ (getLastAccessTime env v.path v.info ≤ cutoff) := by omega
              simp [he, hd, hd', hdir, hh, hl, hl']
            · have hl' : getLastAccessTime env v.path v.info ≤ cutoff := by omega
              by_cases hz : getDirSize v.path v.info < minSize
              · have hz' : ¬ (minSize ≤ getDirSize v.path v.info) := by omega
                simp [he, hd, hd', hdir, hh, hl, hl', hz, hz']
              · have hz' : minSize ≤ getDirSize v.path v.info := by omega
                simp [he, hd, hd', hdir, hh, hl, hl', hz, hz']
      · simp [he, hd, hdir]

theorem scanFn_skipDir (env : Env) (root : String) (maxDepth cutoff minSize : Int)
    (found : List FoundDependency) (path : String) (info : Node)
    (hdir : info.isDir = true)
    (hterm : depthOf root path > maxDepth ∨ hiddenDir info.name = true ∨
      (classify env path info.name dependencyTypes).isSome = true ∨ skipDirs info.name = true) :
    (scanFn env root maxDepth cutoff minSize found path info false).2 = .skipDir := by
  unfold scanFn
  unfold depthOf at hterm
  dsimp only
  by_cases hd : (stringsCount (filepathRel root path) '/' : Int) > maxDepth
  · simp [hd, hdir]
  · by_cases hh : hiddenDir info.name = true
    · simp [hd, hdir, hh]
    · cases hc : classify env path info.name dependencyTypes with
      | none =>
        have hs : skipDirs info.name = true := by
          rcases hterm with h | h | h | h
          · exact absurd h hd
          · exact absurd h hh
          · simp [hc] at h
          · exact h
        simp [hd, hdir, hh, hs]
      | some p =>
        simp only [hd, hdir, hh]
        simp only [Bool.not_true, Bool.false_eq_true, if_false]
        repeat' split
        all_goals rfl

theorem scanVisits_ret (env : Env) (tree : Node) (root : String) (maxDepth days minSize : Int)
    (v : Visit) (hv : v ∈ scanVisits env tree root maxDepth days minSize) :
    v.ret = (scanFn env root maxDepth (cutoffTime env days) minSize [] v.path v.info v.err).2 := by
  unfold scanVisits filepathWalk at hv
  obtain ⟨s, hs⟩ := walk_ret _ _ _ _ _ v hv
  rw [hs, scanFn_snd]

theorem scanVisits_excl (env : Env) (tree : Node) (root : String) (maxDepth days minSize : Int)
    (v w : Visit) (hv : v ∈ scanVisits env tree root maxDepth days minSize)
    (hw : w ∈ scanVisits env tree root maxDepth days minSize)
    (hret : v.ret ≠ .nil) (hpre : v.pos <+: w.pos) : w.pos = v.pos := by
  unfold scanVisits filepathWalk at hv hw
  exact walk_excl _ _ _ _ _ v hv w hw hret hpre

theorem mem_scan (env : Env) (tree : Node) (root : String) (maxDepth days minSize : Int)
    (d : FoundDependency) :
    d ∈ scanDependencies env tree root maxDepth days minSize ↔
      ∃ v ∈ scanVisits env tree root maxDepth days minSize,
        d ∈ emitted env root maxDepth (cutoffTime env days) minSize v := by
  rw [scan_eq_flatMap, List.mem_flatMap]

/-! ## The claims -/

/-- Claim C1 (exclusivity).  When the walk of `scanDependencies` calls its callback on a
directory, without error, and the directory gets a terminal decision (depth above
`maxDepth`, hidden-directory prune, classified by the rule table whether accepted or
rejected, or in the always-skip set), then no call of the walk is on a strict
descendant of it, and every reported dependency was appended by a call that is not
on a strict descendant. -/
theorem exclusivity (env : Env) (tree : Node) (root : String) (maxDepth days minSize : Int)
    (v : Visit) (hv : v ∈ scanVisits env tree root maxDepth days minSize)
    (herr : v.err = false) (hdir : v.info.isDir = true)
    (hterm : depthOf root v.path > maxDepth ∨ hiddenDir v.info.name = true ∨
      (classify env v.path v.info.name dependencyTypes).isSome = true ∨
      skipDirs v.info.name = true) :
    (∀ w ∈ scanVisits env tree root maxDepth days minSize, v.pos <+: w.pos → w.pos = v.pos) ∧
    (∀ d ∈ scanDependencies env tree root maxDepth days minSize,
      ∃ u ∈ scanVisits env tree root maxDepth days minSize,
        d ∈ (scanFn env root maxDepth (cutoffTime env days) minSize [] u.path u.info u.err).1 ∧
        ¬ (v.pos <+: u.pos ∧ u.pos ≠ v.pos)) := by
  have hret : v.ret ≠ .nil := by
    rw [scanVisits_ret env tree root maxDepth days minSize v hv, herr,
      scanFn_skipDir env root maxDepth _ minSize [] v.path v.info hdir hterm]
    decide
  have h1 : ∀ w ∈ scanVisits env tree root maxDepth days minSize,
      v.pos <+: w.pos → w.pos = v.pos :=
    fun w hw hpre => scanVisits_excl env tree root maxDepth days minSize v w hv hw hret hpre
  refine ⟨h1, ?_⟩
  intro d hd
  obtain ⟨u, hu, hdu⟩ := (mem_scan env tree root maxDepth days minSize d).1 hd
  exact ⟨u, hu, hdu, fun h => h.2 (h1 u hu h.1)⟩

/-- Claim C2 (depth bound).  Every dependency `scanDependencies` returns has a `DepPath`
whose number of separators in the path relative to `root` is at most `maxDepth`. -/
theorem depth_bound (env : Env) (tree : Node) (root : String) (maxDepth days minSize : Int)
    (d : FoundDependency) (hd : d ∈ scanDependencies env tree root maxDepth days minSize) :
    (stringsCount (filepathRel root d.DepPath) '/' : Int) ≤ maxDepth := by
  obtain ⟨v, _, hdv⟩ := (mem_scan env tree root maxDepth days minSize d).1 hd
  obtain ⟨_, hdepth, _, _, depType, folder, _, _, _, rfl⟩ := (mem_emitted _ _ _ _ _ _ _).1 hdv
  exact hdepth

set_option maxRecDepth 100000 in
/-- Witness of claim C1 on `sampleTree`: the accepted `projectA/node_modules` holds a
nested `node_modules`, which the walk never reaches. -/
theorem exclusivity_witness :
    visitA ∈ scanVisits sampleHost sampleTree "/r" 5 30 0 ∧
    visitA.info.children.length = 2 ∧
    (∀ w ∈ scanVisits sampleHost sampleTree "/r" 5 30 0,
      visitA.pos <+: w.pos → w.pos = visitA.pos) :=
  ⟨List.getElem?_mem
      (show (scanVisits sampleHost sampleTree "/r" 5 30 0)[2]? = some visitA from by rfl),
    by decide,
    (exclusivity sampleHost sampleTree "/r" 5 30 0 visitA
      (List.getElem?_mem
        (show (scanVisits sampleHost sampleTree "/r" 5 30 0)[2]? = some visitA from by rfl))
      rfl rfl (Or.inr (Or.inr (Or.inl (by decide))))).1⟩

set_option maxRecDepth 100000 in
/-- Witness of claim C2 on `sampleTree`. -/
theorem depth_bound_witness :
    sampleDep ∈ scanDependencies sampleHost sampleTree "/r" 5 30 0 ∧
    (stringsCount (filepathRel "/r" sampleDep.DepPath) '/' : Int) ≤ 5 :=
  ⟨by decide, depth_bound sampleHost sampleTree "/r" 5 30 0 sampleDep (by decide)⟩

/-- Claim C3 (recency filter).  Every dependency `scanDependencies` returns was appended
by a call of the walk on its `DepPath`, its `LastAccess` is `getLastAccessTime` of that
entry and is not after the cutoff `time.Now().AddDate(0, 0, -days)`; and the call on
an entry whose `getLastAccessTime` is after the cutoff appends nothing. -/
theorem recency_filter (env : Env) (tree : Node) (root : String) (maxDepth days minSize : Int)
    (d : FoundDependency) (hd : d ∈ scanDependencies env tree root maxDepth days minSize) :
    (∃ v ∈ scanVisits env tree root maxDepth days minSize,
      v.path = d.DepPath ∧ d.LastAccess = getLastAccessTime env v.path v.info ∧
      ¬ (d.LastAccess > env.addDays env.now (wrapInt64 (-days)))) ∧
    (∀ (found : List FoundDependency) (path : String) (info : Node) (err : Bool),
      getLastAccessTime env path info > env.addDays env.now (wrapInt64 (-days)) →
      (scanFn env root maxDepth (cutoffTime env days) minSize found path info err).1 = found) := by
  constructor
  · obtain ⟨v, hv, hdv⟩ := (mem_scan env tree root maxDepth days minSize d).1 hd
    obtain ⟨_, _, _, _, depType, folder, _, hrec, _, rfl⟩ := (mem_emitted _ _ _ _ _ _ _).1 hdv
    refine ⟨v, hv, rfl, rfl, ?_⟩
    simp only [cutoffTime] at hrec
    simp only [gt_iff_lt, not_lt]
    exact hrec
  · intro found path info err hrec
    rw [scanFn_fst]
    have hnone : ∀ x, x ∉ emitted env root maxDepth (cutoffTime env days) minSize
        ⟨[], path, info, err, .nil⟩ := by
      intro x hx
      obtain ⟨_, _, _, _, depType, folder, _, h, _, _⟩ := (mem_emitted _ _ _ _ _ _ _).1 hx
      simp only [cutoffTime] at h
      exact absurd hrec (not_lt.mpr h)
    have : emitted env root maxDepth (cutoffTime env days) minSize ⟨[], path, info, err, .nil⟩
        = [] := List.eq_nil_iff_forall_not_mem.mpr hnone
    simp only [emitted] at this
    rw [this, List.append_nil]

set_option maxRecDepth 100000 in
/-- Witness of claim C3 on `sampleTree` (scenarios A and B): `projectA/node_modules`, last
modified 40 days ago, is reported; `projectB/target`, last modified 5 days ago, makes
the callback append nothing. -/
theorem recency_filter_witness :
    sampleDep ∈ scanDependencies sampleHost sampleTree "/r" 5 30 0 ∧
    (∃ v ∈ scanVisits sampleHost sampleTree "/r" 5 30 0,
      v.path = sampleDep.DepPath ∧
      sampleDep.LastAccess = getLastAccessTime sampleHost v.path v.info ∧
      ¬ (sampleDep.LastAccess > sampleHost.addDays sampleHost.now (wrapInt64 (-30)))) ∧
    (scanFn sampleHost "/r" 5 (cutoffTime sampleHost 30) 0 [] visitB.path visitB.info false).1
      = [] :=
  ⟨by decide,
    (recency_filter sampleHost sampleTree "/r" 5 30 0 sampleDep (by decide)).1,
    (recency_filter sampleHost sampleTree "/r" 5 30 0 sampleDep (by decide)).2
      [] visitB.path visitB.info false (by decide)⟩

/-- Claim C4 (size filter, inclusive boundary).  Every dependency `scanDependencies`
returns was appended by a call of the walk on its `DepPath`, its `Size` is `getDirSize`
of that entry and is at least `minSize`; and for a directory that the walk visits and
classifies and that is old enough, a size of exactly `minSize` gets it reported while
a size of `minSize - 1` makes the callback append nothing. -/
theorem size_filter (env : Env) (tree : Node) (root : String) (maxDepth days minSize : Int) :
    (∀ d ∈ scanDependencies env tree root maxDepth days minSize,
      ∃ v ∈ scanVisits env tree root maxDepth days minSize,
        v.path = d.DepPath ∧ d.Size = getDirSize v.path v.info ∧ d.Size ≥ minSize) ∧
    (∀ v ∈ scanVisits env tree root maxDepth days minSize,
      v.err = false → v.info.isDir = true → depthOf root v.path ≤ maxDepth →
      hiddenDir v.info.name = false →
      ∀ depType folder,
        classify env v.path v.info.name dependencyTypes = some (depType, folder) →
        ¬ (getLastAccessTime env v.path v.info > cutoffTime env days) →
        (getDirSize v.path v.info = minSize →
          (⟨filepathDir v.path, v.path, depType.Name, minSize,
            getLastAccessTime env v.path v.info,
            env.daysSince (getLastAccessTime env v.path v.info)⟩ : FoundDependency)
            ∈ scanDependencies env tree root maxDepth days minSize) ∧
        (getDirSize v.path v.info = minSize - 1 →
          ∀ found, (scanFn env root maxDepth (cutoffTime env days) minSize
            found v.path v.info v.err).1 = found)) := by
  constructor
  · intro d hd
    obtain ⟨v, hv, hdv⟩ := (mem_scan env tree root maxDepth days minSize d).1 hd
    obtain ⟨_, _, _, _, depType, folder, _, _, hsize, rfl⟩ := (mem_emitted _ _ _ _ _ _ _).1 hdv
    exact ⟨v, hv, rfl, rfl, hsize⟩
  · intro v hv herr hdir hdepth hhid depType folder hcls hrec
    constructor
    · intro hsize
      refine (mem_scan env tree root maxDepth days minSize _).2 ⟨v, hv, ?_⟩
      refine (mem_emitted _ _ _ _ _ _ _).2
        ⟨herr, hdepth, hdir, hhid, depType, folder, hcls, not_lt.mp hrec, hsize.ge, ?_⟩
      rw [hsize]
    · intro hsize found
      rw [scanFn_fst]
      have hnone : ∀ x, x ∉ emitted env root maxDepth (cutoffTime env days) minSize v := by
        intro x hx
        obtain ⟨_, _, _, _, _, _, _, _, h, _⟩ := (mem_emitted _ _ _ _ _ _ _).1 hx
        omega
      have : emitted env root maxDepth (cutoffTime env days) minSize v = [] :=
        List.eq_nil_iff_forall_not_mem.mpr hnone
      simp only [emitted] at this
      rw [this, List.append_nil]

set_option maxRecDepth 100000 in
/-- Witness of claim C4 on `sampleTree`: `projectA/node_modules` holds 52428807 bytes; with
that very threshold it is reported, with a threshold one byte higher the callback
appends nothing. -/
theorem size_filter_witness :
    (∃ v ∈ scanVisits sampleHost sampleTree "/r" 5 30 52428807,
      v.path = sampleDep.DepPath ∧ sampleDep.Size = getDirSize v.path v.info ∧
      sampleDep.Size ≥ 52428807) ∧
    sampleDep ∈ scanDependencies sampleHost sampleTree "/r" 5 30 52428807 ∧
    (scanFn sampleHost "/r" 5 (cutoffTime sampleHost 30) 52428808
      [] visitA.path visitA.info visitA.err).1 = [] :=
  ⟨(size_filter sampleHost sampleTree "/r" 5 30 52428807).1 sampleDep (by decide),
    ((size_filter sampleHost sampleTree "/r" 5 30 52428807).2 visitA
      (List.getElem?_mem
        (show (scanVisits sampleHost sampleTree "/r" 5 30 52428807)[2]? = some visitA
          from by rfl))
      rfl rfl (by decide) (by decide) _ _
      (show classify sampleHost visitA.path visitA.info.name dependencyTypes
        = some (⟨"Node.js", ["node_modules"], "npm/yarn/pnpm 패키지", "package.json"⟩,
            "node_modules") from by rfl)
      (by decide)).1 (by decide),
    ((size_filter sampleHost sampleTree "/r" 5 30 52428808).2 visitA
      (List.getElem?_mem
        (show (scanVisits sampleHost sampleTree "/r" 5 30 52428808)[2]? = some visitA
          from by rfl))
      rfl rfl (by decide) (by decide) _ _
      (show classify sampleHost visitA.path visitA.info.name dependencyTypes
        = some (⟨"Node.js", ["node_modules"], "npm/yarn/pnpm 패키지", "package.json"⟩,
            "node_modules") from by rfl)
      (by decide)).2 (by decide) []⟩

theorem basename_of_suffix_bundle (path : String)
    (h : stringsHasSuffix path "vendor/bundle" = true) : osBasename path = "bundle" := by
  unfold stringsHasSuffix at h
  rw [List.isPrefixOf_iff_prefix] at h
  obtain ⟨t, ht⟩ := h
  have hlit : "vendor/bundle".data.reverse
      = ['e', 'l', 'd', 'n', 'u', 'b', '/', 'r', 'o', 'd', 'n', 'e', 'v'] := by decide
  rw [hlit] at ht
  unfold osBasename
  rw [← ht]
  simp [stripTrailingSep, List.takeWhile]

theorem not_suffix_bundle (path dirName : String) (hname : osBasename path = dirName)
    (hne : dirName ≠ "bundle") : stringsHasSuffix path "vendor/bundle" = false := by
  cases h : stringsHasSuffix path "vendor/bundle" with
  | false => rfl
  | true => exact absurd (hname ▸ basename_of_suffix_bundle path h) hne

/-- Claim C5 (rule order decides shared folder names).  A directory named `target` is
classified as Maven whenever `pom.xml` is found in its parent, whatever else is there,
and as Rust when `pom.xml` is missing and `Cargo.toml` is found; a directory named
`vendor` is classified as Go whenever `go.mod` is found in its parent, and as PHP when
`go.mod` is missing and `composer.json` is found.  For the last case the path of the
directory has base name `vendor`, which is how `os.Lstat` names the entry; "found"
means that `os.Stat` does not report the file missing. -/
theorem rule_order_priority (env : Env) (path : String) :
    (env.statNotExist (filepathJoin (filepathDir path) "pom.xml") = false →
      classify env path "target" dependencyTypes
        = some (⟨"Maven", ["target"], "Maven 빌드 결과물", "pom.xml"⟩, "target")) ∧
    (env.statNotExist (filepathJoin (filepathDir path) "pom.xml") = true →
      env.statNotExist (filepathJoin (filepathDir path) "Cargo.toml") = false →
      classify env path "target" dependencyTypes
        = some (⟨"Rust", ["target"], "Cargo 빌드 결과물", "Cargo.toml"⟩, "target")) ∧
    (env.statNotExist (filepathJoin (filepathDir path) "go.mod") = false →
      classify env path "vendor" dependencyTypes
        = some (⟨"Go", ["vendor"], "Go vendor 모듈", "go.mod"⟩, "vendor")) ∧
    (osBasename path = "vendor" →
      env.statNotExist (filepathJoin (filepathDir path) "go.mod") = true →
      env.statNotExist (filepathJoin (filepathDir path) "composer.json") = false →
      classify env path "vendor" dependencyTypes
        = some (⟨"PHP", ["vendor"], "Composer 패키지", "composer.json"⟩, "vendor")) := by
  refine ⟨?_, ?_, ?_, ?_⟩
  · intro h
    simp [classify, dependencyTypes, matchFolders, folderMatches, indicatorRejects,
      stringsContains, h]
  · intro h h2
    simp [classify, dependencyTypes, matchFolders, folderMatches, indicatorRejects,
      stringsContains, h, h2]
  · intro h
    simp [classify, dependencyTypes, matchFolders, folderMatches, indicatorRejects,
      stringsContains, h]
  · intro hname h h2
    have hs := not_suffix_bundle path "vendor" hname (by decide)
    simp [classify, dependencyTypes, matchFolders, folderMatches, indicatorRejects,
      stringsContains, h, h2, hs]

set_option maxRecDepth 100000 in
/-- Witness of claim C5: a project holding both manifests of each pair, and a project
holding only the second one. -/
theorem rule_order_priority_witness :
    classify (hostWithFiles 0 ["/r/p/pom.xml", "/r/p/Cargo.toml"]) "/r/p/target" "target"
        dependencyTypes
      = some (⟨"Maven", ["target"], "Maven 빌드 결과물", "pom.xml"⟩, "target") ∧
    classify (hostWithFiles 0 ["/r/p/Cargo.toml"]) "/r/p/target" "target" dependencyTypes
      = some (⟨"Rust", ["target"], "Cargo 빌드 결과물", "Cargo.toml"⟩, "target") ∧
    classify (hostWithFiles 0 ["/r/p/go.mod", "/r/p/composer.json"]) "/r/p/vendor" "vendor"
        dependencyTypes
      = some (⟨"Go", ["vendor"], "Go vendor 모듈", "go.mod"⟩, "vendor") ∧
    classify (hostWithFiles 0 ["/r/p/composer.json"]) "/r/p/vendor" "vendor" dependencyTypes
      = some (⟨"PHP", ["vendor"], "Composer 패키지", "composer.json"⟩, "vendor") :=
  ⟨(rule_order_priority (hostWithFiles 0 ["/r/p/pom.xml", "/r/p/Cargo.toml"])
      "/r/p/target").1 (by decide),
    (rule_order_priority (hostWithFiles 0 ["/r/p/Cargo.toml"])
      "/r/p/target").2.1 (by decide) (by decide),
    (rule_order_priority (hostWithFiles 0 ["/r/p/go.mod", "/r/p/composer.json"])
      "/r/p/vendor").2.2.1 (by decide),
    (rule_order_priority (hostWithFiles 0 ["/r/p/composer.json"])
      "/r/p/vendor").2.2.2 (by decide) (by decide) (by decide)⟩

set_option maxRecDepth 100000 in
/-- Counterexample to claim C6 as stated, on `sampleTree` (scenario C): the walk calls
its callback on `projectC/target`, a directory within the depth limit whose parent holds
neither `pom.xml` nor `Cargo.toml` and which holds the directory `bin`; yet no call of
the walk is on that child, so the walk does not descend into `target`. -/
theorem scenarioC_counterexample :
    visitC ∈ scanVisits sampleHost sampleTree "/r" 5 30 0 ∧
    visitC.info.name = "target" ∧ visitC.info.isDir = true ∧ visitC.err = false ∧
    depthOf "/r" visitC.path ≤ 5 ∧
    sampleHost.statNotExist (filepathJoin (filepathDir visitC.path) "pom.xml") = true ∧
    sampleHost.statNotExist (filepathJoin (filepathDir visitC.path) "Cargo.toml") = true ∧
    visitC.info.children.map Node.isDir = [true] ∧
    ¬ ∃ w ∈ scanVisits sampleHost sampleTree "/r" 5 30 0, w.pos = visitC.pos ++ [0] :=
  ⟨List.getElem?_mem
      (show (scanVisits sampleHost sampleTree "/r" 5 30 0)[8]? = some visitC from by rfl),
    by decide, by decide, by decide, by decide, by decide, by decide, by decide, by decide⟩

/-- Claim C6, amended (scenario C).  When the walk calls its callback on a directory named
`target` within the depth limit whose parent holds neither `pom.xml` nor `Cargo.toml`,
the callback appends nothing and returns `SkipDir`, because `target` is in the
always-skip set: the directory is not reported and no call of the walk is on a strict
descendant of it.  The path of the directory has base name `target`, which is how
`os.Lstat` names the entry. -/
theorem scenarioC_prunes (env : Env) (tree : Node) (root : String)
    (maxDepth days minSize : Int) (v : Visit)
    (hv : v ∈ scanVisits env tree root maxDepth days minSize)
    (herr : v.err = false) (hdir : v.info.isDir = true)
    (hname : v.info.name = "target") (hbase : osBasename v.path = "target")
    (_hdepth : depthOf root v.path ≤ maxDepth)
    (hpom : env.statNotExist (filepathJoin (filepathDir v.path) "pom.xml") = true)
    (hcargo : env.statNotExist (filepathJoin (filepathDir v.path) "Cargo.toml") = true) :
    (∀ found, scanFn env root maxDepth (cutoffTime env days) minSize found v.path v.info v.err
      = (found, .skipDir)) ∧
    (∀ w ∈ scanVisits env tree root maxDepth days minSize, v.pos <+: w.pos → w.pos = v.pos) := by
  have hs := not_suffix_bundle v.path "target" hbase (by decide)
  have hcls : classify env v.path v.info.name dependencyTypes = none := by
    rw [hname]
    simp [classify, dependencyTypes, matchFolders, folderMatches, indicatorRejects,
      stringsContains, hpom, hcargo, hs]
  have hterm : depthOf root v.path > maxDepth ∨ hiddenDir v.info.name = true ∨
      (classify env v.path v.info.name dependencyTypes).isSome = true ∨
      skipDirs v.info.name = true := by
    refine Or.inr (Or.inr (Or.inr ?_))
    rw [hname]
    decide
  have hskip := scanFn_skipDir env root maxDepth (cutoffTime env days) minSize
  constructor
  · intro found
    have h1 := scanFn_fst env root maxDepth (cutoffTime env days) minSize found v.path v.info
      v.err
    have hnone : ∀ x, x ∉ emitted env root maxDepth (cutoffTime env days) minSize v := by
      intro x hx
      obtain ⟨_, _, _, _, depType, folder, h, _⟩ := (mem_emitted _ _ _ _ _ _ _).1 hx
      rw [hcls] at h
      exact Option.noConfusion h
    have h2 : emitted env root maxDepth (cutoffTime env days) minSize v = [] :=
      List.eq_nil_iff_forall_not_mem.mpr hnone
    simp only [emitted] at h2
    rw [h2, List.append_nil] at h1
    have h3 := hskip found v.path v.info hdir hterm
    rw [herr] at h1 ⊢
    exact Prod.ext h1 h3
  · have hret : v.ret ≠ .nil := by
      rw [scanVisits_ret env tree root maxDepth days minSize v hv, herr,
        hskip [] v.path v.info hdir hterm]
      decide
    exact fun w hw hpre =>
      scanVisits_excl env tree root maxDepth days minSize v w hv hw hret hpre

set_option maxRecDepth 100000 in
/-- Witness of the amended claim C6 on `sampleTree`. -/
theorem scenarioC_prunes_witness :
    (∀ found, scanFn sampleHost "/r" 5 (cutoffTime sampleHost 30) 0 found
      visitC.path visitC.info visitC.err = (found, .skipDir)) ∧
    (∀ w ∈ scanVisits sampleHost sampleTree "/r" 5 30 0,
      visitC.pos <+: w.pos → w.pos = visitC.pos) :=
  scenarioC_prunes sampleHost sampleTree "/r" 5 30 0 visitC
    (List.getElem?_mem
      (show (scanVisits sampleHost sampleTree "/r" 5 30 0)[8]? = some visitC from by rfl))
    rfl rfl rfl (by decide) (by decide) (by decide) (by decide)

theorem matchFolders_isSome (env : Env) (path dirName : String) (depType : DependencyType)
    (folders : List String) :
    (matchFolders env path dirName depType folders).isSome = true ↔
      ∃ folder ∈ folders, folderMatches path dirName folder = true ∧
        indicatorRejects env path depType folder = false := by
  induction folders with
  | nil => simp [matchFolders]
  | cons f rest ih =>
    rw [matchFolders]
    by_cases hm : folderMatches path dirName f = true
    · rw [if_pos hm]
      by_cases hr : indicatorRejects env path depType f = true
      · rw [if_pos hr, ih]
        constructor
        · rintro ⟨g, hg, h⟩
          exact ⟨g, List.mem_cons_of_mem _ hg, h⟩
        · rintro ⟨g, hg, h1, h2⟩
          rcases List.mem_cons.1 hg with hg | hg
          · subst hg
            rw [hr] at h2
            exact absurd h2 (by decide)
          · exact ⟨g, hg, h1, h2⟩
      · rw [if_neg hr]
        constructor
        · intro _
          exact ⟨f, List.mem_cons_self _ _, hm, by simpa using hr⟩
        · intro _
          rfl
    · rw [if_neg hm, ih]
      constructor
      · rintro ⟨g, hg, h⟩
        exact ⟨g, List.mem_cons_of_mem _ hg, h⟩
      · rintro ⟨g, hg, h1, h2⟩
        rcases List.mem_cons.1 hg with hg | hg
        · subst hg
          exact absurd h1 hm
        · exact ⟨g, hg, h1, h2⟩

/-- Claim C7 (indicator acceptance).  For a rule whose indicator is a plain file name and
a directory that matches one of the rule's folders, the rule is accepted exactly when
`os.Stat` does not report the indicator missing in the directory's parent or a matched
folder is `node_modules` or `__pycache__`; so `node_modules` is classified as Node.js
and `__pycache__` as Python venv whatever files exist. -/
theorem indicator_acceptance (env : Env) (path dirName : String) (depType : DependencyType)
    (hplain : depType.Indicator ≠ "" ∧ stringsContains depType.Indicator '*' = false)
    (hmatch : ∃ folder ∈ depType.Folders, folderMatches path dirName folder = true) :
    ((matchFolders env path dirName depType depType.Folders).isSome = true ↔
      (env.statNotExist (filepathJoin (filepathDir path) depType.Indicator) = false ∨
        ∃ folder ∈ depType.Folders, folderMatches path dirName folder = true ∧
          (folder = "node_modules" ∨ folder = "__pycache__"))) ∧
    classify env path "node_modules" dependencyTypes
      = some (⟨"Node.js", ["node_modules"], "npm/yarn/pnpm 패키지", "package.json"⟩,
          "node_modules") ∧
    classify env path "__pycache__" dependencyTypes
      = some (⟨"Python venv", ["venv", ".venv", "env", ".env", "__pycache__"],
          "Python 가상환경 및 캐시", "requirements.txt"⟩, "__pycache__") := by
  refine ⟨?_, ?_, ?_⟩
  · rw [matchFolders_isSome]
    obtain ⟨hne, hstar⟩ := hplain
    have hrej : ∀ folder, indicatorRejects env path depType folder = false ↔
        (env.statNotExist (filepathJoin (filepathDir path) depType.Indicator) = false ∨
          (folder = "node_modules" ∨ folder = "__pycache__")) := by
      intro folder
      unfold indicatorRejects
      simp only [hne, hstar, ne_eq, not_false_eq_true, Bool.not_false, true_and,
        decide_eq_false_iff_not, not_and, Bool.not_eq_true, Decidable.not_not]
      constructor
      · intro h
        by_cases hs : env.statNotExist (filepathJoin (filepathDir path) depType.Indicator) = true
        · by_cases h1 : folder = "node_modules"
          · exact Or.inr (Or.inl h1)
          · exact Or.inr (Or.inr (h hs h1))
        · exact Or.inl (by simpa using hs)
      · rintro (h | h | h) hs h1
        · rw [h] at hs
          exact absurd hs (by decide)
        · exact absurd h h1
        · exact h
    constructor
    · rintro ⟨folder, hf, hm, hr⟩
      rcases (hrej folder).1 hr with h | h
      · exact Or.inl h
      · exact Or.inr ⟨folder, hf, hm, h⟩
    · rintro (h | ⟨folder, hf, hm, h⟩)
      · obtain ⟨folder, hf, hm⟩ := hmatch
        exact ⟨folder, hf, hm, (hrej folder).2 (Or.inl h)⟩
      · exact ⟨folder, hf, hm, (hrej folder).2 (Or.inr h)⟩
  · simp [classify, dependencyTypes, matchFolders, folderMatches, indicatorRejects]
  · simp [classify, dependencyTypes, matchFolders, folderMatches, indicatorRejects,
      stringsContains]

set_option maxRecDepth 100000 in
/-- Witness of claim C7: a directory `venv` in a project with no file at all matches the
Python rule. -/
theorem indicator_acceptance_witness :
    ((matchFolders (hostWithFiles 0 []) "/r/p/venv" "venv"
        ⟨"Python venv", ["venv", ".venv", "env", ".env", "__pycache__"],
          "Python 가상환경 및 캐시", "requirements.txt"⟩
        ["venv", ".venv", "env", ".env", "__pycache__"]).isSome = true ↔
      ((hostWithFiles 0 []).statNotExist
          (filepathJoin (filepathDir "/r/p/venv") "requirements.txt") = false ∨
        ∃ folder ∈ ["venv", ".venv", "env", ".env", "__pycache__"],
          folderMatches "/r/p/venv" "venv" folder = true ∧
            (folder = "node_modules" ∨ folder = "__pycache__"))) ∧
    classify (hostWithFiles 0 []) "/r/p/venv" "node_modules" dependencyTypes
      = some (⟨"Node.js", ["node_modules"], "npm/yarn/pnpm 패키지", "package.json"⟩,
          "node_modules") ∧
    classify (hostWithFiles 0 []) "/r/p/venv" "__pycache__" dependencyTypes
      = some (⟨"Python venv", ["venv", ".venv", "env", ".env", "__pycache__"],
          "Python 가상환경 및 캐시", "requirements.txt"⟩, "__pycache__") :=
  indicator_acceptance (hostWithFiles 0 []) "/r/p/venv" "venv"
    ⟨"Python venv", ["venv", ".venv", "env", ".env", "__pycache__"],
      "Python 가상환경 및 캐시", "requirements.txt"⟩
    (by decide) ⟨"venv", by decide, by decide⟩

/-- Claim C8 (wildcard indicators skip the existence check).  A directory named `bin`,
`obj` or `packages` is classified as .NET on every host, whatever `os.Stat` reports,
and when the walk calls its callback on such a directory within the depth limit it is
reported as soon as it passes the recency and the size filter.  The path of the
directory has that name as its base name, which is how `os.Lstat` names the entry. -/
theorem wildcard_indicator (env : Env) (tree : Node) (root : String)
    (maxDepth days minSize : Int) (dirName : String)
    (hname : dirName = "bin" ∨ dirName = "obj" ∨ dirName = "packages") :
    (∀ (host : Env) (path : String), osBasename path = dirName →
      classify host path dirName dependencyTypes
        = some (⟨".NET", ["bin", "obj", "packages"], ".NET 빌드 및 패키지", "*.csproj"⟩,
            dirName)) ∧
    (∀ v ∈ scanVisits env tree root maxDepth days minSize,
      v.err = false → v.info.isDir = true → v.info.name = dirName →
      osBasename v.path = dirName → depthOf root v.path ≤ maxDepth →
      ¬ (getLastAccessTime env v.path v.info > cutoffTime env days) →
      ¬ (getDirSize v.path v.info < minSize) →
      (⟨filepathDir v.path, v.path, ".NET", getDirSize v.path v.info,
        getLastAccessTime env v.path v.info,
        env.daysSince (getLastAccessTime env v.path v.info)⟩ : FoundDependency)
        ∈ scanDependencies env tree root maxDepth days minSize) := by
  have hcls : ∀ (host : Env) (path : String), osBasename path = dirName →
      classify host path dirName dependencyTypes
        = some (⟨".NET", ["bin", "obj", "packages"], ".NET 빌드 및 패키지", "*.csproj"⟩,
            dirName) := by
    intro host path hbase
    have hs : stringsHasSuffix path "vendor/bundle" = false := by
      refine not_suffix_bundle path dirName hbase ?_
      rcases hname with h | h | h <;> rw [h] <;> decide
    rcases hname with h | h | h <;> subst h <;>
      simp [classify, dependencyTypes, matchFolders, folderMatches, indicatorRejects,
        stringsContains, hs]
  refine ⟨hcls, ?_⟩
  intro v hv herr hdir hvname hbase hdepth hrec hsize
  refine (mem_scan env tree root maxDepth days minSize _).2 ⟨v, hv, ?_⟩
  have hhid : hiddenDir v.info.name = false := by
    rw [hvname]
    rcases hname with h | h | h <;> rw [h] <;> decide
  have hc := hcls env v.path hbase
  rw [← hvname] at hc
  exact (mem_emitted _ _ _ _ _ _ _).2
    ⟨herr, hdepth, hdir, hhid, _, _, hc, not_lt.mp hrec, not_lt.mp hsize, rfl⟩

set_option maxRecDepth 100000 in
/-- Witness of claim C8 on `dotnetTree`, whose project holds no `.csproj` file: `app/bin`
is reported as .NET. -/
theorem wildcard_indicator_witness :
    classify (hostWithFiles 0 []) "/r/app/bin" "bin" dependencyTypes
      = some (⟨".NET", ["bin", "obj", "packages"], ".NET 빌드 및 패키지", "*.csproj"⟩, "bin") ∧
    (⟨"/r/app", "/r/app/bin", ".NET", 100, 0, 100⟩ : FoundDependency)
      ∈ scanDependencies (hostOf (100 * nanosPerDay) "/r" dotnetTree) dotnetTree "/r" 5 30 0 :=
  ⟨(wildcard_indicator (hostOf (100 * nanosPerDay) "/r" dotnetTree) dotnetTree "/r" 5 30 0
      "bin" (Or.inl rfl)).1 (hostWithFiles 0 []) "/r/app/bin" (by decide),
    (wildcard_indicator (hostOf (100 * nanosPerDay) "/r" dotnetTree) dotnetTree "/r" 5 30 0
      "bin" (Or.inl rfl)).2 visitBin
      (List.getElem?_mem
        (show (scanVisits (hostOf (100 * nanosPerDay) "/r" dotnetTree) dotnetTree
          "/r" 5 30 0)[2]? = some visitBin from by rfl))
      rfl rfl rfl (by decide) (by decide) (by decide) (by decide)⟩

theorem matchFolders_none_of_rejected (env : Env) (path dirName : String)
    (depType : DependencyType) (folders : List String)
    (h : ∀ g ∈ folders, indicatorRejects env path depType g = true) :
    matchFolders env path dirName depType folders = none := by
  induction folders with
  | nil => rfl
  | cons f rest ih =>
    rw [matchFolders]
    have hf := h f (List.mem_cons_self _ _)
    have hrest := ih (fun g hg => h g (List.mem_cons_of_mem _ hg))
    rw [if_pos hf, hrest]
    simp

theorem indicatorRejects_of_not_exempt (env : Env) (path : String) (depType : DependencyType)
    (f g : String) (hf : indicatorRejects env path depType f = true)
    (hg : g ≠ "node_modules" ∧ g ≠ "__pycache__") :
    indicatorRejects env path depType g = true := by
  unfold indicatorRejects at hf ⊢
  simp only [decide_eq_true_eq, Bool.decide_and, Bool.and_eq_true] at hf ⊢
  exact ⟨hf.1, hf.2.1, hf.2.2.1, hg.1, hg.2⟩

theorem matchFolders_eq_ref_of_not_exempt (env : Env) (path dirName : String)
    (depType : DependencyType) (folders : List String)
    (h : ∀ g ∈ folders, g ≠ "node_modules" ∧ g ≠ "__pycache__") :
    matchFolders env path dirName depType folders
      = matchFoldersRef env path dirName depType folders := by
  induction folders with
  | nil => rfl
  | cons f rest ih =>
    have hrest := ih (fun g hg => h g (List.mem_cons_of_mem _ hg))
    rw [matchFolders, matchFoldersRef, hrest]
    by_cases hm : folderMatches path dirName f = true
    · rw [if_pos hm, if_pos hm]
      by_cases hr : indicatorRejects env path depType f = true
      · rw [if_pos hr, if_pos hr, ← hrest]
        exact matchFolders_none_of_rejected env path dirName depType rest
          (fun g hg => indicatorRejects_of_not_exempt env path depType f g hr
            (h g (List.mem_cons_of_mem _ hg)))
      · rw [if_neg hr, if_neg hr]
    · rw [if_neg hm, if_neg hm]

theorem matchFolders_eq_ref_table (env : Env) (path dirName : String)
    (depType : DependencyType) (hmem : depType ∈ dependencyTypes) :
    matchFolders env path dirName depType depType.Folders
      = matchFoldersRef env path dirName depType depType.Folders := by
  simp only [dependencyTypes, List.mem_cons, List.mem_singleton, List.not_mem_nil,
    or_false] at hmem
  rcases hmem with h | h | h | h | h | h | h | h | h | h
  · subst h
    simp [matchFolders, matchFoldersRef]
  · subst h
    by_cases h1 : dirName = "venv"
    · subst h1
      simp [matchFolders, matchFoldersRef, folderMatches, stringsContains]
    · by_cases h2 : dirName = ".venv"
      · subst h2
        simp [matchFolders, matchFoldersRef, folderMatches, stringsContains]
      · by_cases h3 : dirName = "env"
        · subst h3
          simp [matchFolders, matchFoldersRef, folderMatches, stringsContains]
        · by_cases h4 : dirName = ".env"
          · subst h4
            simp [matchFolders, matchFoldersRef, folderMatches, stringsContains]
          · simp [matchFolders, matchFoldersRef, folderMatches, stringsContains, h1, h2, h3, h4]
  all_goals
    subst h
    exact matchFolders_eq_ref_of_not_exempt env path dirName _ _ (by decide)

theorem classify_eq_ref_of_rules (env : Env) (path dirName : String)
    (rules : List DependencyType)
    (h : ∀ depType ∈ rules, matchFolders env path dirName depType depType.Folders
      = matchFoldersRef env path dirName depType depType.Folders) :
    classify env path dirName rules = classifyRef env path dirName rules := by
  induction rules with
  | nil => rfl
  | cons r rest ih =>
    rw [classify, classifyRef, h r (List.mem_cons_self _ _),
      ih (fun d hd => h d (List.mem_cons_of_mem _ hd))]

/-- Claim C9 (a rejected rule is followed by the next rule).  Over the built-in rule
table the classification `scanDependencies` computes, whose `continue` goes on with the
next folder of the same rule, equals the reference classification that abandons the
rule at its first matching folder and goes on with the next rule, for every directory
name, path and host. -/
theorem classify_refines (env : Env) (path dirName : String) :
    classify env path dirName dependencyTypes = classifyRef env path dirName dependencyTypes :=
  classify_eq_ref_of_rules env path dirName dependencyTypes
    (fun depType hmem => matchFolders_eq_ref_table env path dirName depType hmem)

theorem splitSep_ne_nil (cs : List Char) : splitSep cs ≠ [] := by
  cases cs with
  | nil => simp [splitSep]
  | cons c cs =>
    rw [splitSep]
    split
    · simp
    · split <;> simp

theorem splitSep_append_sep (xs ys : List Char) :
    splitSep (xs ++ '/' :: ys) = splitSep xs ++ splitSep ys := by
  induction xs with
  | nil => simp [splitSep]
  | cons c xs ih =>
    rw [List.cons_append, splitSep, splitSep, ih]
    by_cases hc : c = '/'
    · simp [hc]
    · rw [if_neg hc, if_neg hc]
      cases hx : splitSep xs with
      | nil => exact absurd hx (splitSep_ne_nil xs)
      | cons w ws => simp

theorem splitSep_of_no_sep (w : List Char) (hw : '/' ∉ w) : splitSep w = [w] := by
  induction w with
  | nil => rfl
  | cons c w ih =>
    have hc : c ≠ '/' := fun h => hw (h ▸ List.mem_cons_self _ _)
    have hw2 : '/' ∉ w := fun h => hw (List.mem_cons_of_mem _ h)
    rw [splitSep, if_neg hc, ih hw2]

theorem splitSep_append_word (xs : List Char) :
    ∃ init last, splitSep xs = init ++ [last] ∧
      ∀ w, '/' ∉ w → splitSep (xs ++ w) = init ++ [last ++ w] := by
  induction xs with
  | nil =>
    refine ⟨[], [], rfl, ?_⟩
    intro w hw
    simpa using splitSep_of_no_sep w hw
  | cons c xs ih =>
    obtain ⟨init, last, h1, h2⟩ := ih
    by_cases hc : c = '/'
    · refine ⟨[] :: init, last, ?_, ?_⟩
      · rw [splitSep, if_pos hc, h1]
        rfl
      · intro w hw
        rw [List.cons_append, splitSep, if_pos hc, h2 w hw]
        rfl
    · cases init with
      | nil =>
        refine ⟨[], c :: last, ?_, ?_⟩
        · rw [splitSep, if_neg hc, h1]
          rfl
        · intro w hw
          rw [List.cons_append, splitSep, if_neg hc, h2 w hw]
          rfl
      | cons i is =>
        refine ⟨(c :: i) :: is, last, ?_, ?_⟩
        · rw [splitSep, if_neg hc, h1]
          rfl
        · intro w hw
          rw [List.cons_append, splitSep, if_neg hc, h2 w hw]
          rfl

theorem joinSep_append_singleton (es : List (List Char)) (e : List Char) :
    ∃ pre, joinSep (es ++ [e]) = pre ++ e := by
  induction es with
  | nil => exact ⟨[], rfl⟩
  | cons a es ih =>
    obtain ⟨pre, hpre⟩ := ih
    cases es with
    | nil => exact ⟨a ++ ['/'], by simp [joinSep]⟩
    | cons b es =>
      refine ⟨a ++ '/' :: pre, ?_⟩
      rw [List.cons_append, List.cons_append, joinSep, ← List.cons_append, hpre]
      simp

theorem clean_keeps_last_word (xs w : List Char) (hw : '/' ∉ w)
    (h0 : w ≠ []) (h1 : ∀ l, l ++ w ≠ ['.']) (h2 : ∀ l, l ++ w ≠ ['.', '.']) :
    ∃ pre, (filepathClean ⟨xs ++ w ++ ['/']⟩).data = pre ++ w := by
  obtain ⟨init, last, -, hsplit⟩ := splitSep_append_word xs
  have hs : splitSep (xs ++ w ++ ['/']) = init ++ [last ++ w] ++ [[]] := by
    rw [splitSep_append_sep, hsplit w hw]
    rfl
  have hne : xs ++ w ++ ['/'] ≠ [] := by simp
  have hlw : last ++ w ≠ [] := by simp [h0]
  have helems : ∀ rooted, cleanElems rooted (xs ++ w ++ ['/'])
      = ((init.foldl (cleanStep rooted) []).reverse) ++ [last ++ w] := by
    intro rooted
    unfold cleanElems
    rw [hs, List.foldl_append, List.foldl_append]
    simp only [List.foldl_cons, List.foldl_nil]
    have e1 : cleanStep rooted (List.foldl (cleanStep rooted) [] init) (last ++ w)
        = (last ++ w) :: List.foldl (cleanStep rooted) [] init := by
      unfold cleanStep
      rw [if_neg (by
        rintro (h | h)
        · exact hlw h
        · exact h1 last h), if_neg (h2 last)]
    rw [e1]
    simp [cleanStep]
  unfold filepathClean
  simp only [hne, if_false]
  split
  · obtain ⟨pre, hpre⟩ := joinSep_append_singleton
      ((init.foldl (cleanStep true) []).reverse) (last ++ w)
    rename_i hr
    simp only [hr, decide_True] at *
    refine ⟨'/' :: pre ++ last, ?_⟩
    rw [helems, hpre]
    simp
  · rename_i hr
    obtain ⟨pre, hpre⟩ := joinSep_append_singleton
      ((init.foldl (cleanStep false) []).reverse) (last ++ w)
    simp only [hr, decide_False] at *
    rw [helems]
    simp only [List.append_eq_nil, List.cons_ne_self, and_false, if_false, reduceCtorEq]
    refine ⟨pre ++ last, ?_⟩
    rw [hpre]
    simp

theorem dir_of_vendor_bundle (path : String)
    (h : stringsHasSuffix path "vendor/bundle" = true) :
    stringsHasSuffix (filepathDir path) "vendor" = true := by
  unfold stringsHasSuffix at h
  rw [List.isPrefixOf_iff_prefix] at h
  obtain ⟨t, ht⟩ := h
  have hlit : "vendor/bundle".data.reverse
      = ['e', 'l', 'd', 'n', 'u', 'b', '/', 'r', 'o', 'd', 'n', 'e', 'v'] := by decide
  rw [hlit] at ht
  have hdir : dirPrefix path.data = t.reverse ++ ['v', 'e', 'n', 'd', 'o', 'r'] ++ ['/'] := by
    unfold dirPrefix
    rw [← ht]
    simp [List.dropWhile]
  obtain ⟨pre, hpre⟩ := clean_keeps_last_word t.reverse ['v', 'e', 'n', 'd', 'o', 'r']
    (by decide) (by decide)
    (by
      intro l hl
      have := congrArg List.length hl
      simp at this)
    (by
      intro l hl
      have := congrArg List.length hl
      simp at this)
  unfold filepathDir
  rw [hdir]
  unfold stringsHasSuffix
  rw [List.isPrefixOf_iff_prefix, hpre]
  have hv : "vendor".data.reverse = ['r', 'o', 'd', 'n', 'e', 'v'] := by decide
  rw [hv]
  exact ⟨pre.reverse, by simp⟩

theorem classify_congr (env host : Env) (path dirName : String) (rules : List DependencyType)
    (h : ∀ depType ∈ rules,
      host.statNotExist (filepathJoin (filepathDir path) depType.Indicator)
        = env.statNotExist (filepathJoin (filepathDir path) depType.Indicator)) :
    classify host path dirName rules = classify env path dirName rules := by
  induction rules with
  | nil => rfl
  | cons r rest ih =>
    have hr := h r (List.mem_cons_self _ _)
    have hm : ∀ folders, matchFolders host path dirName r folders
        = matchFolders env path dirName r folders := by
      intro folders
      induction folders with
      | nil => rfl
      | cons f fs ihf =>
        rw [matchFolders, matchFolders, ihf]
        have : indicatorRejects host path r f = indicatorRejects env path r f := by
          unfold indicatorRejects
          rw [hr]
        rw [this]
    rw [classify, classify, hm, ih (fun d hd => h d (List.mem_cons_of_mem _ hd))]

/-- What holds of `ProjectPath`: every dependency `scanDependencies` returns has
`ProjectPath = filepath.Dir(DepPath)`, and when its `DepPath` ends in the compound folder
`vendor/bundle` its `ProjectPath` ends in `vendor`; and the classification reads the host
only through `os.Stat` of the rules' indicators joined to that same directory
`filepath.Dir(path)`. -/
theorem projectPath_is_dir (env : Env) (tree : Node) (root : String)
    (maxDepth days minSize : Int) :
    (∀ d ∈ scanDependencies env tree root maxDepth days minSize,
      d.ProjectPath = filepathDir d.DepPath ∧
      (stringsHasSuffix d.DepPath "vendor/bundle" = true →
        stringsHasSuffix d.ProjectPath "vendor" = true)) ∧
    (∀ (host : Env) (path dirName : String),
      (∀ depType ∈ dependencyTypes,
        host.statNotExist (filepathJoin (filepathDir path) depType.Indicator)
          = env.statNotExist (filepathJoin (filepathDir path) depType.Indicator)) →
      classify host path dirName dependencyTypes = classify env path dirName dependencyTypes) := by
  constructor
  · intro d hd
    obtain ⟨v, _, hdv⟩ := (mem_scan env tree root maxDepth days minSize d).1 hd
    obtain ⟨_, _, _, _, depType, folder, _, _, _, rfl⟩ := (mem_emitted _ _ _ _ _ _ _).1 hdv
    exact ⟨rfl, fun h => dir_of_vendor_bundle v.path h⟩
  · intro host path dirName h
    exact classify_congr env host path dirName dependencyTypes h

set_option maxRecDepth 100000 in
/-- Scanning `/p/vendor/bundle` reports it with `/p/vendor` as the project, the directory
where the `Gemfile` was looked up, not `/p`. -/
theorem projectPath_is_dir_example :
    bundleDep ∈ scanDependencies bundleHost bundleTree "/p/vendor/bundle" 5 30 0 ∧
    stringsHasSuffix bundleDep.DepPath "vendor/bundle" = true ∧
    bundleDep.ProjectPath = filepathDir bundleDep.DepPath ∧
    stringsHasSuffix bundleDep.ProjectPath "vendor" = true ∧
    classify (hostWithFiles 0 ["/p/vendor/Gemfile"]) "/p/vendor/bundle" "bundle" dependencyTypes
      = classify bundleHost "/p/vendor/bundle" "bundle" dependencyTypes :=
  ⟨by decide, by decide,
    ((projectPath_is_dir bundleHost bundleTree "/p/vendor/bundle" 5 30 0).1
      bundleDep (by decide)).1,
    ((projectPath_is_dir bundleHost bundleTree "/p/vendor/bundle" 5 30 0).1
      bundleDep (by decide)).2 (by decide),
    (projectPath_is_dir bundleHost bundleTree "/p/vendor/bundle" 5 30 0).2
      (hostWithFiles 0 ["/p/vendor/Gemfile"]) "/p/vendor/bundle" "bundle" (by decide)⟩

set_option maxRecDepth 100000 in
/-- The two classifications differ on other tables: when a rule lists a compound folder
before an exempt folder that matches the same directory, `continue` reaches the exempt
folder while the reference abandons the rule. -/
theorem classify_differs_on_other_table :
    classify (hostWithFiles 0 []) "x/a/__pycache__" "__pycache__"
        [⟨"T", ["a/__pycache__", "__pycache__"], "", "ind"⟩]
      ≠ classifyRef (hostWithFiles 0 []) "x/a/__pycache__" "__pycache__"
        [⟨"T", ["a/__pycache__", "__pycache__"], "", "ind"⟩] := by
  decide

theorem wrapInt64_range (x : Int) : -2 ^ 63 ≤ wrapInt64 x ∧ wrapInt64 x < 2 ^ 63 := by
  unfold wrapInt64
  omega

theorem wrapInt64_of_range (x : Int) (h : -2 ^ 63 ≤ x ∧ x < 2 ^ 63) : wrapInt64 x = x := by
  unfold wrapInt64
  omega

theorem wrapInt64_add_left (x y : Int) : wrapInt64 (wrapInt64 x + y) = wrapInt64 (x + y) := by
  unfold wrapInt64
  omega

theorem wrapInt64_add_right (x y : Int) : wrapInt64 (x + wrapInt64 y) = wrapInt64 (x + y) := by
  unfold wrapInt64
  omega

mutual
theorem walk_dirSize (pos : List Nat) (path : String) :
    ∀ (info : Node) (s : Int),
      (walk dirSizeFn pos path info s).2.1 = .nil ∧
      wrapInt64 (walk dirSizeFn pos path info s).1 = wrapInt64 (s + info.fileBytes) ∧
      (isInt64 s → isInt64 (walk dirSizeFn pos path info s).1)
  | .dir name size mt readErr entries, s => by
    rw [walk]
    cases readErr with
    | true => simp [dirSizeFn, Node.fileBytes]
    | false =>
      have h := walkNames_dirSize pos path 0 entries s
      simp only [dirSizeFn, Node.isDir, Node.fileBytes]
      simpa using h
  | .file name size mt, s => by
    simp only [walk, dirSizeFn, Node.isDir, Node.fileBytes, Node.size]
    refine ⟨rfl, ?_, fun _ => ?_⟩
    · simp [wrapInt64_add_left, wrapInt64]
    · simpa [isInt64] using wrapInt64_range (s + size)
  | .broken name, s => by
    simp [walk, dirSizeFn, Node.fileBytes]
theorem walkNames_dirSize (pos : List Nat) (path : String) :
    ∀ (i : Nat) (names : List Node) (s : Int),
      (walkNames dirSizeFn pos path i names s).2.1 = .nil ∧
      wrapInt64 (walkNames dirSizeFn pos path i names s).1
        = wrapInt64 (s + fileBytesAll names) ∧
      (isInt64 s → isInt64 (walkNames dirSizeFn pos path i names s).1)
  | _, [], s => by simp [walkNames, fileBytesAll]
  | i, c :: rest, s => by
    rw [walkNames]
    obtain ⟨h1, h2, h3⟩ := walk_dirSize (pos ++ [i]) (filepathJoin path c.name) c s
    obtain ⟨g1, g2, g3⟩ := walkNames_dirSize pos path (i + 1) rest
      (walk dirSizeFn (pos ++ [i]) (filepathJoin path c.name) c s).1
    simp only [h1, false_and, or_self, if_false, reduceCtorEq]
    refine ⟨g1, ?_, fun hs => g3 (h3 hs)⟩
    rw [g2, fileBytesAll, ← wrapInt64_add_left, h2, wrapInt64_add_left]
    congr 1
    ring
end

theorem getDirSize_eq (path : String) (info : Node) :
    getDirSize path info = wrapInt64 info.fileBytes := by
  unfold getDirSize filepathWalk
  obtain ⟨_, h2, h3⟩ := walk_dirSize [] path info 0
  have hr := h3 (by unfold isInt64; omega)
  rw [← wrapInt64_of_range _ hr, h2]
  simp

theorem wrapInt64_sum_map (f : Node → Int) (l : List Node) :
    wrapInt64 (l.map (fun c => wrapInt64 (f c))).sum = wrapInt64 (l.map f).sum := by
  induction l with
  | nil => rfl
  | cons c rest ih =>
    simp only [List.map_cons, List.sum_cons]
    rw [wrapInt64_add_left, ← wrapInt64_add_right, ih, wrapInt64_add_right]

theorem fileBytesAll_eq_sum (l : List Node) : fileBytesAll l = (l.map Node.fileBytes).sum := by
  induction l with
  | nil => rfl
  | cons c rest ih => simp [fileBytesAll, ih]

/-- Claim C11 (aggregate size).  `getDirSize(path)` is the sum, taken in `int64`, of
the sizes of all entries other than directories in the subtree at `path`: directories
and entries whose `Lstat` fails count for nothing (and what an unreadable directory
holds is not seen).  It is the exact sum whenever that sum is an `int64`; for a
readable directory it is the `int64` sum of `getDirSize` over its entries; and
`fs.GetDirSize` agrees with it on a path that exists and returns `0` on a path that
`os.Stat` reports missing. -/
theorem aggregate_size (env : Env) (path : String) (info : Node) :
    getDirSize path info = wrapInt64 info.fileBytes ∧
    (isInt64 info.fileBytes → getDirSize path info = info.fileBytes) ∧
    (∀ name size mt entries, info = .dir name size mt false entries →
      getDirSize path info
        = wrapInt64 (entries.map (fun c => getDirSize (filepathJoin path c.name) c)).sum) ∧
    (env.statNotExist path = false → fsGetDirSize env path info = getDirSize path info) ∧
    (env.statNotExist path = true → fsGetDirSize env path info = 0) := by
  refine ⟨getDirSize_eq path info, ?_, ?_, ?_, ?_⟩
  · intro h
    rw [getDirSize_eq]
    exact wrapInt64_of_range _ h
  · intro name size mt entries hinfo
    subst hinfo
    rw [getDirSize_eq]
    have : (fun c => getDirSize (filepathJoin path c.name) c)
        = fun c => wrapInt64 (Node.fileBytes c) := by
      funext c
      exact getDirSize_eq _ c
    rw [this, wrapInt64_sum_map, ← fileBytesAll_eq_sum]
    simp [Node.fileBytes]
  · intro h
    simp [fsGetDirSize, h, getDirSize]
  · intro h
    simp [fsGetDirSize, h]

set_option maxRecDepth 100000 in
/-- Witness of claim C11 on `sampleTree`: the files hold 62914579 bytes in all, the
directories, 4096 bytes each, count for nothing. -/
theorem aggregate_size_witness :
    getDirSize "/r" sampleTree = 62914579 ∧
    sampleTree.fileBytes = 62914579 ∧
    fsGetDirSize sampleHost "/r" sampleTree = 62914579 ∧
    fsGetDirSize sampleHost "/gone" (.broken "gone") = 0 :=
  ⟨((aggregate_size sampleHost "/r" sampleTree).2.1 (by decide)).trans (by decide),
    by decide,
    ((aggregate_size sampleHost "/r" sampleTree).2.2.2.1 (by decide)).trans (by decide),
    (aggregate_size sampleHost "/gone" (.broken "gone")).2.2.2.2 (by decide)⟩

mutual
theorem walk_lastAccess (pos : List Nat) (path : String) :
    ∀ (info : Node) (s : Int),
      (walk lastAccessFn pos path info s).2.1 = .nil ∧
      (walk lastAccessFn pos path info s).1 = info.seenModTimes.foldl max s
  | .dir name size mt readErr entries, s => by
    rw [walk]
    cases readErr with
    | true => simp [lastAccessFn, Node.seenModTimes]
    | false =>
      have hfn : lastAccessFn s path (.dir name size mt false entries) false
          = (max s mt, .nil) := by
        simp only [lastAccessFn, Node.modTime]
        by_cases h : mt > s
        · simp [h, max_eq_right (le_of_lt h)]
        · simp [h, max_eq_left (not_lt.mp h)]
      have h := walkNames_lastAccess pos path 0 entries (max s mt)
      simp only [hfn, Node.seenModTimes]
      simpa using h
  | .file name size mt, s => by
    simp only [walk, lastAccessFn, Node.modTime, Node.seenModTimes]
    by_cases h : mt > s
    · simp [h, max_eq_right (le_of_lt h)]
    · simp [h, max_eq_left (not_lt.mp h)]
  | .broken name, s => by
    simp [walk, lastAccessFn, Node.seenModTimes]
theorem walkNames_lastAccess (pos : List Nat) (path : String) :
    ∀ (i : Nat) (names : List Node) (s : Int),
      (walkNames lastAccessFn pos path i names s).2.1 = .nil ∧
      (walkNames lastAccessFn pos path i names s).1 = (seenModTimesAll names).foldl max s
  | _, [], s => by simp [walkNames, seenModTimesAll]
  | i, c :: rest, s => by
    rw [walkNames]
    obtain ⟨h1, h2⟩ := walk_lastAccess (pos ++ [i]) (filepathJoin path c.name) c s
    obtain ⟨g1, g2⟩ := walkNames_lastAccess pos path (i + 1) rest
      (walk lastAccessFn (pos ++ [i]) (filepathJoin path c.name) c s).1
    simp only [h1, false_and, or_self, if_false, reduceCtorEq]
    refine ⟨g1, ?_⟩
    rw [g2, h2, seenModTimesAll, List.foldl_append]
end

theorem foldl_max_ge (l : List Int) (s : Int) :
    s ≤ l.foldl max s ∧ (∀ t ∈ l, t ≤ l.foldl max s) ∧
    (l.foldl max s = s ∨ l.foldl max s ∈ l) := by
  induction l generalizing s with
  | nil => simp
  | cons a rest ih =>
    obtain ⟨h1, h2, h3⟩ := ih (max s a)
    simp only [List.foldl_cons, List.mem_cons]
    refine ⟨le_trans (le_max_left s a) h1, ?_, ?_⟩
    · rintro t (rfl | ht)
      · exact le_trans (le_max_right s t) h1
      · exact h2 t ht
    · rcases h3 with h | h
      · rcases max_choice s a with hm | hm
        · exact Or.inl (h.trans hm)
        · exact Or.inr (Or.inl (h.trans hm))
      · exact Or.inr (Or.inr h)

theorem seenModTimes_sub_all (c : Node) :
    ∀ entries : List Node, c ∈ entries → ∀ t ∈ c.seenModTimes, t ∈ seenModTimesAll entries
  | [], h => absurd h (List.not_mem_nil _)
  | e :: rest, h => by
    intro t ht
    rw [seenModTimesAll, List.mem_append]
    rcases List.mem_cons.1 h with h | h
    · exact Or.inl (h ▸ ht)
    · exact Or.inr (seenModTimes_sub_all c rest h t ht)

/-- The times a walk of an entry reads are among those a walk of the tree reads, when
the entry is reached through directories that can be read. -/
theorem seenModTimes_at : ∀ (q : List Nat) (info n : Node), info.at? q = some n →
    ∀ t ∈ n.seenModTimes, t ∈ info.seenModTimes
  | [], info, n, h => by
    cases info <;> simp only [Node.at?, Option.some.injEq] at h <;> subst h <;> exact fun t ht => ht
  | i :: rest, .dir name size mt readErr entries, n, h => by
    cases readErr with
    | true => simp [Node.at?] at h
    | false =>
      simp only [Node.at?] at h
      cases hc : entries[i]? with
      | none => rw [hc] at h; exact Option.noConfusion h
      | some c =>
        rw [hc] at h
        intro t ht
        have h1 := seenModTimes_at rest c n h t ht
        have hmem : c ∈ entries := List.getElem?_mem hc
        simp only [Node.seenModTimes, Bool.false_eq_true, if_false, List.mem_cons]
        exact Or.inr (seenModTimes_sub_all c entries hmem t h1)
  | _ :: _, .file _ _ _, n, h => by simp [Node.at?] at h
  | _ :: _, .broken _, n, h => by simp [Node.at?] at h

/-- Claim C12 (aggregate recency).  For a path on which `os.Stat` succeeds, with the
modification time `t0`, `getLastAccessTime` is the maximum of `t0` and of the modification
times of the path itself and of every entry beneath it that the walk reads without error:
it is not earlier than `t0`, nor than the modification time of any file, and of any
directory that can be read, reached from the path through directories that can be read;
and it is one of these times. -/
theorem aggregate_recency (env : Env) (path : String) (info : Node) (t0 : Int)
    (hstat : env.statModTime path = some t0) :
    getLastAccessTime env path info = info.seenModTimes.foldl max t0 ∧
    t0 ≤ getLastAccessTime env path info ∧
    (∀ t ∈ info.seenModTimes, t ≤ getLastAccessTime env path info) ∧
    (∀ (q : List Nat) (name : String) (size t : Int),
      info.at? q = some (.file name size t) → t ≤ getLastAccessTime env path info) ∧
    (∀ (q : List Nat) (name : String) (size t : Int) (entries : List Node),
      info.at? q = some (.dir name size t false entries) →
      t ≤ getLastAccessTime env path info) ∧
    (getLastAccessTime env path info = t0 ∨
      getLastAccessTime env path info ∈ info.seenModTimes) := by
  have heq : getLastAccessTime env path info = info.seenModTimes.foldl max t0 := by
    unfold getLastAccessTime filepathWalk
    rw [hstat]
    exact (walk_lastAccess [] path info t0).2
  obtain ⟨h1, h2, h3⟩ := foldl_max_ge info.seenModTimes t0
  rw [heq]
  refine ⟨rfl, h1, h2, ?_, ?_, h3⟩
  · intro q name size t hq
    exact h2 t (seenModTimes_at q info _ hq t (by simp [Node.seenModTimes]))
  · intro q name size t entries hq
    exact h2 t (seenModTimes_at q info _ hq t (by simp [Node.seenModTimes]))

/-- When `os.Stat` fails on the path, as on a symbolic link whose target is missing,
`getLastAccessTime` is the current time. -/
theorem getLastAccessTime_of_stat_error (env : Env) (path : String) (info : Node)
    (hstat : env.statModTime path = none) : getLastAccessTime env path info = env.now := by
  unfold getLastAccessTime
  rw [hstat]

set_option maxRecDepth 100000 in
/-- Witness of claim C12 on `sampleTree`, whose newest entry is `projectB/target/a`,
modified on day 95; and on a symbolic link last modified on day 10 to a directory last
modified on day 70, where the result is day 70. -/
theorem aggregate_recency_witness :
    sampleHost.statModTime "/r" = some 0 ∧
    getLastAccessTime sampleHost "/r" sampleTree = 95 * nanosPerDay ∧
    (0 : Int) ≤ getLastAccessTime sampleHost "/r" sampleTree ∧
    60 * nanosPerDay ∈ sampleTree.seenModTimes ∧
    60 * nanosPerDay ≤ getLastAccessTime sampleHost "/r" sampleTree ∧
    getLastAccessTime linkHost "/r/link" (.file "link" 9 (10 * nanosPerDay))
      = 70 * nanosPerDay ∧
    getLastAccessTime linkHost "/r/dangling" (.file "dangling" 9 (10 * nanosPerDay))
      = 100 * nanosPerDay :=
  ⟨by decide, by decide,
    (aggregate_recency sampleHost "/r" sampleTree 0 (by decide)).2.1,
    by decide,
    (aggregate_recency sampleHost "/r" sampleTree 0 (by decide)).2.2.1 (60 * nanosPerDay)
      (by decide),
    by decide, by decide⟩

mutual
theorem walk_excl_err {σ : Type} (fn : WalkFunc σ) (pos : List Nat) (path : String) :
    ∀ (info : Node) (s : σ), ∀ v ∈ (walk fn pos path info s).2.2,
      ∀ w ∈ (walk fn pos path info s).2.2, v.err = true → v.pos <+: w.pos → w.pos = v.pos
  | .dir name size mt readErr entries, s => by
    rw [walk]
    intro v hv w hw herr hpre
    by_cases h : readErr = true ∨ (fn s path (.dir name size mt readErr entries) readErr).2 ≠ .nil
    · rw [if_pos h] at hv hw
      simp only [List.mem_singleton] at hv hw
      rw [hv, hw]
    · rw [if_neg h] at hv hw
      simp only [List.mem_cons] at hv hw
      rcases hv with hv | hv
      · subst hv
        exact absurd herr (by simp)
      · obtain ⟨j, _, hj⟩ := walkNames_pos fn pos path 0 entries _ v hv
        rcases hw with hw | hw
        · subst hw
          exact absurd (hj.trans hpre) not_snoc_prefix
        · exact walkNames_excl_err fn pos path 0 entries _ v hv w hw herr hpre
  | .file name size mt, s => by
    intro v hv w hw _ _
    simp only [walk, List.mem_singleton] at hv hw
    rw [hv, hw]
  | .broken name, s => by
    intro v hv w hw _ _
    simp only [walk, List.mem_singleton] at hv hw
    rw [hv, hw]
theorem walkNames_excl_err {σ : Type} (fn : WalkFunc σ) (pos : List Nat) (path : String) :
    ∀ (i : Nat) (names : List Node) (s : σ), ∀ v ∈ (walkNames fn pos path i names s).2.2,
      ∀ w ∈ (walkNames fn pos path i names s).2.2,
        v.err = true → v.pos <+: w.pos → w.pos = v.pos
  | _, [], s => by simp [walkNames]
  | i, c :: rest, s => by
    rw [walkNames]
    intro v hv w hw herr hpre
    have h1 := walk_excl_err fn (pos ++ [i]) (filepathJoin path c.name) c s
    have p1 := walk_pos fn (pos ++ [i]) (filepathJoin path c.name) c s
    by_cases h : (walk fn (pos ++ [i]) (filepathJoin path c.name) c s).2.1 = .abort ∨
        ((walk fn (pos ++ [i]) (filepathJoin path c.name) c s).2.1 = .skipDir ∧
          c.isDir = false ∧ c.lstatErr = false)
    · rw [if_pos h] at hv hw
      exact h1 v hv w hw herr hpre
    · rw [if_neg h] at hv hw
      have p2 := walkNames_pos fn pos path (i + 1) rest
        (walk fn (pos ++ [i]) (filepathJoin path c.name) c s).1
      simp only [List.mem_append] at hv hw
      rcases hv with hv | hv <;> rcases hw with hw | hw
      · exact h1 v hv w hw herr hpre
      · obtain ⟨j, hij, hj⟩ := p2 w hw
        have := snoc_prefix_inj ((p1 v hv).trans hpre) hj
        omega
      · obtain ⟨j, hij, hj⟩ := p2 v hv
        have := snoc_prefix_inj (p1 w hw) (hj.trans hpre)
        omega
      · exact walkNames_excl_err fn pos path (i + 1) rest _ v hv w hw herr hpre
end

theorem scanVisits_excl_err (env : Env) (tree : Node) (root : String)
    (maxDepth days minSize : Int) (v w : Visit)
    (hv : v ∈ scanVisits env tree root maxDepth days minSize)
    (hw : w ∈ scanVisits env tree root maxDepth days minSize)
    (herr : v.err = true) (hpre : v.pos <+: w.pos) : w.pos = v.pos := by
  unfold scanVisits filepathWalk at hv hw
  exact walk_excl_err _ _ _ _ _ v hv w hw herr hpre

theorem emitted_nil_of_hidden (env : Env) (root : String) (maxDepth cutoff minSize : Int)
    (v : Visit) (h : hiddenDir v.info.name = true) :
    emitted env root maxDepth cutoff minSize v = [] := by
  refine List.eq_nil_iff_forall_not_mem.mpr (fun x hx => ?_)
  obtain ⟨_, _, _, hh, _⟩ := (mem_emitted _ _ _ _ _ _ _).1 hx
  rw [h] at hh
  exact absurd hh (by decide)

theorem emitted_nil_of_unclassified (env : Env) (root : String)
    (maxDepth cutoff minSize : Int) (v : Visit)
    (h : classify env v.path v.info.name dependencyTypes = none) :
    emitted env root maxDepth cutoff minSize v = [] := by
  refine List.eq_nil_iff_forall_not_mem.mpr (fun x hx => ?_)
  obtain ⟨_, _, _, _, depType, folder, hc, _⟩ := (mem_emitted _ _ _ _ _ _ _).1 hx
  rw [h] at hc
  exact Option.noConfusion hc

theorem scanFn_eq_of_emitted_nil (env : Env) (root : String) (maxDepth cutoff minSize : Int)
    (v : Visit) (found : List FoundDependency)
    (h : emitted env root maxDepth cutoff minSize v = []) :
    (scanFn env root maxDepth cutoff minSize found v.path v.info v.err).1 = found := by
  rw [scanFn_fst]
  simp only [emitted] at h
  rw [h, List.append_nil]

/-- Claim C16 (hidden directories).  When the walk calls its callback, without error
and within the depth limit, on a directory whose name starts with `.` and is none of
`.`, `.gradle`, `.venv`, `.env`, `.bundle`, the callback appends nothing and returns
`SkipDir` on every host, so the directory is not reported and no call of the walk is on
a strict descendant; the four allow-listed names are not hidden and such a directory
is reported once it is classified and passes the recency and size filters. -/
theorem hidden_directory_rule (env : Env) (tree : Node) (root : String)
    (maxDepth days minSize : Int) :
    (∀ v ∈ scanVisits env tree root maxDepth days minSize,
      v.err = false → v.info.isDir = true → depthOf root v.path ≤ maxDepth →
      stringsHasPrefix v.info.name "." = true →
      v.info.name ≠ "." ∧ v.info.name ≠ ".gradle" ∧ v.info.name ≠ ".venv" ∧
        v.info.name ≠ ".env" ∧ v.info.name ≠ ".bundle" →
      (∀ found, scanFn env root maxDepth (cutoffTime env days) minSize found
        v.path v.info v.err = (found, .skipDir)) ∧
      (∀ w ∈ scanVisits env tree root maxDepth days minSize,
        v.pos <+: w.pos → w.pos = v.pos)) ∧
    (∀ v ∈ scanVisits env tree root maxDepth days minSize,
      v.err = false → v.info.isDir = true → depthOf root v.path ≤ maxDepth →
      v.info.name = ".gradle" ∨ v.info.name = ".venv" ∨ v.info.name = ".env" ∨
        v.info.name = ".bundle" →
      hiddenDir v.info.name = false ∧
      ∀ depType folder,
        classify env v.path v.info.name dependencyTypes = some (depType, folder) →
        ¬ (getLastAccessTime env v.path v.info > cutoffTime env days) →
        ¬ (getDirSize v.path v.info < minSize) →
        (⟨filepathDir v.path, v.path, depType.Name, getDirSize v.path v.info,
          getLastAccessTime env v.path v.info,
          env.daysSince (getLastAccessTime env v.path v.info)⟩ : FoundDependency)
          ∈ scanDependencies env tree root maxDepth days minSize) := by
  constructor
  · intro v hv herr hdir _ hdot hnot
    have hh : hiddenDir v.info.name = true := by
      unfold hiddenDir
      simp [hdot, hnot.1, hnot.2.1, hnot.2.2.1, hnot.2.2.2.1, hnot.2.2.2.2]
    have hterm : depthOf root v.path > maxDepth ∨ hiddenDir v.info.name = true ∨
        (classify env v.path v.info.name dependencyTypes).isSome = true ∨
        skipDirs v.info.name = true := Or.inr (Or.inl hh)
    have hskip := scanFn_skipDir env root maxDepth (cutoffTime env days) minSize
    constructor
    · intro found
      have h1 := scanFn_eq_of_emitted_nil env root maxDepth (cutoffTime env days) minSize v
        found (emitted_nil_of_hidden env root maxDepth (cutoffTime env days) minSize v hh)
      have h3 := hskip found v.path v.info hdir hterm
      rw [herr] at h1 ⊢
      exact Prod.ext h1 h3
    · have hret : v.ret ≠ .nil := by
        rw [scanVisits_ret env tree root maxDepth days minSize v hv, herr,
          hskip [] v.path v.info hdir hterm]
        decide
      exact fun w hw hpre =>
        scanVisits_excl env tree root maxDepth days minSize v w hv hw hret hpre
  · intro v hv herr hdir hdepth hname
    have hh : hiddenDir v.info.name = false := by
      rcases hname with h | h | h | h <;> rw [h] <;> decide
    refine ⟨hh, ?_⟩
    intro depType folder hcls hrec hsize
    refine (mem_scan env tree root maxDepth days minSize _).2 ⟨v, hv, ?_⟩
    exact (mem_emitted _ _ _ _ _ _ _).2
      ⟨herr, hdepth, hdir, hh, depType, folder, hcls, not_lt.mp hrec, not_lt.mp hsize, rfl⟩

set_option maxRecDepth 100000 in
/-- Witness of claim C16 on `hiddenTree`: `.git` is pruned although it holds a
`node_modules`, and the allow-listed `.venv` is reported. -/
theorem hidden_directory_rule_witness :
    (scanFn hiddenHost "/r" 5 (cutoffTime hiddenHost 30) 0 [] visitGit.path visitGit.info
      visitGit.err = ([], .skipDir)) ∧
    (∀ w ∈ scanVisits hiddenHost hiddenTree "/r" 5 30 0,
      visitGit.pos <+: w.pos → w.pos = visitGit.pos) ∧
    (⟨"/r", "/r/.venv", "Python venv", 5, 0, 100⟩ : FoundDependency)
      ∈ scanDependencies hiddenHost hiddenTree "/r" 5 30 0 :=
  ⟨((hidden_directory_rule hiddenHost hiddenTree "/r" 5 30 0).1 visitGit
      (List.getElem?_mem
        (show (scanVisits hiddenHost hiddenTree "/r" 5 30 0)[1]? = some visitGit from by rfl))
      rfl rfl (by decide) (by decide) (by decide)).1 [],
    ((hidden_directory_rule hiddenHost hiddenTree "/r" 5 30 0).1 visitGit
      (List.getElem?_mem
        (show (scanVisits hiddenHost hiddenTree "/r" 5 30 0)[1]? = some visitGit from by rfl))
      rfl rfl (by decide) (by decide) (by decide)).2,
    ((hidden_directory_rule hiddenHost hiddenTree "/r" 5 30 0).2 visitVenv
      (List.getElem?_mem
        (show (scanVisits hiddenHost hiddenTree "/r" 5 30 0)[2]? = some visitVenv from by rfl))
      rfl rfl (by decide) (Or.inr (Or.inl rfl))).2 _ _
      (show classify hiddenHost visitVenv.path visitVenv.info.name dependencyTypes
        = some (⟨"Python venv", ["venv", ".venv", "env", ".env", "__pycache__"],
            "Python 가상환경 및 캐시", "requirements.txt"⟩, ".venv") from by rfl)
      (by decide) (by decide)⟩

/-- Claim C17 (always-skip set).  No call of the walk is on a strict descendant of a
directory named `node_modules`, `vendor`, `.gradle`, `target`, `build`, `venv` or
`.venv` on which the walk called its callback, whether the directory was classified or
not; and when its classification fails the callback appends nothing and returns
`SkipDir`: the directory is pruned and not reported. -/
theorem always_skip_set (env : Env) (tree : Node) (root : String)
    (maxDepth days minSize : Int) (v : Visit)
    (hv : v ∈ scanVisits env tree root maxDepth days minSize)
    (hdir : v.info.isDir = true)
    (hname : v.info.name = "node_modules" ∨ v.info.name = "vendor" ∨
      v.info.name = ".gradle" ∨ v.info.name = "target" ∨ v.info.name = "build" ∨
      v.info.name = "venv" ∨ v.info.name = ".venv") :
    (∀ w ∈ scanVisits env tree root maxDepth days minSize, v.pos <+: w.pos → w.pos = v.pos) ∧
    (v.err = false → classify env v.path v.info.name dependencyTypes = none →
      ∀ found, scanFn env root maxDepth (cutoffTime env days) minSize found
        v.path v.info v.err = (found, .skipDir)) := by
  have hskipName : skipDirs v.info.name = true := by
    rcases hname with h | h | h | h | h | h | h <;> rw [h] <;> decide
  have hterm : depthOf root v.path > maxDepth ∨ hiddenDir v.info.name = true ∨
      (classify env v.path v.info.name dependencyTypes).isSome = true ∨
      skipDirs v.info.name = true := Or.inr (Or.inr (Or.inr hskipName))
  have hskip := scanFn_skipDir env root maxDepth (cutoffTime env days) minSize
  constructor
  · intro w hw hpre
    cases herr : v.err with
    | true => exact scanVisits_excl_err env tree root maxDepth days minSize v w hv hw herr hpre
    | false =>
      have hret : v.ret ≠ .nil := by
        rw [scanVisits_ret env tree root maxDepth days minSize v hv, herr,
          hskip [] v.path v.info hdir hterm]
        decide
      exact scanVisits_excl env tree root maxDepth days minSize v w hv hw hret hpre
  · intro herr hcls found
    have h1 := scanFn_eq_of_emitted_nil env root maxDepth (cutoffTime env days) minSize v
      found (emitted_nil_of_unclassified env root maxDepth (cutoffTime env days) minSize v hcls)
    have h3 := hskip found v.path v.info hdir hterm
    rw [herr] at h1 ⊢
    exact Prod.ext h1 h3

set_option maxRecDepth 100000 in
/-- Witness of claim C17 on `sampleTree`: `projectC/target` is not classified, is
pruned, and its `bin` is never reached. -/
theorem always_skip_set_witness :
    visitC ∈ scanVisits sampleHost sampleTree "/r" 5 30 0 ∧
    classify sampleHost visitC.path visitC.info.name dependencyTypes = none ∧
    (∀ w ∈ scanVisits sampleHost sampleTree "/r" 5 30 0,
      visitC.pos <+: w.pos → w.pos = visitC.pos) ∧
    scanFn sampleHost "/r" 5 (cutoffTime sampleHost 30) 0 [] visitC.path visitC.info
      visitC.err = ([], .skipDir) :=
  ⟨List.getElem?_mem
      (show (scanVisits sampleHost sampleTree "/r" 5 30 0)[8]? = some visitC from by rfl),
    by decide,
    (always_skip_set sampleHost sampleTree "/r" 5 30 0 visitC
      (List.getElem?_mem
        (show (scanVisits sampleHost sampleTree "/r" 5 30 0)[8]? = some visitC from by rfl))
      rfl (Or.inr (Or.inr (Or.inr (Or.inl rfl))))).1,
    (always_skip_set sampleHost sampleTree "/r" 5 30 0 visitC
      (List.getElem?_mem
        (show (scanVisits sampleHost sampleTree "/r" 5 30 0)[8]? = some visitC from by rfl))
      rfl (Or.inr (Or.inr (Or.inr (Or.inl rfl))))).2 rfl (by decide) []⟩

theorem emitted_length_le (env : Env) (root : String) (maxDepth cutoff minSize : Int)
    (v : Visit) : (emitted env root maxDepth cutoff minSize v).length ≤ 1 := by
  unfold emitted scanFn
  dsimp only
  repeat' split
  all_goals simp

theorem emitted_eq_toList (env : Env) (root : String) (maxDepth cutoff minSize : Int)
    (v : Visit) :
    emitted env root maxDepth cutoff minSize v
      = (reported env root maxDepth cutoff minSize v).toList := by
  have h := emitted_length_le env root maxDepth cutoff minSize v
  unfold reported
  cases he : emitted env root maxDepth cutoff minSize v with
  | nil => rfl
  | cons a rest =>
    cases rest with
    | nil => rfl
    | cons b rest2 =>
      rw [he] at h
      simp at h

theorem flatMap_toList_eq_filterMap {α β : Type} (f : α → Option β) (l : List α) :
    l.flatMap (fun a => (f a).toList) = l.filterMap f := by
  induction l with
  | nil => rfl
  | cons a rest ih =>
    rw [List.flatMap_cons, ih, List.filterMap_cons]
    cases f a <;> rfl

theorem scan_eq_filterMap (env : Env) (tree : Node) (root : String)
    (maxDepth days minSize : Int) :
    scanDependencies env tree root maxDepth days minSize
      = (scanVisits env tree root maxDepth days minSize).filterMap
          (reported env root maxDepth (cutoffTime env days) minSize) := by
  rw [scan_eq_flatMap, ← flatMap_toList_eq_filterMap]
  congr 1
  funext v
  exact emitted_eq_toList env root maxDepth (cutoffTime env days) minSize v

theorem preorderBefore_of_snoc_prefix {pos a b : List Nat} {i j : Nat} (hij : i < j)
    (ha : (pos ++ [i]) <+: a) (hb : (pos ++ [j]) <+: b) : preorderBefore a b := by
  obtain ⟨ra, rfl⟩ := ha
  obtain ⟨rb, rfl⟩ := hb
  exact Or.inr ⟨pos, i, j, ra, rb, hij, by simp, by simp⟩

theorem preorderBefore_of_snoc {pos b : List Nat} {j : Nat}
    (hb : (pos ++ [j]) <+: b) : preorderBefore pos b := by
  refine Or.inl ⟨(List.prefix_append pos [j]).trans hb, ?_⟩
  intro h
  rw [← h] at hb
  exact not_snoc_prefix hb

mutual
theorem walk_preorder {σ : Type} (fn : WalkFunc σ) (pos : List Nat) (path : String) :
    ∀ (info : Node) (s : σ),
      ((walk fn pos path info s).2.2.map Visit.pos).Pairwise preorderBefore
  | .dir name size mt readErr entries, s => by
    rw [walk]
    split
    · simp
    · simp only [List.map_cons, List.pairwise_cons]
      refine ⟨?_, walkNames_preorder fn pos path 0 entries _⟩
      intro b hb
      obtain ⟨w, hw, rfl⟩ := List.mem_map.1 hb
      obtain ⟨j, _, hj⟩ := walkNames_pos fn pos path 0 entries _ w hw
      exact preorderBefore_of_snoc hj
  | .file name size mt, s => by simp [walk]
  | .broken name, s => by simp [walk]
theorem walkNames_preorder {σ : Type} (fn : WalkFunc σ) (pos : List Nat) (path : String) :
    ∀ (i : Nat) (names : List Node) (s : σ),
      ((walkNames fn pos path i names s).2.2.map Visit.pos).Pairwise preorderBefore
  | _, [], s => by simp [walkNames]
  | i, c :: rest, s => by
    rw [walkNames]
    have h1 := walk_preorder fn (pos ++ [i]) (filepathJoin path c.name) c s
    split
    · exact h1
    · simp only [List.map_append, List.pairwise_append]
      refine ⟨h1, walkNames_preorder fn pos path (i + 1) rest _, ?_⟩
      intro a ha b hb
      obtain ⟨v, hv, rfl⟩ := List.mem_map.1 ha
      obtain ⟨w, hw, rfl⟩ := List.mem_map.1 hb
      obtain ⟨j, hij, hj⟩ := walkNames_pos fn pos path (i + 1) rest _ w hw
      exact preorderBefore_of_snoc_prefix (by omega)
        (walk_pos fn (pos ++ [i]) (filepathJoin path c.name) c s v hv) hj
end

theorem preorderBefore_irrefl (a : List Nat) : ¬ preorderBefore a a := by
  rintro (⟨_, h⟩ | ⟨p, i, j, ra, rb, hij, h1, h2⟩)
  · exact h rfl
  · rw [h1] at h2
    have := List.append_cancel_left h2
    simp at this
    omega

mutual
theorem walk_at {σ : Type} (fn : WalkFunc σ) (pos : List Nat) (path : String) :
    ∀ (info : Node) (s : σ), ∀ v ∈ (walk fn pos path info s).2.2,
      ∃ q, v.pos = pos ++ q ∧ info.at? q = some v.info
  | .dir name size mt readErr entries, s => by
    rw [walk]
    intro v hv
    by_cases h : readErr = true ∨ (fn s path (.dir name size mt readErr entries) readErr).2 ≠ .nil
    · rw [if_pos h] at hv
      simp only [List.mem_singleton] at hv
      subst hv
      exact ⟨[], by simp, by simp [Node.at?]⟩
    · rw [if_neg h] at hv
      have hr : readErr = false := by
        cases readErr
        · rfl
        · exact absurd (Or.inl rfl) h
      subst hr
      simp only [List.mem_cons] at hv
      rcases hv with hv | hv
      · subst hv
        exact ⟨[], by simp, by simp [Node.at?]⟩
      · obtain ⟨k, q, c, hp, hc, hq⟩ := walkNames_at fn pos path 0 entries _ v hv
        refine ⟨k :: q, by simpa using hp, ?_⟩
        simp [Node.at?, hc, hq]
  | .file name size mt, s => by
    intro v hv
    simp only [walk, List.mem_singleton] at hv
    subst hv
    exact ⟨[], by simp, by simp [Node.at?]⟩
  | .broken name, s => by
    intro v hv
    simp only [walk, List.mem_singleton] at hv
    subst hv
    exact ⟨[], by simp, by simp [Node.at?]⟩
theorem walkNames_at {σ : Type} (fn : WalkFunc σ) (pos : List Nat) (path : String) :
    ∀ (i : Nat) (names : List Node) (s : σ), ∀ v ∈ (walkNames fn pos path i names s).2.2,
      ∃ k q c, v.pos = pos ++ (i + k) :: q ∧ names[k]? = some c ∧ c.at? q = some v.info
  | _, [], s => by simp [walkNames]
  | i, c :: rest, s => by
    rw [walkNames]
    intro v hv
    have h1 := walk_at fn (pos ++ [i]) (filepathJoin path c.name) c s
    have hfirst : v ∈ (walk fn (pos ++ [i]) (filepathJoin path c.name) c s).2.2 →
        ∃ k q c', v.pos = pos ++ (i + k) :: q ∧ (c :: rest)[k]? = some c' ∧
          c'.at? q = some v.info := by
      intro hv
      obtain ⟨q, hp, hq⟩ := h1 v hv
      exact ⟨0, q, c, by simpa using hp, by simp, hq⟩
    split at hv
    · exact hfirst hv
    · simp only [List.mem_append] at hv
      rcases hv with hv | hv
      · exact hfirst hv
      · obtain ⟨k, q, c', hp, hc, hq⟩ := walkNames_at fn pos path (i + 1) rest _ v hv
        refine ⟨k + 1, q, c', ?_, by simpa using hc, hq⟩
        rw [hp]
        congr 2
        omega
end

theorem at?_append (p q : List Nat) :
    ∀ (n : Node), n.at? (p ++ q) = (n.at? p).bind (fun m => m.at? q) := by
  induction p with
  | nil => intro n; simp [Node.at?]
  | cons i rest ih =>
    intro n
    cases n with
    | file name size mt => simp [Node.at?]
    | broken name => simp [Node.at?]
    | dir name size mt readErr entries =>
      cases readErr with
      | true => simp [Node.at?]
      | false =>
        simp only [List.cons_append, Node.at?]
        cases entries[i]? with
        | none => simp
        | some c => simpa using ih c

theorem sortedNamesAll_mem (l : List Node) (h : sortedNamesAll l) :
    ∀ c ∈ l, c.sortedNames := by
  induction l with
  | nil => simp
  | cons a rest ih =>
    intro c hc
    rcases List.mem_cons.1 hc with rfl | hc
    · exact h.1
    · exact ih h.2 c hc

theorem sortedNames_at (p : List Nat) :
    ∀ (n m : Node), n.sortedNames → n.at? p = some m → m.sortedNames := by
  induction p with
  | nil =>
    intro n m hn hm
    simp only [Node.at?, Option.some.injEq] at hm
    exact hm ▸ hn
  | cons i rest ih =>
    intro n m hn hm
    cases n with
    | file name size mt => simp [Node.at?] at hm
    | broken name => simp [Node.at?] at hm
    | dir name size mt readErr entries =>
      cases readErr with
      | true => simp [Node.at?] at hm
      | false =>
        simp only [Node.at?] at hm
        cases hc : entries[i]? with
        | none => simp [hc] at hm
        | some c =>
          simp only [hc] at hm
          have hmem : c ∈ entries := List.getElem?_mem hc
          exact ih c m (sortedNamesAll_mem entries hn.2 c hmem) hm

theorem sibling_names_lt (tree : Node) (hs : tree.sortedNames) (p : List Nat) (i j : Nat)
    (a b : Node) (hij : i < j) (ha : tree.at? (p ++ [i]) = some a)
    (hb : tree.at? (p ++ [j]) = some b) : a.name < b.name := by
  rw [at?_append] at ha hb
  cases hp : tree.at? p with
  | none => simp [hp] at ha
  | some parent =>
    have hps := sortedNames_at p tree parent hs hp
    simp only [hp, Option.some_bind] at ha hb
    cases parent with
    | file name size mt => simp [Node.at?] at ha
    | broken name => simp [Node.at?] at ha
    | dir name size mt readErr entries =>
      cases readErr with
      | true => simp [Node.at?] at ha
      | false =>
        simp only [Node.at?] at ha hb
        cases hci : entries[i]? with
        | none => simp [hci] at ha
        | some ci =>
          cases hcj : entries[j]? with
          | none => simp [hcj] at hb
          | some cj =>
            simp only [hci, hcj, Option.some.injEq] at ha hb
            subst ha
            subst hb
            have hpw := hps.1
            rw [List.pairwise_iff_getElem] at hpw
            obtain ⟨hi, hci'⟩ := List.getElem?_eq_some.1 hci
            obtain ⟨hj, hcj'⟩ := List.getElem?_eq_some.1 hcj
            have := hpw i j (by simpa using hi) (by simpa using hj) hij
            simpa [hci', hcj'] using this

theorem foldl_total (l : List FoundDependency) (acc : Int) :
    wrapInt64 (l.foldl (fun total dep => wrapInt64 (total + dep.Size)) acc)
      = wrapInt64 (acc + (l.map FoundDependency.Size).sum) ∧
    (isInt64 acc → isInt64 (l.foldl (fun total dep => wrapInt64 (total + dep.Size)) acc)) := by
  induction l generalizing acc with
  | nil => simp
  | cons d rest ih =>
    obtain ⟨h1, h2⟩ := ih (wrapInt64 (acc + d.Size))
    simp only [List.foldl_cons, List.map_cons, List.sum_cons]
    refine ⟨?_, fun _ => h2 (wrapInt64_range _)⟩
    rw [h1, wrapInt64_add_left]
    congr 1
    ring

theorem totalSize_eq (l : List FoundDependency) :
    totalSize l = wrapInt64 (l.map FoundDependency.Size).sum := by
  obtain ⟨h1, h2⟩ := foldl_total l 0
  have hr := h2 (by unfold isInt64; omega)
  unfold totalSize
  rw [← wrapInt64_of_range _ hr, h1]
  simp

/-- Claim C18 (discovery order).  The sequence `scanDependencies` returns is the
sequence of the walk's calls with every call replaced by the dependency it reports and
the others dropped: one entry per accepted directory, in the order of the walk.  The
calls are in depth-first pre-order with positions all different, each on the entry of
the tree at its position, so siblings come in the order the directory lists them, which
is the order of their names when the listings are sorted.  The total `main` prints is
the `int64` sum of the `Size` fields, the exact sum when that is an `int64`. -/
theorem discovery_order (env : Env) (tree : Node) (root : String)
    (maxDepth days minSize : Int) :
    scanDependencies env tree root maxDepth days minSize
      = (scanVisits env tree root maxDepth days minSize).filterMap
          (reported env root maxDepth (cutoffTime env days) minSize) ∧
    ((scanVisits env tree root maxDepth days minSize).map Visit.pos).Pairwise preorderBefore ∧
    ((scanVisits env tree root maxDepth days minSize).map Visit.pos).Nodup ∧
    (∀ v ∈ scanVisits env tree root maxDepth days minSize, tree.at? v.pos = some v.info) ∧
    (tree.sortedNames →
      ∀ v ∈ scanVisits env tree root maxDepth days minSize,
      ∀ w ∈ scanVisits env tree root maxDepth days minSize,
      ∀ p i j, v.pos = p ++ [i] → w.pos = p ++ [j] → i < j → v.info.name < w.info.name) ∧
    totalSize (scanDependencies env tree root maxDepth days minSize)
      = wrapInt64 ((scanDependencies env tree root maxDepth days minSize).map
          FoundDependency.Size).sum ∧
    (isInt64 ((scanDependencies env tree root maxDepth days minSize).map
        FoundDependency.Size).sum →
      totalSize (scanDependencies env tree root maxDepth days minSize)
        = ((scanDependencies env tree root maxDepth days minSize).map
            FoundDependency.Size).sum) := by
  have hpre : ((scanVisits env tree root maxDepth days minSize).map Visit.pos).Pairwise
      preorderBefore := by
    unfold scanVisits filepathWalk
    exact walk_preorder _ _ _ _ _
  have hat : ∀ v ∈ scanVisits env tree root maxDepth days minSize,
      tree.at? v.pos = some v.info := by
    intro v hv
    unfold scanVisits filepathWalk at hv
    obtain ⟨q, hp, hq⟩ := walk_at _ _ _ _ _ v hv
    rw [hp]
    simpa using hq
  refine ⟨scan_eq_filterMap env tree root maxDepth days minSize, hpre, ?_, hat, ?_,
    totalSize_eq _, ?_⟩
  · refine List.Pairwise.imp ?_ hpre
    intro a b h hab
    rw [hab] at h
    exact preorderBefore_irrefl b h
  · intro hs v hv w hw p i j hvp hwp hij
    have ha := hat v hv
    have hb := hat w hw
    rw [hvp] at ha
    rw [hwp] at hb
    exact sibling_names_lt tree hs p i j v.info w.info hij ha hb
  · intro h
    rw [totalSize_eq]
    exact wrapInt64_of_range _ h

set_option maxRecDepth 100000 in
/-- Witness of claim C18 on `orderTree`: `a/node_modules` is reported before
`b/node_modules`, and the total is 3 bytes. -/
theorem discovery_order_witness :
    (scanVisits orderHost orderTree "/r" 5 30 0).filterMap
        (reported orderHost "/r" 5 (cutoffTime orderHost 30) 0)
      = [⟨"/r/a", "/r/a/node_modules", "Node.js", 1, 0, 100⟩,
         ⟨"/r/b", "/r/b/node_modules", "Node.js", 2, 0, 100⟩] ∧
    (scanVisits orderHost orderTree "/r" 5 30 0).map Visit.pos
      = [[], [0], [0, 0], [1], [1, 0]] ∧
    totalSize (scanDependencies orderHost orderTree "/r" 5 30 0) = 3 :=
  ⟨(discovery_order orderHost orderTree "/r" 5 30 0).1.symm.trans (by decide),
    by decide,
    ((discovery_order orderHost orderTree "/r" 5 30 0).2.2.2.2.2.2 (by decide)).trans
      (by decide)⟩

set_option maxRecDepth 100000 in
/-- Claim C20 fails on the code: with `maxDepth = 0` on `depthTree`, `fs.WalkWithDepth`
calls `fn` on the file `/r/a/f` with depth `1`, because entries beyond the depth limit
are only held back when they are directories. -/
theorem walkWithDepth_calls_beyond_depth :
    (fsWalkWithDepth "/r" depthTree 0 recordCall []).1
      = [("/r", 0), ("/r/a", 0), ("/r/a/f", 1)] := by
  decide

/-- What holds of `fs.WalkWithDepth`: `fn` is called on an entry exactly when the walk
passes no error and the entry is not a directory beyond the depth limit, and it is
passed the number of separators of the path relative to `root`. -/
theorem walkWithDepthFn_calls {σ : Type} (root : String) (maxDepth : Int)
    (fn : σ → String → Int → σ × WalkRet) (s : σ) (path : String) (info : Node) :
    (depthOf root path ≤ maxDepth ∨ info.isDir = false →
      walkWithDepthFn root maxDepth fn s path info false = fn s path (depthOf root path)) ∧
    (depthOf root path > maxDepth → info.isDir = true →
      walkWithDepthFn root maxDepth fn s path info false = (s, .skipDir)) ∧
    walkWithDepthFn root maxDepth fn s path info true = (s, .nil) := by
  unfold walkWithDepthFn depthOf
  refine ⟨?_, ?_, ?_⟩
  · rintro (h | h)
    · have : ¬ ((stringsCount (filepathRel root path) '/' : Int) > maxDepth) := by omega
      simp [this]
    · simp [h]
  · intro h1 h2
    simp [h1, h2]
  · simp

theorem roundHalfEven_intCast (m : ℤ) : roundHalfEven (m : ℚ) = m := by
  simp [roundHalfEven]

theorem ulpExp_le (x : ℚ) (j : ℤ) (hx : x ≠ 0) (hj : -1074 ≤ j)
    (hlt : |x| < (2 : ℚ) ^ (j + 53)) : ulpExp x ≤ j := by
  unfold ulpExp
  have hpos : 0 < |x| := abs_pos.mpr hx
  have hlog : Int.log 2 |x| < j + 53 :=
    (Int.lt_zpow_iff_log_lt (by norm_num) hpos).1 (by exact_mod_cast hlt)
  omega

theorem roundFloat64_dyadic (m j : ℤ) (hm : |m| < 2 ^ 53) (hj : -1074 ≤ j)
    (hfin : |(m : ℚ) * 2 ^ j| < (2 : ℚ) ^ 1024) :
    roundFloat64 ((m : ℚ) * 2 ^ j) = .fin ((m : ℚ) * 2 ^ j) := by
  by_cases hm0 : m = 0
  · subst hm0
    simp [roundFloat64, roundHalfEven]
  · have hx : (m : ℚ) * 2 ^ j ≠ 0 := by
      have : (2 : ℚ) ^ j ≠ 0 := zpow_ne_zero _ (by norm_num)
      exact mul_ne_zero (by exact_mod_cast hm0) this
    have hlt : |(m : ℚ) * 2 ^ j| < (2 : ℚ) ^ (j + 53) := by
      rw [abs_mul, abs_of_pos (zpow_pos (by norm_num : (0 : ℚ) < 2) j), zpow_add₀ (by norm_num),
        mul_comm]
      have h2 : (|(m : ℚ)|) < 2 ^ (53 : ℤ) := by
        have : ((|m| : ℤ) : ℚ) < ((2 ^ 53 : ℤ) : ℚ) := by exact_mod_cast hm
        rw [Int.cast_abs] at this
        exact lt_of_lt_of_le this (by norm_num)
      exact mul_lt_mul_of_pos_left h2 (zpow_pos (by norm_num) j)
    have he := ulpExp_le _ j hx hj hlt
    obtain ⟨k, hk⟩ := Int.eq_ofNat_of_zero_le (sub_nonneg.mpr he)
    have hdiv : (m : ℚ) * 2 ^ j / 2 ^ ulpExp ((m : ℚ) * 2 ^ j) = ((m * 2 ^ k : ℤ) : ℚ) := by
      rw [mul_div_assoc, ← zpow_sub₀ (by norm_num : (2 : ℚ) ≠ 0), hk]
      push_cast
      rw [zpow_natCast]
    have hback : ((m * 2 ^ k : ℤ) : ℚ) * 2 ^ ulpExp ((m : ℚ) * 2 ^ j) = (m : ℚ) * 2 ^ j := by
      push_cast
      rw [mul_assoc, ← zpow_natCast, ← zpow_add₀ (by norm_num : (2 : ℚ) ≠ 0), ← hk]
      congr 2
      ring
    unfold roundFloat64
    rw [hdiv, roundHalfEven_intCast, hback, if_neg (not_le.mpr hfin)]

theorem roundFloat64_int (n : ℤ) (hn : |n| < 2 ^ 53) : roundFloat64 (n : ℚ) = .fin n := by
  have h := roundFloat64_dyadic n 0 hn (by norm_num) (by
    simp only [zpow_zero, mul_one]
    have : ((|n| : ℤ) : ℚ) < ((2 ^ 53 : ℤ) : ℚ) := by exact_mod_cast hn
    rw [Int.cast_abs] at this
    exact lt_trans this (by norm_num))
  simpa using h

theorem digit_facts : ∀ c ∈ decimalDigitChars,
    (c ≠ '_' ∧ c ≠ '.' ∧ c ≠ '+' ∧ c ≠ '-' ∧ c ≠ '\r' ∧ c ≠ '\n' ∧ c ≠ 'B') ∧
    (decDigit? c = some (c.toNat - 48) ∧ isSpace c = false ∧ unicodeToUpper c = c) ∧
    ("nN".data.contains c = false ∧ "+-".data.contains c = false ∧
      "iI".data.contains c = false ∧ "xX".data.contains c = false ∧
      ".".data.contains c = false ∧ "eEpP".data.contains c = false ∧
      "0123456789_".data.contains c = true) ∧
    (c ≠ 'p' ∧ c ≠ 'x' ∧ c ≠ 'X' ∧ c ≠ 'i' ∧ c ≠ 'I' ∧ c ≠ 'n' ∧ c ≠ 'N' ∧
      asciiLower c ≠ 'x' ∧ asciiLower c ≠ 'e') := by
  decide

theorem readMantissa_digits (ds : List Char) (hds : ∀ c ∈ ds, c ∈ decimalDigitChars) :
    ∀ (m : Mantissa), m.sawDot = false →
      readMantissa false m ds
        = { value := decimalValue m.value ds, frac := m.frac,
            sawDigits := m.sawDigits || !ds.isEmpty, sawDot := false,
            underscores := m.underscores, rest := [] } := by
  induction ds with
  | nil =>
    intro m hm
    simp [readMantissa, decimalValue, hm]
  | cons c cs ih =>
    intro m hm
    obtain ⟨⟨h1, h2, -⟩, ⟨h3, -⟩, -⟩ := digit_facts c (hds c (List.mem_cons_self _ _))
    have hcs : ∀ c ∈ cs, c ∈ decimalDigitChars := fun x hx => hds x (List.mem_cons_of_mem _ hx)
    rw [readMantissa]
    simp only [h1, h2, if_false, h3, Bool.false_eq_true]
    rw [ih hcs { value := m.value * 10 + (c.toNat - 48),
                 frac := if m.sawDot = true then m.frac + 1 else m.frac,
                 sawDigits := true, sawDot := m.sawDot, underscores := m.underscores,
                 rest := m.rest } hm]
    simp [decimalValue, hm]

theorem acceptAll_all (ok : List Char) (r : List Char) (h : ∀ c ∈ r, ok.contains c = true) :
    ∀ buf, acceptAll ok buf r = (buf ++ r, []) := by
  induction r with
  | nil => intro buf; simp [acceptAll]
  | cons c cs ih =>
    intro buf
    rw [acceptAll, if_pos (h c (List.mem_cons_self _ _)),
      ih (fun x hx => h x (List.mem_cons_of_mem _ hx))]
    simp

theorem floatToken_digits (ds : List Char) (hne : ds ≠ [])
    (hds : ∀ c ∈ ds, c ∈ decimalDigitChars) : floatToken ds = ds := by
  cases ds with
  | nil => exact absurd rfl hne
  | cons c cs =>
    obtain ⟨-, -, ⟨hn, hs, hi, -⟩, -⟩ := digit_facts c (hds c (List.mem_cons_self _ _))
    have hcs : ∀ x ∈ cs, "0123456789_".data.contains x = true := fun x hx =>
      (digit_facts x (hds x (List.mem_cons_of_mem _ hx))).2.2.1.2.2.2.2.2.2
    have hall : ∀ x ∈ c :: cs, "0123456789_".data.contains x = true := fun x hx =>
      (digit_facts x (hds x hx)).2.2.1.2.2.2.2.2.2
    unfold floatToken
    simp only [acceptChar, hn, hs, hi, Bool.false_eq_true, if_false, List.nil_append]
    by_cases hz : "0".data.contains c = true
    · simp only [hz, if_true]
      have hc0 : c = '0' := by simpa using hz
      cases cs with
      | nil => simp [acceptChar, acceptAll, hc0]
      | cons d ds2 =>
        obtain ⟨-, -, ⟨-, -, -, hx, -⟩, -⟩ :=
          digit_facts d (hds d (List.mem_cons_of_mem _ (List.mem_cons_self _ _)))
        simp only [acceptChar, hx, Bool.false_eq_true, if_false]
        rw [acceptAll_all _ _ hcs]
        simp [acceptChar, hc0]
    · simp only [hz, Bool.false_eq_true, if_false]
      rw [acceptAll_all _ _ hall]
      simp [acceptChar]

theorem parseFloat_digits (ds : List Char) (hne : ds ≠ [])
    (hds : ∀ c ∈ ds, c ∈ decimalDigitChars) (hlt : decimalValue 0 ds < 2 ^ 53) :
    parseFloat ds = some (.fin (decimalValue 0 ds)) := by
  cases ds with
  | nil => exact absurd rfl hne
  | cons c cs =>
    obtain ⟨⟨-, -, hplus, hminus, -⟩, -, -, ⟨-, -, -, hi, hI, hn, hN, -⟩⟩ :=
      digit_facts c (hds c (List.mem_cons_self _ _))
    have hspecial : parseSpecial (c :: cs) = none := by
      unfold parseSpecial
      simp [hplus, hminus, hi, hI, hn, hN]
    have hhex : (match c :: cs with
        | '0' :: x :: _ :: _ => decide (asciiLower x = 'x')
        | _ => false) = false := by
      cases cs with
      | nil =>
        split
        · rename_i heq
          simp at heq
        · rfl
      | cons d ds2 =>
        obtain ⟨-, -, -, ⟨-, -, -, -, -, -, -, hlx, -⟩⟩ :=
          digit_facts d (hds d (List.mem_cons_of_mem _ (List.mem_cons_self _ _)))
        split
        · rename_i heq
          simp only [List.cons.injEq] at heq
          obtain ⟨_, rfl, _⟩ := heq
          simpa using hlx
        · rfl
    have hround := roundFloat64_int (decimalValue 0 (c :: cs)) (by
      rw [abs_of_nonneg (by positivity)]
      exact_mod_cast hlt)
    simp only [Int.cast_natCast] at hround
    unfold parseFloat
    rw [hspecial]
    unfold readFloat
    simp only [List.head?_cons, Option.some.injEq, hplus, hminus, or_self, if_false,
      decide_False, hhex, Bool.false_eq_true]
    rw [readMantissa_digits (c :: cs) hds _ rfl]
    simp only [Bool.false_or, List.isEmpty_cons, Bool.not_false, Bool.not_true,
      Bool.false_eq_true, if_false, pow_zero, div_one, false_and]
    rw [hround]

theorem toDigitsCore_append (fuel : Nat) :
    ∀ (n : Nat) (ds : List Char),
      Nat.toDigitsCore 10 fuel n ds = Nat.toDigitsCore 10 fuel n [] ++ ds := by
  induction fuel with
  | zero => intro n ds; simp [Nat.toDigitsCore]
  | succ f ih =>
    intro n ds
    simp only [Nat.toDigitsCore]
    by_cases h : n / 10 = 0
    · simp [h]
    · simp only [h, if_false]
      rw [ih (n / 10) (Nat.digitChar (n % 10) :: ds), ih (n / 10) [Nat.digitChar (n % 10)]]
      simp

theorem toDigitsCore_fuel (n : Nat) :
    ∀ fuel, n < fuel → Nat.toDigitsCore 10 fuel n [] = Nat.toDigits 10 n := by
  induction n using Nat.strong_induction_on with
  | _ n ih =>
    intro fuel hf
    obtain ⟨f, rfl⟩ : ∃ f, fuel = f + 1 := ⟨fuel - 1, by omega⟩
    unfold Nat.toDigits
    simp only [Nat.toDigitsCore]
    by_cases h : n / 10 = 0
    · simp [h]
    · simp only [h, if_false]
      have hlt : n / 10 < n := Nat.div_lt_self (by omega) (by norm_num)
      rw [toDigitsCore_append f, toDigitsCore_append n, ih (n / 10) hlt f (by omega),
        ih (n / 10) hlt n hlt]

theorem toDigits_step (n : Nat) :
    Nat.toDigits 10 n
      = if n / 10 = 0 then [Nat.digitChar (n % 10)]
        else Nat.toDigits 10 (n / 10) ++ [Nat.digitChar (n % 10)] := by
  conv_lhs => unfold Nat.toDigits
  simp only [Nat.toDigitsCore]
  by_cases h : n / 10 = 0
  · simp [h]
  · simp only [h, if_false]
    have hlt : n / 10 < n := Nat.div_lt_self (by omega) (by norm_num)
    rw [toDigitsCore_append n, toDigitsCore_fuel (n / 10) n hlt]

theorem digitChar_mem (k : Nat) (hk : k < 10) : Nat.digitChar k ∈ decimalDigitChars := by
  interval_cases k <;> decide

theorem digitChar_value (k : Nat) (hk : k < 10) : (Nat.digitChar k).toNat - 48 = k := by
  interval_cases k <;> decide

theorem toDigits_digits (n : Nat) : ∀ c ∈ Nat.toDigits 10 n, c ∈ decimalDigitChars := by
  induction n using Nat.strong_induction_on with
  | _ n ih =>
    rw [toDigits_step]
    have hd := digitChar_mem (n % 10) (Nat.mod_lt _ (by norm_num))
    by_cases h : n / 10 = 0
    · simp only [h, if_true, List.mem_singleton]
      rintro c rfl
      exact hd
    · simp only [h, if_false, List.mem_append, List.mem_singleton]
      have hlt : n / 10 < n := Nat.div_lt_self (by omega) (by norm_num)
      rintro c (hc | rfl)
      · exact ih (n / 10) hlt c hc
      · exact hd

theorem toDigits_ne_nil (n : Nat) : Nat.toDigits 10 n ≠ [] := by
  rw [toDigits_step]
  split <;> simp

theorem decimalValue_toDigits (n : Nat) : decimalValue 0 (Nat.toDigits 10 n) = n := by
  induction n using Nat.strong_induction_on with
  | _ n ih =>
    rw [toDigits_step]
    have hv := digitChar_value (n % 10) (Nat.mod_lt _ (by norm_num))
    by_cases h : n / 10 = 0
    · simp only [h, if_true, decimalValue, List.foldl_cons, List.foldl_nil, hv]
      omega
    · simp only [h, if_false]
      have hlt : n / 10 < n := Nat.div_lt_self (by omega) (by norm_num)
      have := ih (n / 10) hlt
      unfold decimalValue at this ⊢
      rw [List.foldl_append, this]
      simp only [List.foldl_cons, List.foldl_nil, hv]
      omega

theorem sscanfFloat_digits (ds : List Char) (hne : ds ≠ [])
    (hds : ∀ c ∈ ds, c ∈ decimalDigitChars) (hlt : decimalValue 0 ds < 2 ^ 53) :
    sscanfFloat ⟨ds⟩ = .fin (decimalValue 0 ds) := by
  have htok := floatToken_digits ds hne hds
  have hpf := parseFloat_digits ds hne hds hlt
  have hnop : ds.contains 'p' = false := by
    rw [List.contains_eq_any_beq, List.any_eq_false]
    intro c hc
    obtain ⟨-, -, -, ⟨hp, -⟩⟩ := digit_facts c (hds c hc)
    have hp2 : ¬ 'p' = c := fun h => hp h.symm
    simpa using hp2
  cases ds with
  | nil => exact absurd rfl hne
  | cons c cs =>
    obtain ⟨⟨-, -, -, -, hr, hn, -⟩, ⟨-, hsp, -⟩, -⟩ :=
      digit_facts c (hds c (List.mem_cons_self _ _))
    unfold sscanfFloat
    simp only [skipSpace, hr, hn, hsp, false_and, if_false, Bool.false_eq_true]
    rw [htok]
    unfold convertFloat
    simp only [hnop, Bool.false_eq_true, false_and, if_false]
    rw [hpf]

theorem mul_toInt64 (arch : Float64 → Int) (v m : Nat) (hm : m < 2 ^ 53)
    (hlt : v * m < 2 ^ 53) :
    Float64.toInt64 arch (Float64.mul (.fin v) (Float64.ofInt m)) = v * m := by
  have h1 : Float64.ofInt (m : Int) = .fin m := by
    unfold Float64.ofInt
    have := roundFloat64_int (m : ℤ) (by
      rw [abs_of_nonneg (by positivity)]
      exact_mod_cast hm)
    simpa using this
  have h2 : roundFloat64 ((v : ℚ) * (m : ℚ)) = .fin ((v * m : ℕ) : ℚ) := by
    have := roundFloat64_int ((v * m : ℕ) : ℤ) (by
      rw [abs_of_nonneg (by positivity)]
      exact_mod_cast hlt)
    simpa using this
  rw [h1]
  simp only [Float64.mul, h2, Float64.toInt64]
  have hnn : (0 : ℚ) ≤ ((v * m : ℕ) : ℚ) := by positivity
  have hfl : ⌊((v * m : ℕ) : ℚ)⌋ = ((v * m : ℕ) : ℤ) := by
    have : ((v * m : ℕ) : ℚ) = (((v * m : ℕ) : ℤ) : ℚ) := by push_cast; ring
    rw [this, Int.floor_intCast]
  simp only [hnn, if_true, hfl]
  have hr1 : (-2 : ℤ) ^ 63 ≤ ((v * m : ℕ) : ℤ) := by
    have : (0 : ℤ) ≤ ((v * m : ℕ) : ℤ) := by positivity
    omega
  have hr2 : ((v * m : ℕ) : ℤ) < 2 ^ 63 := by
    have : ((v * m : ℕ) : ℤ) < 2 ^ 53 := by exact_mod_cast hlt
    omega
  rw [if_pos ⟨by simpa using hr1, hr2⟩]
  push_cast
  ring

theorem dropWhile_append_all {p : Char → Bool} (ws r : List Char)
    (h : ∀ c ∈ ws, p c = true) : (ws ++ r).dropWhile p = r.dropWhile p := by
  induction ws with
  | nil => rfl
  | cons a t ih =>
    rw [List.cons_append, List.dropWhile_cons, if_pos (h a (List.mem_cons_self _ _))]
    exact ih (fun c hc => h c (List.mem_cons_of_mem _ hc))

theorem trimSpace_core (ws1 ws2 mid : List Char) (a z : Char)
    (h1 : ∀ c ∈ ws1, isSpace c = true) (h2 : ∀ c ∈ ws2, isSpace c = true)
    (ha : isSpace a = false) (hz : isSpace z = false) :
    stringsTrimSpace ⟨ws1 ++ (a :: mid ++ [z]) ++ ws2⟩ = ⟨a :: mid ++ [z]⟩ := by
  unfold stringsTrimSpace
  congr 1
  rw [List.append_assoc, dropWhile_append_all ws1 _ h1]
  simp only [List.cons_append, List.dropWhile_cons, ha, Bool.false_eq_true, if_false]
  have : (a :: (mid ++ [z] ++ ws2)).reverse = ws2.reverse ++ (z :: (a :: mid).reverse) := by
    simp
  rw [this, dropWhile_append_all ws2.reverse _ (fun c hc => h2 c (List.mem_reverse.1 hc))]
  simp [List.dropWhile_cons, hz]

theorem trimSpace_single (ws1 ws2 : List Char) (a : Char)
    (h1 : ∀ c ∈ ws1, isSpace c = true) (h2 : ∀ c ∈ ws2, isSpace c = true)
    (ha : isSpace a = false) :
    stringsTrimSpace ⟨ws1 ++ [a] ++ ws2⟩ = ⟨[a]⟩ := by
  unfold stringsTrimSpace
  congr 1
  rw [List.append_assoc, dropWhile_append_all ws1 _ h1]
  simp only [List.cons_append, List.nil_append, List.dropWhile_cons, ha, Bool.false_eq_true,
    if_false]
  have : (a :: ws2).reverse = ws2.reverse ++ [a] := by simp
  rw [this, dropWhile_append_all ws2.reverse _ (fun c hc => h2 c (List.mem_reverse.1 hc))]
  simp [List.dropWhile_cons, ha]

theorem trimSpace_of_ends (ws1 ws2 core : List Char) (hne : core ≠ [])
    (h1 : ∀ c ∈ ws1, isSpace c = true) (h2 : ∀ c ∈ ws2, isSpace c = true)
    (hhead : ∀ c, core.head? = some c → isSpace c = false)
    (hlast : ∀ c, core.getLast? = some c → isSpace c = false) :
    stringsTrimSpace ⟨ws1 ++ core ++ ws2⟩ = ⟨core⟩ := by
  cases core with
  | nil => exact absurd rfl hne
  | cons a t =>
    have ha := hhead a rfl
    rcases List.eq_nil_or_concat t with rfl | ⟨mid, z, rfl⟩
    · exact trimSpace_single ws1 ws2 a h1 h2 ha
    · have hz := hlast z (by
        rw [List.concat_eq_append, ← List.cons_append]
        exact List.getLast?_concat _)
      have := trimSpace_core ws1 ws2 mid a z h1 h2 ha hz
      simpa using this

theorem toUpper_digits_suffix (ds suf : List Char) (hds : ∀ c ∈ ds, c ∈ decimalDigitChars) :
    stringsToUpper ⟨ds ++ suf⟩ = ⟨ds ++ suf.map unicodeToUpper⟩ := by
  unfold stringsToUpper
  congr 1
  rw [List.map_append]
  congr 1
  conv_rhs => rw [← List.map_id ds]
  apply List.map_congr_left
  intro c hc
  obtain ⟨-, ⟨-, -, hup⟩, -⟩ := digit_facts c (hds c hc)
  simpa using hup

theorem trimSpace_digits (ds : List Char) (hne : ds ≠ [])
    (hds : ∀ c ∈ ds, c ∈ decimalDigitChars) : stringsTrimSpace ⟨ds⟩ = ⟨ds⟩ := by
  have h := trimSpace_of_ends [] [] ds hne (by simp) (by simp)
    (fun c hc => (digit_facts c (hds c (List.mem_of_mem_head? hc))).2.1.2.1)
    (fun c hc => (digit_facts c (hds c (List.mem_of_mem_getLast? hc))).2.1.2.1)
  simpa using h

theorem hasSuffix_append (ds suf : List Char) (t : String) :
    stringsHasSuffix ⟨ds ++ suf⟩ t = t.data.reverse.isPrefixOf (suf.reverse ++ ds.reverse) := by
  unfold stringsHasSuffix
  rw [List.reverse_append]

theorem trimSuffix_append (ds suf : List Char)
    (h : stringsHasSuffix ⟨ds ++ suf⟩ ⟨suf⟩ = true) :
    stringsTrimSuffix ⟨ds ++ suf⟩ ⟨suf⟩ = ⟨ds⟩ := by
  unfold stringsTrimSuffix
  rw [if_pos h]
  simp

/-- The value of `parseSize` once the unit is known and a string of digits is left. -/
theorem parseSize_core (arch : Float64 → Int) (ds : List Char) (mult : Nat) (s : String)
    (hne : ds ≠ []) (hds : ∀ c ∈ ds, c ∈ decimalDigitChars)
    (h0 : ¬ (stringsToUpper (stringsTrimSpace s) = "0" ∨
      stringsToUpper (stringsTrimSpace s) = ""))
    (hmul : (if stringsHasSuffix (stringsToUpper (stringsTrimSpace s)) "GB" then
        (1024 * 1024 * 1024 : Int)
      else if stringsHasSuffix (stringsToUpper (stringsTrimSpace s)) "MB" then 1024 * 1024
      else if stringsHasSuffix (stringsToUpper (stringsTrimSpace s)) "KB" then 1024
      else 1) = (mult : Int))
    (hs2 : (if stringsHasSuffix (stringsToUpper (stringsTrimSpace s)) "GB" then
        stringsTrimSuffix (stringsToUpper (stringsTrimSpace s)) "GB"
      else if stringsHasSuffix (stringsToUpper (stringsTrimSpace s)) "MB" then
        stringsTrimSuffix (stringsToUpper (stringsTrimSpace s)) "MB"
      else if stringsHasSuffix (stringsToUpper (stringsTrimSpace s)) "KB" then
        stringsTrimSuffix (stringsToUpper (stringsTrimSpace s)) "KB"
      else stringsToUpper (stringsTrimSpace s)) = ⟨ds⟩)
    (hm : mult < 2 ^ 53) (hlt : decimalValue 0 ds * mult < 2 ^ 53) (hpos : 0 < mult) :
    parseSize arch s = decimalValue 0 ds * mult ∧
    textParseSize arch s = decimalValue 0 ds * mult := by
  have hv : decimalValue 0 ds < 2 ^ 53 :=
    lt_of_le_of_lt (Nat.le_mul_of_pos_right _ hpos) hlt
  have hscan := sscanfFloat_digits ds hne hds hv
  have htrim := trimSpace_digits ds hne hds
  have key := mul_toInt64 arch (decimalValue 0 ds) mult hm hlt
  constructor
  · unfold parseSize
    simp only []
    rw [if_neg h0, hmul, hs2, htrim, hscan]
    exact key
  · unfold textParseSize
    simp only []
    rw [if_neg h0, hmul, hs2, htrim, hscan]
    exact key

theorem string_ne_of_length (l : List Char) (t : String) (h : l.length ≠ t.data.length) :
    (⟨l⟩ : String) ≠ t := by
  intro e
  apply h
  rw [← e]

theorem parseSize_upper_unit (arch : Float64 → Int) (ds SUF : List Char) (mult : Nat)
    (s : String) (hs : stringsToUpper (stringsTrimSpace s) = ⟨ds ++ SUF⟩)
    (hne : ds ≠ []) (hds : ∀ c ∈ ds, c ∈ decimalDigitChars)
    (hunit : (SUF, mult) ∈ [("KB".data, 1024), ("MB".data, 1024 * 1024),
      ("GB".data, 1024 * 1024 * 1024)])
    (hlt : decimalValue 0 ds * mult < 2 ^ 53) :
    parseSize arch s = decimalValue 0 ds * mult ∧
    textParseSize arch s = decimalValue 0 ds * mult := by
  have hlen : SUF.length = 2 := by
    simp only [List.mem_cons, Prod.mk.injEq, List.mem_singleton, List.not_mem_nil, or_false]
      at hunit
    rcases hunit with ⟨rfl, -⟩ | ⟨rfl, -⟩ | ⟨rfl, -⟩ <;> rfl
  have h0 : ¬ (stringsToUpper (stringsTrimSpace s) = "0" ∨
      stringsToUpper (stringsTrimSpace s) = "") := by
    rw [hs]
    obtain ⟨a, t, rfl⟩ := List.exists_cons_of_ne_nil hne
    intro h
    rcases h with h | h
    · exact string_ne_of_length _ _ (by simp [hlen]) h
    · exact string_ne_of_length _ _ (by simp [hlen]) h
  simp only [List.mem_cons, Prod.mk.injEq, List.mem_singleton, List.not_mem_nil, or_false]
    at hunit
  rcases hunit with ⟨rfl, rfl⟩ | ⟨rfl, rfl⟩ | ⟨rfl, rfl⟩
  · have hG : stringsHasSuffix ⟨ds ++ "KB".data⟩ "GB" = false := by
      rw [hasSuffix_append]; rfl
    have hM : stringsHasSuffix ⟨ds ++ "KB".data⟩ "MB" = false := by
      rw [hasSuffix_append]; rfl
    have hK : stringsHasSuffix ⟨ds ++ "KB".data⟩ "KB" = true := by
      rw [hasSuffix_append]; simp
    refine parseSize_core arch ds _ s hne hds h0 ?_ ?_ (by norm_num) hlt (by norm_num)
    · rw [hs, hG, hM, hK]; rfl
    · rw [hs, hG, hM, hK]
      exact trimSuffix_append ds "KB".data hK
  · have hG : stringsHasSuffix ⟨ds ++ "MB".data⟩ "GB" = false := by
      rw [hasSuffix_append]; rfl
    have hM : stringsHasSuffix ⟨ds ++ "MB".data⟩ "MB" = true := by
      rw [hasSuffix_append]; simp
    refine parseSize_core arch ds _ s hne hds h0 ?_ ?_ (by norm_num) hlt (by norm_num)
    · rw [hs, hG, hM]; rfl
    · rw [hs, hG, hM]
      exact trimSuffix_append ds "MB".data hM
  · have hG : stringsHasSuffix ⟨ds ++ "GB".data⟩ "GB" = true := by
      rw [hasSuffix_append]; simp
    refine parseSize_core arch ds _ s hne hds h0 ?_ ?_ (by norm_num) hlt (by norm_num)
    · rw [hs, hG]; rfl
    · rw [hs, hG]
      exact trimSuffix_append ds "GB".data hG

theorem parseSize_upper_bare (arch : Float64 → Int) (ds : List Char)
    (s : String) (hs : stringsToUpper (stringsTrimSpace s) = ⟨ds⟩)
    (hne : ds ≠ []) (hds : ∀ c ∈ ds, c ∈ decimalDigitChars)
    (hlt : decimalValue 0 ds < 2 ^ 53) :
    parseSize arch s = decimalValue 0 ds ∧ textParseSize arch s = decimalValue 0 ds := by
  by_cases hz : ds = ['0']
  · subst hz
    have h0 : stringsToUpper (stringsTrimSpace s) = "0" ∨
        stringsToUpper (stringsTrimSpace s) = "" := Or.inl hs
    constructor
    · unfold parseSize
      simp only []
      rw [if_pos h0]
      rfl
    · unfold textParseSize
      simp only []
      rw [if_pos h0]
      rfl
  · have h0 : ¬ (stringsToUpper (stringsTrimSpace s) = "0" ∨
        stringsToUpper (stringsTrimSpace s) = "") := by
      rw [hs]
      intro h
      rcases h with h | h
      · exact hz (congrArg String.data h)
      · exact hne (congrArg String.data h)
    have hlast : ∀ t : String, t.data.reverse.head? = some 'B' →
        stringsHasSuffix ⟨ds⟩ t = false := by
      intro t ht
      unfold stringsHasSuffix
      rcases List.eq_nil_or_concat ds with rfl | ⟨init, z, rfl⟩
      · exact absurd rfl hne
      · have hzB : z ≠ 'B' := (digit_facts z (hds z (by simp))).1.2.2.2.2.2.2
        cases htr : t.data.reverse with
        | nil => rw [htr] at ht; simp at ht
        | cons b bs =>
          rw [htr] at ht
          simp only [List.head?_cons, Option.some.injEq] at ht
          subst ht
          simp only [List.concat_eq_append, List.reverse_append, List.reverse_cons,
            List.reverse_nil, List.nil_append, List.singleton_append, List.isPrefixOf]
          have : ('B' == z) = false := by
            simpa using fun h : 'B' = z => hzB h.symm
          rw [this]
          rfl
    have hG := hlast "GB" rfl
    have hM := hlast "MB" rfl
    have hK := hlast "KB" rfl
    have := parseSize_core arch ds 1 s hne hds h0 (by rw [hs, hG, hM, hK]; rfl)
      (by rw [hs, hG, hM, hK]; rfl) (by norm_num) (by simpa using hlt) (by norm_num)
    simpa using this

theorem trimSpace_number_unit (ws1 ws2 ds suf : List Char) (hne : ds ≠ [])
    (hds : ∀ c ∈ ds, c ∈ decimalDigitChars) (hsuf : ∀ c ∈ suf, isSpace c = false)
    (h1 : ∀ c ∈ ws1, isSpace c = true) (h2 : ∀ c ∈ ws2, isSpace c = true) :
    stringsTrimSpace ⟨ws1 ++ (ds ++ suf) ++ ws2⟩ = ⟨ds ++ suf⟩ := by
  have hall : ∀ c ∈ ds ++ suf, isSpace c = false := by
    intro c hc
    rcases List.mem_append.1 hc with h | h
    · exact (digit_facts c (hds c h)).2.1.2.1
    · exact hsuf c h
  exact trimSpace_of_ends ws1 ws2 (ds ++ suf) (by simp [hne]) h1 h2
    (fun c hc => hall c (List.mem_of_mem_head? hc))
    (fun c hc => hall c (List.mem_of_mem_getLast? hc))

/-- The value of `parseSize` and `text.ParseSize` on the decimal spelling of `n`, a unit
spelled `suf` and white space around them. -/
theorem parseSize_spelled (arch : Float64 → Int) (n mult : Nat) (ws1 ws2 suf SUF : List Char)
    (h1 : ∀ c ∈ ws1, isSpace c = true) (h2 : ∀ c ∈ ws2, isSpace c = true)
    (hsp : ∀ c ∈ suf, isSpace c = false) (hup : suf.map unicodeToUpper = SUF)
    (hunit : (SUF, mult) ∈ [("KB".data, 1024), ("MB".data, 1024 * 1024),
      ("GB".data, 1024 * 1024 * 1024)])
    (hlt : n * mult < 2 ^ 53) :
    parseSize arch ⟨ws1 ++ (Nat.toDigits 10 n ++ suf) ++ ws2⟩ = n * mult ∧
    textParseSize arch ⟨ws1 ++ (Nat.toDigits 10 n ++ suf) ++ ws2⟩ = n * mult := by
  have hs : stringsToUpper (stringsTrimSpace ⟨ws1 ++ (Nat.toDigits 10 n ++ suf) ++ ws2⟩)
      = ⟨Nat.toDigits 10 n ++ SUF⟩ := by
    rw [trimSpace_number_unit ws1 ws2 _ suf (toDigits_ne_nil n) (toDigits_digits n) hsp h1 h2,
      toUpper_digits_suffix _ _ (toDigits_digits n), hup]
  have := parseSize_upper_unit arch (Nat.toDigits 10 n) SUF mult _ hs (toDigits_ne_nil n)
    (toDigits_digits n) hunit (by rw [decimalValue_toDigits]; exact hlt)
  rw [decimalValue_toDigits] at this
  exact this

theorem parseSize_spelled_bare (arch : Float64 → Int) (n : Nat) (ws1 ws2 : List Char)
    (h1 : ∀ c ∈ ws1, isSpace c = true) (h2 : ∀ c ∈ ws2, isSpace c = true)
    (hlt : n < 2 ^ 53) :
    parseSize arch ⟨ws1 ++ Nat.toDigits 10 n ++ ws2⟩ = n ∧
    textParseSize arch ⟨ws1 ++ Nat.toDigits 10 n ++ ws2⟩ = n := by
  have hs : stringsToUpper (stringsTrimSpace ⟨ws1 ++ Nat.toDigits 10 n ++ ws2⟩)
      = ⟨Nat.toDigits 10 n⟩ := by
    have ht := trimSpace_number_unit ws1 ws2 _ [] (toDigits_ne_nil n) (toDigits_digits n)
      (by simp) h1 h2
    have hu := toUpper_digits_suffix _ [] (toDigits_digits n)
    simp only [List.append_nil, List.map_nil] at ht hu
    rw [ht, hu]
  have := parseSize_upper_bare arch (Nat.toDigits 10 n) _ hs (toDigits_ne_nil n)
    (toDigits_digits n) (by rw [decimalValue_toDigits]; exact hlt)
  rw [decimalValue_toDigits] at this
  exact this

/-- Claim C13 (size-threshold parsing).  For every `n` with `n * 1024 ^ 3 < 2 ^ 53`,
`parseSize` and `text.ParseSize` of the decimal spelling of `n` followed by `KB`, `MB`
or `GB` in any letter case, with any white space before and after, return `n * 1024`,
`n * 1024 ^ 2` and `n * 1024 ^ 3`; of the bare decimal spelling they return `n`; and
`parseSize("100MB")` is `104857600`.  The result does not depend on how the machine
converts an out-of-range `float64`. -/
theorem size_threshold_parsing (arch : Float64 → Int) (n : Nat)
    (hn : n * 1024 ^ 3 < 2 ^ 53) (ws1 ws2 : List Char)
    (h1 : ∀ c ∈ ws1, isSpace c = true) (h2 : ∀ c ∈ ws2, isSpace c = true) :
    (∀ b ∈ ['b', 'B'],
      (∀ k ∈ ['k', 'K'],
        parseSize arch ⟨ws1 ++ (Nat.toDigits 10 n ++ [k, b]) ++ ws2⟩ = n * 1024 ∧
        textParseSize arch ⟨ws1 ++ (Nat.toDigits 10 n ++ [k, b]) ++ ws2⟩ = n * 1024) ∧
      (∀ m ∈ ['m', 'M'],
        parseSize arch ⟨ws1 ++ (Nat.toDigits 10 n ++ [m, b]) ++ ws2⟩ = n * 1024 ^ 2 ∧
        textParseSize arch ⟨ws1 ++ (Nat.toDigits 10 n ++ [m, b]) ++ ws2⟩ = n * 1024 ^ 2) ∧
      (∀ g ∈ ['g', 'G'],
        parseSize arch ⟨ws1 ++ (Nat.toDigits 10 n ++ [g, b]) ++ ws2⟩ = n * 1024 ^ 3 ∧
        textParseSize arch ⟨ws1 ++ (Nat.toDigits 10 n ++ [g, b]) ++ ws2⟩ = n * 1024 ^ 3)) ∧
    (parseSize arch ⟨ws1 ++ Nat.toDigits 10 n ++ ws2⟩ = n ∧
      textParseSize arch ⟨ws1 ++ Nat.toDigits 10 n ++ ws2⟩ = n) ∧
    parseSize arch "100MB" = 104857600 := by
  refine ⟨?_, parseSize_spelled_bare arch n ws1 ws2 h1 h2 (by omega), ?_⟩
  · intro b hb
    have hb2 : isSpace b = false ∧ unicodeToUpper b = 'B' := by
      simp only [List.mem_cons, List.mem_singleton, List.not_mem_nil, or_false] at hb
      rcases hb with rfl | rfl <;> exact ⟨by decide, by decide⟩
    refine ⟨?_, ?_, ?_⟩
    · intro k hk
      have hk2 : isSpace k = false ∧ unicodeToUpper k = 'K' := by
        simp only [List.mem_cons, List.mem_singleton, List.not_mem_nil, or_false] at hk
        rcases hk with rfl | rfl <;> exact ⟨by decide, by decide⟩
      have := parseSize_spelled arch n 1024 ws1 ws2 [k, b] "KB".data h1 h2
        (by simp [hk2.1, hb2.1]) (by simp [hk2.2, hb2.2]) (by simp) (by omega)
      simpa using this
    · intro k hk
      have hk2 : isSpace k = false ∧ unicodeToUpper k = 'M' := by
        simp only [List.mem_cons, List.mem_singleton, List.not_mem_nil, or_false] at hk
        rcases hk with rfl | rfl <;> exact ⟨by decide, by decide⟩
      have := parseSize_spelled arch n (1024 * 1024) ws1 ws2 [k, b] "MB".data h1 h2
        (by simp [hk2.1, hb2.1]) (by simp [hk2.2, hb2.2]) (by simp) (by omega)
      simpa [pow_succ, mul_assoc] using this
    · intro k hk
      have hk2 : isSpace k = false ∧ unicodeToUpper k = 'G' := by
        simp only [List.mem_cons, List.mem_singleton, List.not_mem_nil, or_false] at hk
        rcases hk with rfl | rfl <;> exact ⟨by decide, by decide⟩
      have := parseSize_spelled arch n (1024 * 1024 * 1024) ws1 ws2 [k, b] "GB".data h1 h2
        (by simp [hk2.1, hb2.1]) (by simp [hk2.2, hb2.2]) (by simp) (by omega)
      simpa [pow_succ, mul_assoc] using this
  · have := (parseSize_spelled arch 100 (1024 * 1024) [] [] "MB".data "MB".data
      (by simp) (by simp) (by decide) (by decide) (by simp) (by norm_num)).1
    have hstr : (⟨[] ++ (Nat.toDigits 10 100 ++ "MB".data) ++ []⟩ : String) = "100MB" := by
      decide
    rw [hstr] at this
    rw [this]
    norm_num

/-- Witness of `size_threshold_parsing`: the number 100 between a blank and a tab. -/
theorem size_threshold_parsing_witness :
    100 * 1024 ^ 3 < 2 ^ 53 ∧
    parseSize archAmd64 " 100kb\t" = 102400 ∧
    textParseSize archAmd64 " 100Gb\t" = 107374182400 ∧
    parseSize archAmd64 " 100\t" = 100 := by
  have h := size_threshold_parsing archAmd64 100 (by norm_num) [' '] ['\t']
    (by decide) (by decide)
  have hk := (h.1 'b' (by decide)).1 'k' (by decide)
  have hg := (h.1 'b' (by decide)).2.2 'G' (by decide)
  refine ⟨by norm_num, ?_, ?_, ?_⟩
  · have e : (" 100kb\t" : String) = ⟨[' '] ++ (Nat.toDigits 10 100 ++ ['k', 'b']) ++ ['\t']⟩ := by
      decide
    rw [e, hk.1]; norm_num
  · have e : (" 100Gb\t" : String) = ⟨[' '] ++ (Nat.toDigits 10 100 ++ ['G', 'b']) ++ ['\t']⟩ := by
      decide
    rw [e, hg.2]; norm_num
  · have e : (" 100\t" : String) = ⟨[' '] ++ Nat.toDigits 10 100 ++ ['\t']⟩ := by
      decide
    rw [e, h.2.1.1]; norm_num

theorem trimSpace_head (s : String) (c : Char)
    (h : (stringsTrimSpace s).data.head? = some c) : isSpace c = false := by
  unfold stringsTrimSpace at h
  simp only at h
  have hsuf : (List.dropWhile isSpace (List.dropWhile isSpace s.data).reverse) <:+
      (List.dropWhile isSpace s.data).reverse := List.dropWhile_suffix _
  have hpre := List.reverse_prefix.2 hsuf
  rw [List.reverse_reverse] at hpre
  obtain ⟨t, ht⟩ := hpre
  have hm := List.head?_dropWhile_not isSpace s.data
  rw [← ht] at hm
  cases hr : (List.dropWhile isSpace (List.dropWhile isSpace s.data).reverse).reverse with
  | nil => rw [hr] at h; simp at h
  | cons a r =>
    rw [hr] at h hm
    simp only [List.head?_cons, Option.some.injEq] at h
    subst h
    simpa using hm

theorem skipSpace_of_not_space (c : Char) (cs : List Char) (h : isSpace c = false) :
    skipSpace (c :: cs) = some (c :: cs) := by
  have h1 : c ≠ '\r' := by rintro rfl; exact absurd h (by decide)
  have h2 : c ≠ '\n' := by rintro rfl; exact absurd h (by decide)
  simp [skipSpace, h1, h2, h]

theorem contains_false_of_subset (l big : List Char) (c : Char) (hc : c ∉ big)
    (hsub : ∀ x ∈ l, x ∈ big) : l.contains c = false := by
  rw [List.contains_eq_any_beq, List.any_eq_false]
  intro x hx heq
  have h1 : x = c ∨ c = x := by
    simp only [beq_iff_eq] at heq
    first
      | exact Or.inl heq
      | exact Or.inr heq
  rcases h1 with h1 | h1
  · exact hc (h1 ▸ hsub x hx)
  · exact hc (h1 ▸ hsub x hx)

theorem floatToken_no_number (c : Char) (cs : List Char)
    (hc : c ∉ "+-.0123456789_eEpPnNiI".data) : floatToken (c :: cs) = [] := by
  have e1 : "nN".data.contains c = false :=
    contains_false_of_subset _ _ c hc (by decide)
  have e2 : "+-".data.contains c = false :=
    contains_false_of_subset _ _ c hc (by decide)
  have e3 : "iI".data.contains c = false :=
    contains_false_of_subset _ _ c hc (by decide)
  have e4 : "0".data.contains c = false :=
    contains_false_of_subset _ _ c hc (by decide)
  have e5 : "0123456789_".data.contains c = false :=
    contains_false_of_subset _ _ c hc (by decide)
  have e6 : ".".data.contains c = false :=
    contains_false_of_subset _ _ c hc (by decide)
  have e7 : "eEpP".data.contains c = false :=
    contains_false_of_subset _ _ c hc (by decide)
  simp only [floatToken, acceptChar, acceptAll, e1, e2, e3, e4, e5, e6, e7, if_false,
    Bool.false_eq_true]

theorem sscanfFloat_no_number (s : String)
    (h : ∀ c, (stringsTrimSpace s).data.head? = some c → c ∉ "+-.0123456789_eEpPnNiI".data) :
    sscanfFloat (stringsTrimSpace s) = .fin 0 := by
  unfold sscanfFloat
  cases hd : (stringsTrimSpace s).data with
  | nil => rfl
  | cons c cs =>
    have hsp := trimSpace_head s c (by rw [hd]; rfl)
    have hc := h c (by rw [hd]; rfl)
    rw [skipSpace_of_not_space c cs hsp]
    simp only []
    rw [floatToken_no_number c cs hc]
    rfl

theorem zero_mul_toInt64 (arch : Float64 → Int) (m : Nat) (hm : m < 2 ^ 53) :
    Float64.toInt64 arch (Float64.mul (.fin 0) (Float64.ofInt m)) = 0 := by
  have := mul_toInt64 arch 0 m hm (by simp)
  simpa using this

/-- Counterexample to claim C14: the numeric content of `12abc` is `12ABC`, which is not
a decimal number, and `parseSize` returns `12`, the number at its start, not `0`. -/
theorem parseSize_keeps_numeric_prefix :
    numericContent "12abc" = "12ABC" ∧ parseSize archAmd64 "12abc" = 12 ∧
    parseSize archAmd64 "12abc" ≠ 0 := by
  have hval : parseSize archAmd64 "12abc" = 12 := by
    have h1 : stringsToUpper (stringsTrimSpace "12abc") = "12ABC" := by decide
    have hG : stringsHasSuffix "12ABC" "GB" = false := by decide
    have hM : stringsHasSuffix "12ABC" "MB" = false := by decide
    have hK : stringsHasSuffix "12ABC" "KB" = false := by decide
    have h2 : stringsTrimSpace "12ABC" = "12ABC" := by decide
    have htok : floatToken "12ABC".data = "12".data := by decide
    have hpf := parseFloat_digits "12".data (by decide) (by decide) (by decide)
    have hdv : decimalValue 0 "12".data = 12 := by decide
    have hscan : sscanfFloat "12ABC" = .fin 12 := by
      unfold sscanfFloat
      have hsk : skipSpace "12ABC".data = some "12ABC".data := by decide
      rw [hsk]
      simp only []
      have : convertFloat (floatToken "12ABC".data) = some (.fin 12) := by
        rw [htok]
        unfold convertFloat
        rw [if_neg (by decide), hpf, hdv]
        norm_num
      exact (by rw [this] : (match convertFloat (floatToken "12ABC".data) with
        | some v => v
        | none => Float64.fin 0) = Float64.fin 12)
    unfold parseSize
    simp only []
    rw [h1, if_neg (by decide), hG, hM, hK]
    simp only [Bool.false_eq_true, if_false]
    rw [h2, hscan]
    have := mul_toInt64 archAmd64 12 1 (by norm_num) (by norm_num)
    simpa using this
  refine ⟨by decide, hval, ?_⟩
  rw [hval]
  decide

/-- The quotient `float64(b) / float64(2 ^ k)` is exact while `b` has at most 53 bits. -/
theorem div_pow2_exact (b : ℤ) (k : ℕ) (hb : |b| < 2 ^ 53) (hk : k ≤ 52) :
    Float64.div (Float64.ofInt b) (Float64.ofInt (2 ^ k)) = .fin ((b : ℚ) / 2 ^ k) := by
  have h1 : Float64.ofInt b = .fin b := roundFloat64_int b hb
  have hk2 : |(2 : ℤ) ^ k| < 2 ^ 53 := by
    rw [abs_of_nonneg (by positivity)]
    exact pow_lt_pow_right₀ (by norm_num) (by omega)
  have h2 : Float64.ofInt (2 ^ k) = .fin ((2 : ℚ) ^ k) := by
    have := roundFloat64_int (2 ^ k) hk2
    unfold Float64.ofInt
    rw [this]
    push_cast
    rfl
  rw [h1, h2]
  have hne : ((2 : ℚ) ^ k) ≠ 0 := by positivity
  simp only [Float64.div, hne, if_false]
  have hbq : |(b : ℚ)| < 2 ^ 53 := by
    have : ((|b| : ℤ) : ℚ) < ((2 ^ 53 : ℤ) : ℚ) := by exact_mod_cast hb
    rw [Int.cast_abs] at this
    exact lt_of_lt_of_le this (by norm_num)
  have hdy : (b : ℚ) / 2 ^ k = (b : ℚ) * 2 ^ (-(k : ℤ)) := by
    rw [zpow_neg, zpow_natCast, div_eq_mul_inv]
  rw [hdy]
  refine roundFloat64_dyadic b (-(k : ℤ)) hb (by omega) ?_
  rw [← hdy, abs_div, abs_of_pos (show (0 : ℚ) < 2 ^ k by positivity)]
  have h1k : (1 : ℚ) ≤ 2 ^ k := one_le_pow₀ (by norm_num)
  calc |(b : ℚ)| / 2 ^ k ≤ |(b : ℚ)| := div_le_self (abs_nonneg _) h1k
    _ < 2 ^ 53 := hbq
    _ < 2 ^ 1024 := by norm_num

theorem roundHalfEven_near (x : ℚ) (n : ℤ) (h1 : (n : ℚ) - 1 / 2 < x)
    (h2 : x < (n : ℚ) + 1 / 2) : roundHalfEven x = n := by
  unfold roundHalfEven
  by_cases hx : (n : ℚ) ≤ x
  · have hf : ⌊x⌋ = n := Int.floor_eq_iff.2 ⟨hx, by linarith⟩
    rw [hf, if_pos (by linarith)]
  · have hx2 : x < n := not_le.1 hx
    have hf : ⌊x⌋ = n - 1 := Int.floor_eq_iff.2 ⟨by push_cast; linarith, by push_cast; linarith⟩
    rw [hf]
    have hc : ((n - 1 : ℤ) : ℚ) = (n : ℚ) - 1 := by push_cast; ring
    rw [hc, if_neg (by linarith), if_pos (by linarith)]
    ring

/-- The string `%.2f` gives for a non-negative number nearest to `k` hundredths. -/
theorem sprintF2_near (q : ℚ) (k : ℕ) (hq : 0 ≤ q) (h1 : (k : ℚ) - 1 / 2 < q * 100)
    (h2 : q * 100 < (k : ℚ) + 1 / 2) :
    sprintF2 (.fin q) = ⟨Nat.toDigits 10 (k / 100) ++
      ['.', Nat.digitChar (k / 10 % 10), Nat.digitChar (k % 10)]⟩ := by
  have hr : roundHalfEven (|q| * 100) = (k : ℤ) := by
    rw [abs_of_nonneg hq]
    exact roundHalfEven_near _ k (by exact_mod_cast h1) (by exact_mod_cast h2)
  simp only [sprintF2, hr, Int.natAbs_ofNat, not_lt.2 hq, if_false, List.nil_append]

theorem formatSize_eq_fs (b : Int) : fsFormatSize b = formatSize b := rfl

theorem formatSize_small (b : Int) (h : b < 1024) : formatSize b = sprintD b ++ " B" := by
  unfold formatSize
  rw [if_neg (by omega), if_neg (by omega), if_neg (by omega)]

theorem formatSize_kb (b : Int) (h1 : 1024 ≤ b) (h2 : b < 1024 ^ 2) :
    formatSize b = sprintF2 (.fin ((b : ℚ) / 1024)) ++ " KB" := by
  norm_num at h2
  unfold formatSize
  rw [if_neg (by omega), if_neg (by omega), if_pos (by omega)]
  have := div_pow2_exact b 10 (by rw [abs_of_nonneg (by omega)]; omega) (by norm_num)
  norm_num at this
  rw [this]

theorem formatSize_mb (b : Int) (h1 : 1024 ^ 2 ≤ b) (h2 : b < 1024 ^ 3) :
    formatSize b = sprintF2 (.fin ((b : ℚ) / 1024 ^ 2)) ++ " MB" := by
  norm_num at h1 h2
  unfold formatSize
  rw [if_neg (by omega), if_pos (by omega)]
  have := div_pow2_exact b 20 (by rw [abs_of_nonneg (by omega)]; omega) (by norm_num)
  norm_num at this
  rw [show (1024 * 1024 : ℤ) = 1048576 by norm_num, this]
  norm_num

theorem formatSize_gb (b : Int) (h1 : 1024 ^ 3 ≤ b) :
    formatSize b
      = sprintF2 (Float64.div (Float64.ofInt b) (Float64.ofInt (1024 ^ 3))) ++ " GB" := by
  norm_num at h1
  unfold formatSize
  rw [if_pos (by omega)]
  norm_num

theorem formatSize_gb_exact (b : Int) (h1 : 1024 ^ 3 ≤ b) (h2 : b < 2 ^ 53) :
    formatSize b = sprintF2 (.fin ((b : ℚ) / 1024 ^ 3)) ++ " GB" := by
  rw [formatSize_gb b h1]
  norm_num at h1
  have := div_pow2_exact b 30 (by rw [abs_of_nonneg (by omega)]; omega) (by norm_num)
  norm_num at this
  norm_num
  rw [this]
theorem roundHalfEven_bounds (z : ℚ) : ⌊z⌋ ≤ roundHalfEven z ∧ roundHalfEven z ≤ ⌈z⌉ := by
  unfold roundHalfEven
  by_cases hz : (⌊z⌋ : ℚ) = z
  · have h0 : z - ⌊z⌋ < 1 / 2 := by rw [hz]; norm_num
    rw [if_pos h0]
    exact ⟨le_refl _, Int.floor_le_ceil z⟩
  · have hlt : (⌊z⌋ : ℚ) < z := lt_of_le_of_ne (Int.floor_le z) hz
    have hc : ⌊z⌋ + 1 ≤ ⌈z⌉ := by
      have : ⌊z⌋ < ⌈z⌉ := Int.lt_ceil.2 hlt
      omega
    split_ifs
    · exact ⟨le_refl _, by omega⟩
    · exact ⟨by omega, hc⟩
    · exact ⟨le_refl _, by omega⟩
    · exact ⟨by omega, hc⟩

/-- Rounding to `float64` keeps a number between two numbers of its own grid: multiples
of `2 ^ (-j)` around an `x` with `|x| < 2 ^ (53 - j)`. -/
theorem roundFloat64_between (x : ℚ) (lo hi : ℤ) (j : ℕ) (hj : j ≤ 52)
    (hlo : (lo : ℚ) / 2 ^ j ≤ x) (hhi : x ≤ (hi : ℚ) / 2 ^ j)
    (hx : |x| < (2 : ℚ) ^ (-(j : ℤ) + 53))
    (hlo2 : -(2 : ℚ) ^ 1024 < (lo : ℚ) / 2 ^ j) (hhi2 : (hi : ℚ) / 2 ^ j < (2 : ℚ) ^ 1024) :
    ∃ r, roundFloat64 x = .fin r ∧ (lo : ℚ) / 2 ^ j ≤ r ∧ r ≤ (hi : ℚ) / 2 ^ j := by
  by_cases hx0 : x = 0
  · subst hx0
    refine ⟨0, ?_, hlo, hhi⟩
    have := roundFloat64_int 0 (by norm_num)
    simpa using this
  · have he : ulpExp x ≤ -(j : ℤ) := ulpExp_le x (-(j : ℤ)) hx0 (by omega) hx
    obtain ⟨k, hk⟩ : ∃ k : ℕ, ulpExp x = -((j + k : ℕ) : ℤ) :=
      ⟨(-(j : ℤ) - ulpExp x).toNat, by
        have : 0 ≤ -(j : ℤ) - ulpExp x := by omega
        push_cast
        rw [Int.toNat_of_nonneg this]
        ring⟩
    have hP : (2 : ℚ) ^ ulpExp x = 1 / 2 ^ (j + k) := by
      rw [hk, zpow_neg, zpow_natCast, one_div]
    have hPpos : (0 : ℚ) < 2 ^ (j + k) := by positivity
    have hjpos : (0 : ℚ) < 2 ^ j := by positivity
    have hkpos : (0 : ℚ) < 2 ^ k := by positivity
    have hdiv : x / 2 ^ ulpExp x = x * 2 ^ (j + k) := by
      rw [hP, one_div, div_inv_eq_mul]
    have hL : ((lo * 2 ^ k : ℤ) : ℚ) ≤ x * 2 ^ (j + k) := by
      push_cast
      rw [pow_add, ← mul_assoc]
      have := (div_le_iff₀ hjpos).1 hlo
      exact mul_le_mul_of_nonneg_right this hkpos.le
    have hU : x * 2 ^ (j + k) ≤ ((hi * 2 ^ k : ℤ) : ℚ) := by
      push_cast
      rw [pow_add, ← mul_assoc]
      have := (le_div_iff₀ hjpos).1 hhi
      exact mul_le_mul_of_nonneg_right this hkpos.le
    have hb := roundHalfEven_bounds (x * 2 ^ (j + k))
    have hR1 : lo * 2 ^ k ≤ roundHalfEven (x * 2 ^ (j + k)) :=
      le_trans (Int.le_floor.2 hL) hb.1
    have hR2 : roundHalfEven (x * 2 ^ (j + k)) ≤ hi * 2 ^ k :=
      le_trans hb.2 (Int.ceil_le.2 hU)
    have hR1q : (lo : ℚ) * 2 ^ k ≤ (roundHalfEven (x * 2 ^ (j + k)) : ℚ) := by
      exact_mod_cast hR1
    have hR2q : (roundHalfEven (x * 2 ^ (j + k)) : ℚ) ≤ (hi : ℚ) * 2 ^ k := by
      exact_mod_cast hR2
    have hr1 : (lo : ℚ) / 2 ^ j ≤
        (roundHalfEven (x * 2 ^ (j + k)) : ℚ) * (1 / 2 ^ (j + k)) := by
      generalize (roundHalfEven (x * 2 ^ (j + k)) : ℚ) = R at hR1q
      rw [mul_one_div, div_le_div_iff₀ hjpos hPpos, pow_add]
      have := mul_le_mul_of_nonneg_right hR1q hjpos.le
      linarith
    have hr2 : (roundHalfEven (x * 2 ^ (j + k)) : ℚ) * (1 / 2 ^ (j + k)) ≤
        (hi : ℚ) / 2 ^ j := by
      generalize (roundHalfEven (x * 2 ^ (j + k)) : ℚ) = R at hR2q
      rw [mul_one_div, div_le_div_iff₀ hPpos hjpos, pow_add]
      have := mul_le_mul_of_nonneg_right hR2q hjpos.le
      linarith
    refine ⟨(roundHalfEven (x * 2 ^ (j + k)) : ℚ) * (1 / 2 ^ (j + k)), ?_, hr1, hr2⟩
    unfold roundFloat64
    rw [hdiv, hP, if_neg]
    rw [not_le, abs_lt]
    exact ⟨lt_of_lt_of_le hlo2 hr1, lt_of_le_of_lt hr2 hhi2⟩

/-- Rounding to `float64` gives the number of the grid that is less than half a step
away. -/
theorem roundFloat64_near (x : ℚ) (m : ℤ) (j : ℕ) (hu : ulpExp x = -(j : ℤ))
    (h1 : (m : ℚ) - 1 / 2 < x * 2 ^ j) (h2 : x * 2 ^ j < (m : ℚ) + 1 / 2)
    (hfin : |(m : ℚ) / 2 ^ j| < (2 : ℚ) ^ 1024) :
    roundFloat64 x = .fin ((m : ℚ) / 2 ^ j) := by
  have hP : (2 : ℚ) ^ ulpExp x = 1 / 2 ^ j := by
    rw [hu, zpow_neg, zpow_natCast, one_div]
  have hdiv : x / 2 ^ ulpExp x = x * 2 ^ j := by
    rw [hP, one_div, div_inv_eq_mul]
  have hr := roundHalfEven_near (x * 2 ^ j) m h1 h2
  unfold roundFloat64
  rw [hdiv, hP, hr, mul_one_div, if_neg (not_le.2 hfin)]

theorem ulpExp_eq (x : ℚ) (e : ℤ) (h1 : (2 : ℚ) ^ e ≤ |x|) (h2 : |x| < (2 : ℚ) ^ (e + 1))
    (he : -1074 ≤ e - 52) : ulpExp x = e - 52 := by
  have hpos : 0 < |x| := lt_of_lt_of_le (by positivity) h1
  have hlog : Int.log 2 |x| = e := by
    apply le_antisymm
    · have hlt : Int.log 2 |x| < e + 1 :=
        (Int.lt_zpow_iff_log_lt (by norm_num) hpos).1 (by exact_mod_cast h2)
      omega
    · have hle : e ≤ Int.log 2 |x| :=
        (Int.zpow_le_iff_le_log (by norm_num) hpos).1 (by exact_mod_cast h1)
      exact hle
  unfold ulpExp
  rw [hlog]
  omega

/-- The hours of a non-negative duration as `float64`: between the whole hours and one
more, and exactly the whole hours when no fraction of an hour is left. -/
theorem durationHours_bounds (d : Int) (h0 : 0 ≤ d) (h1 : d < 2 ^ 63) :
    ∃ H : ℚ, durationHours d = .fin H ∧ ((d / nanosPerHour : ℤ) : ℚ) ≤ H ∧
      H ≤ ((d / nanosPerHour : ℤ) : ℚ) + 1 ∧
      (d % nanosPerHour = 0 → H = ((d / nanosPerHour : ℤ) : ℚ)) := by
  unfold durationHours
  rw [Int.tdiv_eq_ediv h0 (by decide), Int.tmod_eq_emod h0 (by decide)]
  have hh0 : 0 ≤ d / nanosPerHour := Int.ediv_nonneg h0 (by decide)
  have hh1 : d / nanosPerHour < 2 ^ 22 := by
    unfold nanosPerHour
    omega
  have hs0 : 0 ≤ d % nanosPerHour := Int.emod_nonneg _ (by decide)
  have hs1 : d % nanosPerHour < 3600000000000 := Int.emod_lt_of_pos _ (by decide)
  generalize d / nanosPerHour = h at hh0 hh1
  generalize d % nanosPerHour = s at hs0 hs1
  have hhq0 : (0 : ℚ) ≤ (h : ℚ) := by exact_mod_cast hh0
  have hhq1 : (h : ℚ) < 2 ^ 22 := by exact_mod_cast hh1
  have hsq0 : (0 : ℚ) ≤ (s : ℚ) := by exact_mod_cast hs0
  have hsq1 : (s : ℚ) < 3600000000000 := by exact_mod_cast hs1
  have e1 : Float64.ofInt h = .fin h :=
    roundFloat64_int h (by rw [abs_of_nonneg hh0]; omega)
  have e2 : Float64.ofInt s = .fin s :=
    roundFloat64_int s (by rw [abs_of_nonneg hs0]; omega)
  have hx0 : (0 : ℚ) ≤ (s : ℚ) / 3600000000000 := by positivity
  have hx1 : (s : ℚ) / 3600000000000 ≤ 1 := by
    rw [div_le_one (by norm_num)]
    exact hsq1.le
  obtain ⟨c, hc, hc0, hc1⟩ := roundFloat64_between ((s : ℚ) / 3600000000000) 0 1 0
    (by norm_num) (by simpa using hx0) (by simpa using hx1)
    (by
      rw [abs_of_nonneg hx0]
      exact lt_of_le_of_lt hx1 (by norm_num))
    (by norm_num) (by norm_num)
  simp only [Int.cast_zero, pow_zero, div_one, Int.cast_one] at hc0 hc1
  have e3 : Float64.div (.fin s) (.fin 3600000000000) = .fin c := by
    simp only [Float64.div]
    rw [if_neg (by norm_num)]
    exact hc
  obtain ⟨H, hH, hH0, hH1⟩ := roundFloat64_between ((h : ℚ) + c) h (h + 1) 0
    (by norm_num) (by simpa using hc0) (by push_cast; simpa using hc1)
    (by
      rw [abs_of_nonneg (by linarith)]
      have : (h : ℚ) + c < 2 ^ 23 := by linarith
      exact lt_trans this (by norm_num))
    (by
      simp only [pow_zero, div_one]
      have : (-(2 : ℚ) ^ 1024) < 0 := by norm_num
      linarith)
    (by
      simp only [pow_zero, div_one]
      push_cast
      have : (h : ℚ) + 1 < 2 ^ 23 := by linarith
      exact lt_trans this (by norm_num))
  simp only [pow_zero, div_one] at hH0 hH1
  push_cast at hH1
  refine ⟨H, ?_, hH0, hH1, ?_⟩
  · rw [e1, e2, e3]
    simp only [Float64.add]
    exact hH
  · intro hs
    subst hs
    have hc00 : c = 0 := by
      have : roundFloat64 (((0 : ℤ) : ℚ) / 3600000000000) = .fin 0 := by
        have := roundFloat64_int 0 (by norm_num)
        simpa using this
      rw [this] at hc
      exact (Float64.fin.inj hc).symm
    subst hc00
    have : roundFloat64 ((h : ℚ) + 0) = .fin h := by
      rw [add_zero]
      exact roundFloat64_int h (by rw [abs_of_nonneg hh0]; omega)
    rw [this] at hH
    exact (Float64.fin.inj hH).symm

/-- Rounding a number between `n` and `n + 1` to `float64` and then dropping the fraction
gives `n` or `n + 1`, and `n` when the number is at most `n + 1023 / 1024`. -/
theorem trunc_round (arch : Float64 → Int) (x : ℚ) (n : ℤ) (hn0 : 0 ≤ n) (hn1 : n < 2 ^ 40)
    (hx0 : (n : ℚ) ≤ x) (hx1 : x ≤ (n : ℚ) + 1) :
    (Float64.toInt64 arch (roundFloat64 x) = n ∨
      Float64.toInt64 arch (roundFloat64 x) = n + 1) ∧
    (x ≤ (n : ℚ) + 1023 / 1024 → Float64.toInt64 arch (roundFloat64 x) = n) := by
  have hnq0 : (0 : ℚ) ≤ (n : ℚ) := by exact_mod_cast hn0
  have hnq1 : (n : ℚ) < 2 ^ 40 := by exact_mod_cast hn1
  have habs : |x| < 2 ^ 41 := by
    rw [abs_of_nonneg (by linarith)]
    have : (n : ℚ) + 1 < 2 ^ 41 := by linarith
    linarith
  obtain ⟨D, hD, hD0, hD1⟩ := roundFloat64_between x n (n + 1) 0 (by norm_num)
    (by simpa using hx0) (by push_cast; simpa using hx1)
    (lt_trans habs (by norm_num))
    (by
      simp only [pow_zero, div_one]
      have : (-(2 : ℚ) ^ 1024) < 0 := by norm_num
      linarith)
    (by
      simp only [pow_zero, div_one]
      push_cast
      have : (n : ℚ) + 1 < 2 ^ 41 := by linarith
      exact lt_trans this (by norm_num))
  simp only [pow_zero, div_one] at hD0 hD1
  push_cast at hD1
  have hDnn : (0 : ℚ) ≤ D := le_trans hnq0 hD0
  have hfl0 : n ≤ ⌊D⌋ := Int.le_floor.2 hD0
  have hfl1 : ⌊D⌋ ≤ n + 1 := by
    have : ⌊D⌋ ≤ ⌊(n : ℚ) + 1⌋ := Int.floor_mono hD1
    have e : ⌊(n : ℚ) + 1⌋ = n + 1 := by
      have : (n : ℚ) + 1 = ((n + 1 : ℤ) : ℚ) := by push_cast; ring
      rw [this, Int.floor_intCast]
    omega
  have hval : Float64.toInt64 arch (roundFloat64 x) = ⌊D⌋ := by
    rw [hD]
    simp only [Float64.toInt64, hDnn, if_true]
    rw [if_pos ⟨by omega, by omega⟩]
  rw [hval]
  refine ⟨by omega, ?_⟩
  intro hfine
  obtain ⟨D2, hD2, -, hD21⟩ := roundFloat64_between x (1024 * n) (1024 * n + 1023) 10
    (by norm_num)
    (by
      push_cast
      rw [div_le_iff₀ (by norm_num)]
      linarith)
    (by
      push_cast
      rw [le_div_iff₀ (by norm_num)]
      linarith)
    (lt_trans habs (by norm_num))
    (by
      push_cast
      have : (-(2 : ℚ) ^ 1024) < 0 := by norm_num
      have : (0 : ℚ) ≤ 1024 * (n : ℚ) / 2 ^ 10 := by positivity
      linarith)
    (by
      push_cast
      rw [div_lt_iff₀ (by norm_num)]
      have : 1024 * (n : ℚ) + 1023 < 2 ^ 51 := by linarith
      exact lt_trans this (by norm_num))
  rw [hD] at hD2
  have hDD : D = D2 := Float64.fin.inj hD2
  rw [← hDD] at hD21
  push_cast at hD21
  have hlt : D < (n : ℚ) + 1 := by
    rw [le_div_iff₀ (by norm_num)] at hD21
    linarith
  have : ⌊D⌋ < n + 1 := Int.floor_lt.2 (by push_cast; exact hlt)
  omega

/-- The day count of the Go code for a non-negative elapsed time: the whole days or one
more, and the whole days unless the elapsed time lies in the last hour of a day and is
not a whole number of hours. -/
theorem goDaysSince_bounds (arch : Float64 → Int) (now t : Int) (h0 : 0 ≤ now - t)
    (h1 : now - t < 2 ^ 63) :
    (goDaysSince arch now t = (now - t) / nanosPerDay ∨
      goDaysSince arch now t = (now - t) / nanosPerDay + 1) ∧
    ((now - t) / nanosPerHour % 24 ≠ 23 ∨ (now - t) % nanosPerHour = 0 →
      goDaysSince arch now t = (now - t) / nanosPerDay) := by
  have hts : timeSince now t = now - t := by
    unfold timeSince
    omega
  unfold goDaysSince
  rw [hts]
  obtain ⟨H, hH, hH0, hH1, hH2⟩ := durationHours_bounds (now - t) h0 h1
  rw [hH]
  have hn : (now - t) / nanosPerDay = (now - t) / nanosPerHour / 24 := by
    unfold nanosPerDay nanosPerHour
    omega
  have hh0 : 0 ≤ (now - t) / nanosPerHour := Int.ediv_nonneg h0 (by decide)
  have hh1 : (now - t) / nanosPerHour < 2 ^ 22 := by
    unfold nanosPerHour
    omega
  rw [hn]
  generalize (now - t) / nanosPerHour = h at hH0 hH1 hH2 hh0 hh1
  have hk0 : 24 * (h / 24) ≤ h := by omega
  have hk1 : h < 24 * (h / 24) + 24 := by omega
  have hkq0 : 24 * ((h / 24 : ℤ) : ℚ) ≤ (h : ℚ) := by exact_mod_cast hk0
  have hkq1 : (h : ℚ) + 1 ≤ 24 * ((h / 24 : ℤ) : ℚ) + 24 := by
    have : h + 1 ≤ 24 * (h / 24) + 24 := by omega
    exact_mod_cast this
  have hx0 : ((h / 24 : ℤ) : ℚ) ≤ H / 24 := by
    rw [le_div_iff₀ (by norm_num)]
    linarith
  have hx1 : H / 24 ≤ ((h / 24 : ℤ) : ℚ) + 1 := by
    rw [div_le_iff₀ (by norm_num)]
    linarith
  have key := trunc_round arch (H / 24) (h / 24) (by omega) (by omega) hx0 hx1
  have hdiv : Float64.div (.fin H) (.fin 24) = roundFloat64 (H / 24) := by
    simp only [Float64.div]
    rw [if_neg (by norm_num)]
  rw [hdiv]
  refine ⟨key.1, ?_⟩
  intro hc
  apply key.2
  have hH23 : H ≤ 24 * ((h / 24 : ℤ) : ℚ) + 23 := by
    rcases hc with hc | hc
    · have : h + 1 ≤ 24 * (h / 24) + 23 := by omega
      have : (h : ℚ) + 1 ≤ 24 * ((h / 24 : ℤ) : ℚ) + 23 := by exact_mod_cast this
      linarith
    · rw [hH2 hc]
      have : h ≤ 24 * (h / 24) + 23 := by omega
      exact_mod_cast this
  rw [div_le_iff₀ (by norm_num)]
  linarith

/-- One nanosecond short of 1000 days: the hours round to 24000 and the day count is
1000. -/
theorem goDaysSince_rounds_up (arch : Float64 → Int) :
    goDaysSince arch (1000 * nanosPerDay - 1) 0 = 1000 := by
  have hts : timeSince (1000 * nanosPerDay - 1) 0 = 86399999999999999 := by decide
  have htd : (86399999999999999 : Int).tdiv nanosPerHour = 23999 := by decide
  have htm : (86399999999999999 : Int).tmod nanosPerHour = 3599999999999 := by decide
  have e1 : Float64.ofInt 23999 = .fin 23999 := by
    have := roundFloat64_int 23999 (by norm_num)
    simpa [Float64.ofInt] using this
  have e2 : Float64.ofInt 3599999999999 = .fin 3599999999999 := by
    have := roundFloat64_int 3599999999999 (by norm_num)
    simpa [Float64.ofInt] using this
  obtain ⟨c, hc, hc0, hc1⟩ := roundFloat64_between
    ((3599999999999 : ℚ) / 3600000000000) (2 ^ 41 - 1) (2 ^ 41) 41
    (by norm_num) (by norm_num) (by norm_num)
    (by rw [abs_of_nonneg (by norm_num)]; norm_num) (by norm_num) (by norm_num)
  have e3 : Float64.div (.fin 3599999999999) (.fin 3600000000000) = .fin c := by
    simp only [Float64.div]
    rw [if_neg (by norm_num)]
    exact hc
  have hc0q : (1 : ℚ) - 1 / 2 ^ 41 ≤ c := by
    refine le_trans (le_of_eq ?_) hc0
    norm_num
  have hc1q : c ≤ 1 := by
    refine le_trans hc1 (le_of_eq ?_)
    norm_num
  have hy0 : (0 : ℚ) ≤ 23999 + c := by linarith
  have hu : ulpExp ((23999 : ℚ) + c) = -((38 : ℕ) : ℤ) := by
    have := ulpExp_eq ((23999 : ℚ) + c) 14
      (by rw [abs_of_nonneg hy0]; norm_num; linarith)
      (by rw [abs_of_nonneg hy0]; norm_num; linarith) (by norm_num)
    rw [this]
    norm_num
  have e4 : roundFloat64 ((23999 : ℚ) + c) = .fin 24000 := by
    have := roundFloat64_near ((23999 : ℚ) + c) (24000 * 2 ^ 38) 38 hu
      (by push_cast; norm_num at hc0q ⊢; linarith)
      (by push_cast; norm_num at hc1q ⊢; linarith)
      (by norm_num)
    rw [this]
    norm_num
  have e5 : roundFloat64 ((24000 : ℚ) / 24) = .fin 1000 := by
    have := roundFloat64_int 1000 (by norm_num)
    norm_num at this ⊢
    exact this
  unfold goDaysSince
  rw [hts]
  unfold durationHours
  rw [htd, htm, e1, e2, e3]
  simp only [Float64.add]
  rw [e4]
  simp only [Float64.div]
  rw [if_neg (by norm_num), e5]
  simp only [Float64.toInt64]
  norm_num

set_option maxRecDepth 100000 in
theorem dotnetHost_scan_late (arch : Float64 → Int) :
    scanDependencies (dotnetHost arch (1000 * nanosPerDay - 1)) dotnetTree "/r" 5 30 0
      = [⟨"/r/app", "/r/app/bin", ".NET", 100, 0,
          goDaysSince arch (1000 * nanosPerDay - 1) 0⟩] := by
  rfl

/-- Counterexample to claim C19.  On `dotnetTree`, scanned one nanosecond short of 1000
days after `app/bin` was last modified, the reported dependency has `DaysSince = 1000`,
while the elapsed time divided by 24 hours has floor 999: the hours are computed in
`float64`, where 23999.9999999999997 rounds to 24000. -/
theorem daysSince_not_floor :
    ∃ d ∈ scanDependencies (dotnetHost archAmd64 (1000 * nanosPerDay - 1)) dotnetTree
        "/r" 5 30 0,
      d.DepPath = "/r/app/bin" ∧ d.LastAccess = 0 ∧ d.DaysSince = 1000 ∧
      ((dotnetHost archAmd64 (1000 * nanosPerDay - 1)).now - d.LastAccess) / nanosPerDay
        = 999 ∧
      d.DaysSince
        ≠ ((dotnetHost archAmd64 (1000 * nanosPerDay - 1)).now - d.LastAccess) / nanosPerDay := by
  refine ⟨⟨"/r/app", "/r/app/bin", ".NET", 100, 0,
      goDaysSince archAmd64 (1000 * nanosPerDay - 1) 0⟩,
    ?_, rfl, rfl, goDaysSince_rounds_up archAmd64, ?_, ?_⟩
  · rw [dotnetHost_scan_late]
    exact List.mem_singleton.2 rfl
  · show ((1000 * nanosPerDay - 1 : Int) - 0) / nanosPerDay = 999
    decide
  · show goDaysSince archAmd64 (1000 * nanosPerDay - 1) 0
      ≠ ((1000 * nanosPerDay - 1 : Int) - 0) / nanosPerDay
    rw [goDaysSince_rounds_up]
    decide

set_option maxRecDepth 100000 in
theorem dotnetHost_scan_day100 :
    scanDependencies (dotnetHost archAmd64 (100 * nanosPerDay)) dotnetTree "/r" 5 30 0
      = [⟨"/r/app", "/r/app/bin", ".NET", 100, 0,
          goDaysSince archAmd64 (100 * nanosPerDay) 0⟩] := by
  rfl

theorem truncatePath_eq_text (home path : List UInt8) (maxLen : Int) :
    truncatePath home path maxLen = TruncatePath path maxLen home := rfl

theorem sliceFrom_length (s : List UInt8) (n : Nat) (h : n ≤ s.length) :
    sliceFrom s n = some (s.drop n) := by
  unfold sliceFrom
  rw [if_pos ⟨by omega, by exact_mod_cast h⟩]
  rfl

/-- The value of `TruncatePath` in terms of the path `p` that has `~` for the home
directory, when `maxLen` is at least 3. -/
theorem TruncatePath_eq (path home : List UInt8) (maxLen : Int) (hmax : 3 ≤ maxLen)
    (hlen : (path.length : Int) < 2 ^ 63 - 1) (p : List UInt8)
    (hp : p = if home.isPrefixOf path then utf8 "~" ++ path.drop home.length else path) :
    TruncatePath path maxLen home
      = if (p.length : Int) ≤ maxLen then some p
        else some (utf8 "..." ++ p.drop (p.length - (maxLen.toNat - 3))) := by
  have h1 : (if home.isPrefixOf path then
      (sliceFrom path home.length).map (fun rest => utf8 "~" ++ rest)
    else some path) = some p := by
    by_cases hpre : home.isPrefixOf path = true
    · have hle : home.length ≤ path.length :=
        (List.isPrefixOf_iff_prefix.1 hpre).length_le
      rw [if_pos hpre, sliceFrom_length _ _ hle, hp, if_pos hpre]
      rfl
    · rw [if_neg hpre, hp, if_neg hpre]
  have hpl : (p.length : Int) ≤ path.length + 1 := by
    rw [hp]
    split
    · have h1 : (utf8 "~").length = 1 := by decide
      rw [List.length_append, h1, List.length_drop]
      omega
    · omega
  unfold TruncatePath
  rw [h1]
  simp only []
  by_cases hfit : (p.length : Int) ≤ maxLen
  · rw [if_pos hfit, if_pos hfit]
  · rw [if_neg hfit, if_neg hfit]
    have hw : wrapInt64 (wrapInt64 ((p.length : Int) - maxLen) + 3)
        = (p.length : Int) - maxLen + 3 := by
      rw [wrapInt64_add_left]
      exact wrapInt64_of_range _ ⟨by omega, by omega⟩
    rw [hw]
    have hidx : (p.length : Int) - maxLen + 3 = ((p.length - (maxLen.toNat - 3) : Nat) : Int) := by
      omega
    rw [hidx, sliceFrom_length _ _ (by omega)]
    rfl

/-- Claim C21 (path truncation).  For every path shorter than `2 ^ 63 - 1` bytes (as
every Go string is), every home directory and every `maxLen ≥ 3`, `truncatePath` and
`text.TruncatePath` do not panic and return the same string `r` of at most `maxLen`
bytes; with `p` the path in which a leading `home` is replaced by `~`, `r` is `p` when
`p` has at most `maxLen` bytes, and otherwise `...` followed by the last `maxLen - 3`
bytes of `p`, `maxLen` bytes in all. -/
theorem path_truncation (path home : List UInt8) (maxLen : Int) (hmax : 3 ≤ maxLen)
    (hlen : (path.length : Int) < 2 ^ 63 - 1) :
    ∃ r, truncatePath home path maxLen = some r ∧ TruncatePath path maxLen home = some r ∧
      (r.length : Int) ≤ maxLen ∧
      ∃ p, p = (if home.isPrefixOf path then utf8 "~" ++ path.drop home.length else path) ∧
        ((p.length : Int) ≤ maxLen → r = p) ∧
        (maxLen < (p.length : Int) →
          ∃ t, r = utf8 "..." ++ t ∧ t <:+ p ∧ (t.length : Int) = maxLen - 3 ∧
            (r.length : Int) = maxLen) := by
  have h := TruncatePath_eq path home maxLen hmax hlen _ rfl
  rw [truncatePath_eq_text]
  have h3 : (utf8 "...").length = 3 := by decide
  by_cases hfit : (((if home.isPrefixOf path then utf8 "~" ++ path.drop home.length
      else path).length : Nat) : Int) ≤ maxLen
  · rw [if_pos hfit] at h
    exact ⟨_, h, h, hfit, _, rfl, fun _ => rfl, fun hlt => absurd hfit (by omega)⟩
  · rw [if_neg hfit] at h
    refine ⟨_, h, h, ?_, _, rfl, fun hle => absurd hle hfit, fun _ => ?_⟩
    · rw [List.length_append, h3, List.length_drop]
      omega
    · refine ⟨_, rfl, List.drop_suffix _ _, ?_, ?_⟩
      · rw [List.length_drop]
        omega
      · rw [List.length_append, h3, List.length_drop]
        omega

set_option maxRecDepth 100000 in
/-- Witness of claim C21: a path below the home directory `/home/al`, at the width 12
and at the width 40. -/
theorem path_truncation_witness :
    (∃ r, truncatePath (utf8 "/home/al") (utf8 "/home/al/projects/web/app") 12 = some r ∧
      TruncatePath (utf8 "/home/al/projects/web/app") 12 (utf8 "/home/al") = some r ∧
      (r.length : Int) ≤ 12 ∧
      ∃ p, p = (if (utf8 "/home/al").isPrefixOf (utf8 "/home/al/projects/web/app") then
          utf8 "~" ++ (utf8 "/home/al/projects/web/app").drop (utf8 "/home/al").length
          else utf8 "/home/al/projects/web/app") ∧
        ((p.length : Int) ≤ 12 → r = p) ∧
        ((12 : Int) < (p.length : Int) →
          ∃ t, r = utf8 "..." ++ t ∧ t <:+ p ∧ (t.length : Int) = 12 - 3 ∧
            (r.length : Int) = 12)) ∧
    truncatePath (utf8 "/home/al") (utf8 "/home/al/projects/web/app") 12
      = some (utf8 "...s/web/app") ∧
    truncatePath (utf8 "/home/al") (utf8 "/home/al/projects/web/app") 40
      = some (utf8 "~/projects/web/app") :=
  ⟨path_truncation (utf8 "/home/al/projects/web/app") (utf8 "/home/al") 12 (by decide)
    (by decide), by decide, by decide⟩

theorem naturalLessLoop_self : ∀ parts : List String, naturalLessLoop parts parts = none
  | [] => rfl
  | a :: rest => by
    rw [naturalLessLoop, if_neg (by simp)]
    exact naturalLessLoop_self rest

/-- What holds of `text.NaturalLess`: no string is less than itself. -/
theorem naturalLess_irrefl (a : String) : NaturalLess a a = false := by
  unfold NaturalLess
  rw [naturalLessLoop_self]
  simp

set_option maxRecDepth 100000 in
/-- Claim C22 fails on the code: `text.NaturalLess` is not a strict weak ordering.  It is
not transitive: a run of digits too long for an `int` is compared as a string, so
`100000000000000000000` is less than `9`, `9` is less than `10`, and
`100000000000000000000` is not less than `10`.  Its incomparability is not transitive:
parts that differ as strings and are equal as numbers end the comparison, so `0a` and
`00` are incomparable, `00` and `0b` are incomparable, and `0a` is less than `0b`. -/
theorem naturalLess_not_strict_weak_order :
    ¬ (∀ a b c : String, NaturalLess a b = true → NaturalLess b c = true →
        NaturalLess a c = true) ∧
    ¬ (∀ a b c : String, (NaturalLess a b = false ∧ NaturalLess b a = false) →
        (NaturalLess b c = false ∧ NaturalLess c b = false) →
        (NaturalLess a c = false ∧ NaturalLess c a = false)) ∧
    (NaturalLess "100000000000000000000" "9" = true ∧ NaturalLess "9" "10" = true ∧
      NaturalLess "100000000000000000000" "10" = false) ∧
    (NaturalLess "0a" "00" = false ∧ NaturalLess "00" "0a" = false ∧
      NaturalLess "00" "0b" = false ∧ NaturalLess "0b" "00" = false ∧
      NaturalLess "0a" "0b" = true) := by
  have h1 : NaturalLess "100000000000000000000" "9" = true ∧ NaturalLess "9" "10" = true ∧
      NaturalLess "100000000000000000000" "10" = false := by decide
  have h2 : NaturalLess "0a" "00" = false ∧ NaturalLess "00" "0a" = false ∧
      NaturalLess "00" "0b" = false ∧ NaturalLess "0b" "00" = false ∧
      NaturalLess "0a" "0b" = true := by decide
  refine ⟨fun h => ?_, fun h => ?_, h1, h2⟩
  · have := h _ _ _ h1.1 h1.2.1
    rw [h1.2.2] at this
    exact Bool.noConfusion this
  · have := (h _ _ _ ⟨h2.1, h2.2.1⟩ ⟨h2.2.2.1, h2.2.2.2.1⟩).1
    rw [h2.2.2.2.2] at this
    exact Bool.noConfusion this

theorem prefix_antisymm {a b : List Nat} (h1 : a <+: b) (h2 : b <+: a) : a = b :=
  List.IsPrefix.eq_of_length_le h1 h2.length_le

mutual
/-- A call of the walk below a position was preceded by a call on the entry at that
position, a directory read without error on which the callback returned `nil`. -/
theorem walk_ancestor {σ : Type} (fn : WalkFunc σ) (pos : List Nat) (path : String) :
    ∀ (info : Node) (s : σ), ∀ w ∈ (walk fn pos path info s).2.2,
      ∀ q : List Nat, pos <+: q → q <+: w.pos → q ≠ w.pos →
        ∃ u ∈ (walk fn pos path info s).2.2,
          u.pos = q ∧ u.err = false ∧ u.ret = .nil ∧ u.info.isDir = true
  | .dir name size mt readErr entries, s => by
    rw [walk]
    intro w hw q hpq hqw hne
    by_cases h : readErr = true ∨ (fn s path (.dir name size mt readErr entries) readErr).2 ≠ .nil
    · rw [if_pos h] at hw
      simp only [List.mem_singleton] at hw
      subst hw
      exact absurd (prefix_antisymm hqw hpq) hne
    · rw [if_neg h] at hw ⊢
      simp only [List.mem_cons] at hw
      rcases hw with hw | hw
      · subst hw
        exact absurd (prefix_antisymm hqw hpq) hne
      · by_cases hq : q = pos
        · exact ⟨_, List.mem_cons_self _ _, hq.symm, rfl, rfl, rfl⟩
        · obtain ⟨u, hu, hres⟩ := walkNames_ancestor fn pos path 0 entries _ w hw q hpq hq hqw hne
          exact ⟨u, List.mem_cons_of_mem _ hu, hres⟩
  | .file name size mt, s => by
    intro w hw q hpq hqw hne
    simp only [walk, List.mem_singleton] at hw
    subst hw
    exact absurd (prefix_antisymm hqw hpq) hne
  | .broken name, s => by
    intro w hw q hpq hqw hne
    simp only [walk, List.mem_singleton] at hw
    subst hw
    exact absurd (prefix_antisymm hqw hpq) hne
theorem walkNames_ancestor {σ : Type} (fn : WalkFunc σ) (pos : List Nat) (path : String) :
    ∀ (i : Nat) (names : List Node) (s : σ), ∀ w ∈ (walkNames fn pos path i names s).2.2,
      ∀ q : List Nat, pos <+: q → q ≠ pos → q <+: w.pos → q ≠ w.pos →
        ∃ u ∈ (walkNames fn pos path i names s).2.2,
          u.pos = q ∧ u.err = false ∧ u.ret = .nil ∧ u.info.isDir = true
  | _, [], s => by simp [walkNames]
  | i, c :: rest, s => by
    rw [walkNames]
    intro w hw q hpq hq hqw hne
    have h1 := walk_ancestor fn (pos ++ [i]) (filepathJoin path c.name) c s
    have p1 := walk_pos fn (pos ++ [i]) (filepathJoin path c.name) c s
    have hfirst : w ∈ (walk fn (pos ++ [i]) (filepathJoin path c.name) c s).2.2 →
        ∃ u ∈ (walk fn (pos ++ [i]) (filepathJoin path c.name) c s).2.2,
          u.pos = q ∧ u.err = false ∧ u.ret = .nil ∧ u.info.isDir = true := by
      intro hw
      have hlen : pos.length < q.length := by
        rcases Nat.lt_or_ge pos.length q.length with hl | hl
        · exact hl
        · exact absurd (List.IsPrefix.eq_of_length_le hpq hl).symm hq
      have hpre : (pos ++ [i]) <+: q :=
        List.prefix_of_prefix_length_le (p1 w hw) hqw (by simp; omega)
      exact h1 w hw q hpre hqw hne
    by_cases h : (walk fn (pos ++ [i]) (filepathJoin path c.name) c s).2.1 = .abort ∨
        ((walk fn (pos ++ [i]) (filepathJoin path c.name) c s).2.1 = .skipDir ∧
          c.isDir = false ∧ c.lstatErr = false)
    · rw [if_pos h] at hw ⊢
      exact hfirst hw
    · rw [if_neg h] at hw ⊢
      simp only [List.mem_append] at hw ⊢
      rcases hw with hw | hw
      · obtain ⟨u, hu, hres⟩ := hfirst hw
        exact ⟨u, Or.inl hu, hres⟩
      · obtain ⟨u, hu, hres⟩ := walkNames_ancestor fn pos path (i + 1) rest _ w hw q hpq hq hqw hne
        exact ⟨u, Or.inr hu, hres⟩
end

/-- A call of the scanner's walk strictly below a position was preceded by a call on the
directory at that position, without error, that returned `nil`. -/
theorem scanVisits_ancestor (env : Env) (tree : Node) (root : String)
    (maxDepth days minSize : Int) (w : Visit)
    (hw : w ∈ scanVisits env tree root maxDepth days minSize) (q : List Nat)
    (hqw : q <+: w.pos) (hne : q ≠ w.pos) :
    ∃ u ∈ scanVisits env tree root maxDepth days minSize,
      u.pos = q ∧ u.err = false ∧ u.ret = .nil ∧ u.info.isDir = true ∧
      tree.at? q = some u.info := by
  unfold scanVisits filepathWalk at hw ⊢
  obtain ⟨u, hu, hpos, herr, hret, hdir⟩ :=
    walk_ancestor _ [] root tree [] w hw q (List.nil_prefix) hqw hne
  refine ⟨u, hu, hpos, herr, hret, hdir, ?_⟩
  obtain ⟨q2, hq2, hat⟩ := walk_at _ [] root tree [] u hu
  rw [List.nil_append] at hq2
  rw [← hpos, hq2]
  exact hat

/-- Claim C23 (the compound Ruby candidate is unreachable below the root).  Whatever the
tree and the configuration, for a directory named `vendor` anywhere in the tree, the
root included: a call of the walk on it without error returns `SkipDir`, as the
directory is classified or else is in the always-skip set; no call of the walk is on an
entry strictly below it, in particular none on an entry of it such as `bundle`; and no
reported dependency was appended by a call strictly below it. -/
theorem vendor_bundle_unreachable (env : Env) (tree : Node) (root : String)
    (maxDepth days minSize : Int) (q : List Nat) (vendor : Node)
    (hat : tree.at? q = some vendor) (hname : vendor.name = "vendor") :
    (∀ u ∈ scanVisits env tree root maxDepth days minSize,
      u.pos = q → u.err = false → u.info.isDir = true → u.ret = .skipDir) ∧
    (∀ w ∈ scanVisits env tree root maxDepth days minSize, q <+: w.pos → w.pos = q) ∧
    (∀ w ∈ scanVisits env tree root maxDepth days minSize, ∀ i : Nat, w.pos ≠ q ++ [i]) ∧
    (∀ d ∈ scanDependencies env tree root maxDepth days minSize,
      ∃ v ∈ scanVisits env tree root maxDepth days minSize,
        d ∈ emitted env root maxDepth (cutoffTime env days) minSize v ∧
        (q <+: v.pos → v.pos = q)) := by
  have hskip : ∀ u ∈ scanVisits env tree root maxDepth days minSize,
      u.pos = q → u.err = false → u.info.isDir = true → tree.at? q = some u.info →
      u.ret = .skipDir := by
    intro u hu _ herr hdir hinfo
    have hv : u.info = vendor := Option.some.inj (hinfo.symm.trans hat)
    rw [scanVisits_ret env tree root maxDepth days minSize u hu, herr]
    refine scanFn_skipDir env root maxDepth _ minSize [] u.path u.info hdir
      (Or.inr (Or.inr (Or.inr ?_)))
    rw [hv, hname]
    rfl
  have hbelow : ∀ w ∈ scanVisits env tree root maxDepth days minSize,
      q <+: w.pos → w.pos = q := by
    intro w hw hpre
    by_contra hne
    obtain ⟨u, hu, hpos, herr, hret, hdir, hinfo⟩ :=
      scanVisits_ancestor env tree root maxDepth days minSize w hw q hpre
        (fun h => hne h.symm)
    have := hskip u hu hpos herr hdir hinfo
    rw [hret] at this
    exact WalkRet.noConfusion this
  refine ⟨?_, hbelow, ?_, ?_⟩
  · intro u hu hpos herr hdir
    refine hskip u hu hpos herr hdir ?_
    unfold scanVisits filepathWalk at hu
    obtain ⟨q2, hq2, hat2⟩ := walk_at _ [] root tree [] u hu
    rw [List.nil_append] at hq2
    rw [← hpos, hq2]
    exact hat2
  · intro w hw i hpos
    have := hbelow w hw (by rw [hpos]; exact List.prefix_append _ _)
    rw [hpos] at this
    have hl := congrArg List.length this
    simp at hl
  · intro d hd
    obtain ⟨v, hv, hdv⟩ := (mem_scan env tree root maxDepth days minSize d).1 hd
    exact ⟨v, hv, hdv, hbelow v hv⟩

set_option maxRecDepth 100000 in
/-- Witness of claim C23 on `rubyTree`: the walk stops at `app/vendor`, never calls the
callback on `app/vendor/bundle`, and the Bundler directory is not reported although the
project holds a `Gemfile`. -/
theorem vendor_bundle_unreachable_witness :
    rubyTree.at? [0, 1]
      = some (.dir "vendor" 4096 0 false
          [ .dir "bundle" 4096 0 false [.file "gem.rb" 100 0] ]) ∧
    (scanVisits (hostOf (100 * nanosPerDay) "/r" rubyTree) rubyTree "/r" 5 30 0).map
        Visit.path = ["/r", "/r/app", "/r/app/Gemfile", "/r/app/vendor"] ∧
    scanDependencies (hostOf (100 * nanosPerDay) "/r" rubyTree) rubyTree "/r" 5 30 0 = [] ∧
    (∀ w ∈ scanVisits (hostOf (100 * nanosPerDay) "/r" rubyTree) rubyTree "/r" 5 30 0,
      ∀ i : Nat, w.pos ≠ [0, 1] ++ [i]) :=
  ⟨by rfl, by decide, by decide,
    (vendor_bundle_unreachable (hostOf (100 * nanosPerDay) "/r" rubyTree) rubyTree "/r" 5 30 0
      [0, 1] (.dir "vendor" 4096 0 false [ .dir "bundle" 4096 0 false [.file "gem.rb" 100 0] ])
      (by rfl) (by rfl)).2.2.1⟩

theorem hiddenDir_of_dot (name : String) (hdot : stringsHasPrefix name "." = true)
    (hexc : name ∉ [".", ".gradle", ".venv", ".env", ".bundle"]) : hiddenDir name = true := by
  simp only [List.mem_cons, List.mem_singleton, List.not_mem_nil, or_false, not_or] at hexc
  obtain ⟨h1, h2, h3, h4, h5⟩ := hexc
  simp [hiddenDir, hdot, h1, h2, h3, h4, h5]

/-- Claim C24 (the root is subject to the hidden-directory rule).  When the name of the
scan root starts with `.` and is none of `.`, `.gradle`, `.venv`, `.env` and `.bundle`,
`scanDependencies` returns an empty result, whatever the tree holds below the root and
whatever `maxDepth` is (so for every `maxDepth ≥ 0`), and the only call of the walk is the
one on the root. -/
theorem hidden_root_reports_nothing (env : Env) (tree : Node) (root : String)
    (maxDepth days minSize : Int) (hdot : stringsHasPrefix tree.name "." = true)
    (hexc : tree.name ∉ [".", ".gradle", ".venv", ".env", ".bundle"]) :
    scanDependencies env tree root maxDepth days minSize = [] ∧
    (∀ w ∈ scanVisits env tree root maxDepth days minSize, w.pos = [] ∧ w.info = tree) := by
  have hhid := hiddenDir_of_dot tree.name hdot hexc
  have hroot : ∀ w ∈ scanVisits env tree root maxDepth days minSize, w.pos = [] := by
    intro w hw
    by_contra hne
    obtain ⟨u, hu, _, herr, hret, hdir, hinfo⟩ :=
      scanVisits_ancestor env tree root maxDepth days minSize w hw [] List.nil_prefix
        (fun h => hne h.symm)
    have hut : u.info = tree := by
      simp only [Node.at?] at hinfo
      exact (Option.some.inj hinfo).symm
    have hs := scanFn_skipDir env root maxDepth (cutoffTime env days) minSize [] u.path u.info
      hdir (Or.inr (Or.inl (by rw [hut]; exact hhid)))
    rw [← herr, ← scanVisits_ret env tree root maxDepth days minSize u hu, hret] at hs
    exact WalkRet.noConfusion hs
  have hinfo : ∀ w ∈ scanVisits env tree root maxDepth days minSize, w.info = tree := by
    intro w hw
    have hp := hroot w hw
    unfold scanVisits filepathWalk at hw
    obtain ⟨q2, hq2, hat2⟩ := walk_at _ [] root tree [] w hw
    rw [List.nil_append] at hq2
    rw [← hq2, hp] at hat2
    simp only [Node.at?] at hat2
    exact (Option.some.inj hat2).symm
  refine ⟨?_, fun w hw => ⟨hroot w hw, hinfo w hw⟩⟩
  refine List.eq_nil_iff_forall_not_mem.mpr (fun d hd => ?_)
  obtain ⟨v, hv, hdv⟩ := (mem_scan env tree root maxDepth days minSize d).1 hd
  have := emitted_nil_of_hidden env root maxDepth (cutoffTime env days) minSize v
    (by rw [hinfo v hv]; exact hhid)
  rw [this] at hdv
  exact absurd hdv (List.not_mem_nil _)

set_option maxRecDepth 100000 in
/-- Witness of claim C24: a Node.js project whose `node_modules` is reported when the root
is called `cache`, and the same tree under the root `.cache`, where nothing is
reported. -/
theorem hidden_root_reports_nothing_witness :
    (scanDependencies (hostOf (100 * nanosPerDay) "/r/cache" (cacheTree "cache"))
      (cacheTree "cache") "/r/cache" 5 30 0).map FoundDependency.DepPath
      = ["/r/cache/app/node_modules"] ∧
    scanDependencies (hostOf (100 * nanosPerDay) "/r/.cache" (cacheTree ".cache"))
      (cacheTree ".cache") "/r/.cache" 5 30 0 = [] :=
  ⟨by decide,
    (hidden_root_reports_nothing (hostOf (100 * nanosPerDay) "/r/.cache" (cacheTree ".cache"))
      (cacheTree ".cache") "/r/.cache" 5 30 0 (by decide) (by decide)).1⟩

set_option maxRecDepth 100000 in
/-- The suffix test of the folder `vendor/bundle` is on the path as a string: a `bundle`
in a directory whose name only ends in `vendor` is reported as Ruby. -/
theorem bundle_under_myvendor_reported :
    scanDependencies (hostOf (100 * nanosPerDay) "/r" myvendorTree) myvendorTree "/r" 5 30 0
      = [⟨"/r/myvendor", "/r/myvendor/bundle", "Ruby", 100, 0, 100⟩] := by
  decide

set_option maxRecDepth 100000 in
/-- Claim C10 fails on the code: when the scan root is given with a trailing separator
and is itself a dependency directory, `filepath.Walk` passes the root as it was given,
`filepath.Dir` of a path that ends in a separator is the path without the separator, and
the dependency is reported with itself as the project: `ProjectPath` is
`/r/node_modules` for the `DepPath` `/r/node_modules/`, and names the same directory,
while the same tree scanned from `/r/node_modules` has the parent `/r` as `ProjectPath`. -/
theorem projectPath_not_parent :
    scanDependencies (hostOf (100 * nanosPerDay) "/r/node_modules/" modulesTree) modulesTree
        "/r/node_modules/" 5 30 0
      = [⟨"/r/node_modules", "/r/node_modules/", "Node.js", 100, 0, 100⟩] ∧
    filepathClean "/r/node_modules/" = "/r/node_modules" ∧
    osBasename "/r/node_modules/" = modulesTree.name ∧
    scanDependencies (hostOf (100 * nanosPerDay) "/r/node_modules" modulesTree) modulesTree
        "/r/node_modules" 5 30 0
      = [⟨"/r", "/r/node_modules", "Node.js", 100, 0, 100⟩] := by
  decide

theorem sscanfFloat_eq_reads (s : String) :
    sscanfFloat s = (sscanfReads s).getD (.fin 0) := by
  unfold sscanfFloat sscanfReads
  cases skipSpace s.data with
  | none => rfl
  | some l =>
    cases l with
    | nil => rfl
    | cons c cs =>
      simp only []
      cases convertFloat (floatToken (c :: cs)) <;> rfl

theorem parseSize_eq (arch : Float64 → Int) (s : String) :
    parseSize arch s
      = if stringsToUpper (stringsTrimSpace s) = "0" ∨ stringsToUpper (stringsTrimSpace s) = ""
        then 0
        else Float64.toInt64 arch
          (Float64.mul (sscanfFloat (stringsTrimSpace (numericContent s)))
            (Float64.ofInt (sizeMultiplier s))) := rfl

theorem sizeMultiplier_cases (s : String) :
    ∃ m : Nat, sizeMultiplier s = (m : Int) ∧ m < 2 ^ 53 ∧ 0 < m := by
  unfold sizeMultiplier
  simp only []
  split
  · exact ⟨1024 * 1024 * 1024, by norm_num, by norm_num, by norm_num⟩
  · split
    · exact ⟨1024 * 1024, by norm_num, by norm_num, by norm_num⟩
    · split
      · exact ⟨1024, by norm_num, by norm_num, by norm_num⟩
      · exact ⟨1, by norm_num, by norm_num, by norm_num⟩

theorem acceptAll_stop (ok : List Char) (r : List Char) (c : Char) (rest : List Char)
    (h : ∀ x ∈ r, ok.contains x = true) (hc : ok.contains c = false) :
    ∀ buf, acceptAll ok buf (r ++ c :: rest) = (buf ++ r, c :: rest) := by
  induction r with
  | nil =>
    intro buf
    rw [List.nil_append, acceptAll, if_neg (by rw [hc]; decide)]
    simp
  | cons d ds ih =>
    intro buf
    rw [List.cons_append, acceptAll, if_pos (h d (List.mem_cons_self _ _)),
      ih (fun x hx => h x (List.mem_cons_of_mem _ hx))]
    simp

/-- The token `fmt` takes from decimal digits followed by a character that cannot go on
with a number: the digits. -/
theorem floatToken_digits_then (ds : List Char) (c : Char) (rest : List Char) (hne : ds ≠ [])
    (hds : ∀ d ∈ ds, d ∈ decimalDigitChars) (hc : c ∉ "0123456789_.eEpP".data)
    (hx : ds = ['0'] → c ∉ "xX".data) :
    floatToken (ds ++ c :: rest) = ds := by
  have c1 : "0123456789_".data.contains c = false :=
    contains_false_of_subset _ _ c hc (by decide)
  have hcne : ∀ x ∈ "0123456789_.eEpP".data, c ≠ x := fun x hx h => hc (h ▸ hx)
  have n1 : c ≠ '.' := hcne _ (by decide)
  have n2 : c ≠ 'e' := hcne _ (by decide)
  have n3 : c ≠ 'E' := hcne _ (by decide)
  have n4 : c ≠ 'p' := hcne _ (by decide)
  have n5 : c ≠ 'P' := hcne _ (by decide)
  cases ds with
  | nil => exact absurd rfl hne
  | cons d cs =>
    obtain ⟨-, -, ⟨hn, hs, hi, -⟩, -⟩ := digit_facts d (hds d (List.mem_cons_self _ _))
    have hcs : ∀ x ∈ cs, "0123456789_".data.contains x = true := fun x hx =>
      (digit_facts x (hds x (List.mem_cons_of_mem _ hx))).2.2.1.2.2.2.2.2.2
    have hall : ∀ x ∈ d :: cs, "0123456789_".data.contains x = true := fun x hx =>
      (digit_facts x (hds x hx)).2.2.1.2.2.2.2.2.2
    unfold floatToken
    simp only [List.cons_append, acceptChar, hn, hs, hi, Bool.false_eq_true, if_false,
      List.nil_append]
    by_cases hz : "0".data.contains d = true
    · simp only [hz, if_true]
      have hc0 : d = '0' := by simpa using hz
      cases cs with
      | nil =>
        have c4 : "xX".data.contains c = false :=
          contains_false_of_subset _ _ c (hx (by rw [hc0])) (by decide)
        simp only [List.nil_append, acceptChar, c4, Bool.false_eq_true, if_false]
        have h0 := acceptAll_stop "0123456789_".data [] c rest (by simp) c1 [d]
        simp only [List.nil_append, List.append_nil] at h0
        rw [h0]
        simp [acceptChar, n1, n2, n3, n4, n5, hc0]
      | cons d2 ds2 =>
        obtain ⟨-, -, ⟨-, -, -, hx2, -⟩, -⟩ :=
          digit_facts d2 (hds d2 (List.mem_cons_of_mem _ (List.mem_cons_self _ _)))
        simp only [List.cons_append, acceptChar, hx2, Bool.false_eq_true, if_false]
        rw [← List.cons_append, acceptAll_stop _ _ c rest hcs c1]
        simp [acceptChar, n1, n2, n3, n4, n5, hc0]
    · simp only [hz, Bool.false_eq_true, if_false]
      rw [← List.cons_append, acceptAll_stop _ _ c rest hall c1]
      simp [acceptChar, n1, n2, n3, n4, n5]

theorem sscanfReads_digits_then (s : String) (ds : List Char) (c : Char) (rest : List Char)
    (hs : s.data = ds ++ c :: rest) (hne : ds ≠ [])
    (hds : ∀ d ∈ ds, d ∈ decimalDigitChars) (hc : c ∉ "0123456789_.eEpP".data)
    (hx : ds = ['0'] → c ∉ "xX".data) (hlt : decimalValue 0 ds < 2 ^ 53) :
    sscanfReads s = some (.fin (decimalValue 0 ds)) := by
  have htok := floatToken_digits_then ds c rest hne hds hc hx
  have hpf := parseFloat_digits ds hne hds hlt
  have hnop : ds.contains 'p' = false := by
    rw [List.contains_eq_any_beq, List.any_eq_false]
    intro x hx
    obtain ⟨-, -, -, ⟨hp, -⟩⟩ := digit_facts x (hds x hx)
    have hp2 : ¬ 'p' = x := fun h => hp h.symm
    simpa using hp2
  unfold sscanfReads
  rw [hs]
  cases ds with
  | nil => exact absurd rfl hne
  | cons d cs =>
    obtain ⟨⟨-, -, -, -, hr, hn, -⟩, ⟨-, hsp, -⟩, -⟩ :=
      digit_facts d (hds d (List.mem_cons_self _ _))
    simp only [List.cons_append, skipSpace, hr, hn, hsp, false_and, if_false,
      Bool.false_eq_true]
    have htok2 : floatToken (d :: cs.append (c :: rest)) = d :: cs := htok
    rw [htok2]
    unfold convertFloat
    simp only [hnop, Bool.false_eq_true, false_and, if_false]
    exact hpf

/-- Claim C14, as the code has it.  `parseSize` is a total function.  It returns `0`
whenever `fmt.Sscanf` reads no number from the numeric content, trimmed: the content is
empty, or the token at its start is not accepted by `strconv.ParseFloat`.  And when the
content is one or more decimal digits followed by a character that is not a digit nor one
of `_`, `.`, `e`, `E`, `p`, `P` (nor `x` or `X` after the single digit `0`), what follows
the digits is ignored: `parseSize` returns the value of the digits times the multiplier of
the unit, as long as the product is below `2 ^ 53`. -/
theorem permissive_parsing (arch : Float64 → Int) (s : String) :
    (sscanfReads (stringsTrimSpace (numericContent s)) = none → parseSize arch s = 0) ∧
    (∀ (ds : List Char) (c : Char) (rest : List Char),
      (stringsTrimSpace (numericContent s)).data = ds ++ c :: rest → ds ≠ [] →
      (∀ d ∈ ds, d ∈ decimalDigitChars) → c ∉ "0123456789_.eEpP".data →
      (ds = ['0'] → c ∉ "xX".data) →
      (decimalValue 0 ds : Int) * sizeMultiplier s < 2 ^ 53 →
      parseSize arch s = decimalValue 0 ds * sizeMultiplier s) := by
  obtain ⟨m, hm, hm53, hmpos⟩ := sizeMultiplier_cases s
  constructor
  · intro hnone
    rw [parseSize_eq]
    split
    · rfl
    · rw [sscanfFloat_eq_reads, hnone, hm]
      exact zero_mul_toInt64 arch m hm53
  · intro ds c rest hdata hne hds hc hx hlt
    rw [hm] at hlt ⊢
    have hlt2 : decimalValue 0 ds * m < 2 ^ 53 := by exact_mod_cast hlt
    have hv : decimalValue 0 ds < 2 ^ 53 :=
      lt_of_le_of_lt (Nat.le_mul_of_pos_right _ hmpos) hlt2
    have hlen : 2 ≤ (stringsTrimSpace (numericContent s)).data.length := by
      rw [hdata, List.length_append, List.length_cons]
      have : 0 < ds.length := List.length_pos.2 hne
      omega
    have h0 : ¬ (stringsToUpper (stringsTrimSpace s) = "0" ∨
        stringsToUpper (stringsTrimSpace s) = "") := by
      intro h
      have hcontent : (stringsTrimSpace (numericContent s)).data.length ≤ 1 := by
        unfold numericContent
        simp only []
        rcases h with h | h <;> rw [h] <;> decide
      omega
    rw [parseSize_eq, if_neg h0, sscanfFloat_eq_reads,
      sscanfReads_digits_then _ ds c rest hdata hne hds hc hx hv, hm]
    exact mul_toInt64 arch (decimalValue 0 ds) m hm53 hlt2

set_option maxRecDepth 100000 in
/-- Witness of `permissive_parsing`: ten inputs on which the scan reads no number and the
result is `0`, among them `12efg`, whose token is `12E`; and `12abc`, `10x` and `7q kb`,
where the digits are used. -/
theorem permissive_parsing_witness :
    (∀ x ∈ ["abc", "-abc", "+", ".", "e5", "12efg", "1e", "1p3", "0x10", "1__0", "MB", " "],
      parseSize archAmd64 x = 0) ∧
    parseSize archAmd64 "12abc" = 12 ∧ parseSize archAmd64 "10x" = 10 ∧
    parseSize archAmd64 "7q kb" = 7168 := by
  refine ⟨fun x hx => (permissive_parsing archAmd64 x).1 ?_, ?_, ?_, ?_⟩
  · revert x
    decide
  · have h := (permissive_parsing archAmd64 "12abc").2 "12".data 'A' "BC".data
      (by decide) (by decide) (by decide) (by decide) (by decide) (by decide)
    rw [h]
    decide
  · have h := (permissive_parsing archAmd64 "10x").2 "10".data 'X' []
      (by decide) (by decide) (by decide) (by decide) (by decide) (by decide)
    rw [h]
    decide
  · have h := (permissive_parsing archAmd64 "7q kb").2 "7".data 'Q' []
      (by decide) (by decide) (by decide) (by decide) (by decide) (by decide)
    rw [h]
    decide

theorem roundHalfEven_err (z : ℚ) : |(roundHalfEven z : ℚ) - z| ≤ 1 / 2 := by
  have h0 : (⌊z⌋ : ℚ) ≤ z := Int.floor_le z
  have h1 : z < (⌊z⌋ : ℚ) + 1 := Int.lt_floor_add_one z
  unfold roundHalfEven
  rw [abs_le]
  split_ifs with ha hb hc
  · constructor <;> linarith
  · push_cast
    constructor <;> linarith
  · constructor <;> linarith
  · push_cast
    constructor <;> linarith

/-- Rounding to `float64` gives the number of the grid of `x` that is less than half a
step away, for a grid of any exponent. -/
theorem roundFloat64_near_exp (x : ℚ) (m e : ℤ) (hu : ulpExp x = e)
    (h1 : (m : ℚ) - 1 / 2 < x / 2 ^ e) (h2 : x / 2 ^ e < (m : ℚ) + 1 / 2)
    (hfin : |(m : ℚ) * 2 ^ e| < (2 : ℚ) ^ 1024) :
    roundFloat64 x = .fin ((m : ℚ) * 2 ^ e) := by
  have hr := roundHalfEven_near (x / 2 ^ e) m h1 h2
  unfold roundFloat64
  rw [hu, hr, if_neg (not_le.2 hfin)]

/-- The conversion `float64(b)` of an `int64` from `2 ^ 53` on: a number within 512 of
`b` whose quotient by `2 ^ 30` is a `float64`. -/
theorem ofInt_large (b : ℤ) (h0 : 2 ^ 53 ≤ b) (h1 : b < 2 ^ 63) :
    ∃ r : ℚ, Float64.ofInt b = .fin r ∧ |r - b| ≤ 512 ∧
      roundFloat64 (r / 2 ^ 30) = .fin (r / 2 ^ 30) := by
  have hbq0 : (2 : ℚ) ^ 53 ≤ (b : ℚ) := by exact_mod_cast h0
  have hbq1 : (b : ℚ) < 2 ^ 63 := by exact_mod_cast h1
  have hpos : (0 : ℚ) < (b : ℚ) := lt_of_lt_of_le (by norm_num) hbq0
  have habs : |(b : ℚ)| = b := abs_of_pos hpos
  have hlog0 : (53 : ℤ) ≤ Int.log 2 |(b : ℚ)| :=
    (Int.zpow_le_iff_le_log (by norm_num) (by rw [habs]; exact hpos)).1
      (by rw [habs]; exact_mod_cast hbq0)
  have hlog1 : Int.log 2 |(b : ℚ)| < 63 :=
    (Int.lt_zpow_iff_log_lt (by norm_num) (by rw [habs]; exact hpos)).1
      (by rw [habs]; exact_mod_cast hbq1)
  obtain ⟨k, hk⟩ : ∃ k : ℕ, Int.log 2 |(b : ℚ)| = (k : ℤ) :=
    ⟨(Int.log 2 |(b : ℚ)|).toNat, (Int.toNat_of_nonneg (by omega)).symm⟩
  have hk0 : 53 ≤ k := by omega
  have hk1 : k < 63 := by omega
  have hlo : (2 : ℚ) ^ k ≤ (b : ℚ) := by
    have := Int.zpow_log_le_self (b := 2) (r := |(b : ℚ)|) (by norm_num)
      (by rw [habs]; exact hpos)
    rw [hk, habs] at this
    exact_mod_cast this
  have hhi : (b : ℚ) < (2 : ℚ) ^ (k + 1) := by
    have := Int.lt_zpow_succ_log_self (b := 2) (by norm_num) (|(b : ℚ)|)
    rw [hk, habs] at this
    exact_mod_cast this
  obtain ⟨e, he⟩ : ∃ e : ℕ, k = e + 52 := ⟨k - 52, by omega⟩
  have he0 : 1 ≤ e := by omega
  have he1 : e ≤ 10 := by omega
  have hu : ulpExp (b : ℚ) = (e : ℤ) := by
    unfold ulpExp
    rw [hk, he]
    push_cast
    omega
  have hE : (0 : ℚ) < 2 ^ e := by positivity
  have hE10 : (2 : ℚ) ^ e ≤ 2 ^ 10 := pow_le_pow_right₀ (by norm_num) he1
  have hzp : (2 : ℚ) ^ ((e : ℕ) : ℤ) = 2 ^ e := zpow_natCast 2 e
  set R : ℤ := roundHalfEven ((b : ℚ) / 2 ^ e) with hR
  have herr := roundHalfEven_err ((b : ℚ) / 2 ^ e)
  rw [← hR] at herr
  have hb := roundHalfEven_bounds ((b : ℚ) / 2 ^ e)
  rw [← hR] at hb
  have hq1 : (b : ℚ) / 2 ^ e < 2 ^ 53 := by
    rw [div_lt_iff₀ hE]
    calc (b : ℚ) < 2 ^ (k + 1) := hhi
      _ = 2 ^ 53 * 2 ^ e := by rw [he]; ring
  have hq0 : (2 : ℚ) ^ 52 ≤ (b : ℚ) / 2 ^ e := by
    rw [le_div_iff₀ hE]
    calc (2 : ℚ) ^ 52 * 2 ^ e = 2 ^ k := by rw [he]; ring
      _ ≤ b := hlo
  have hR1 : R ≤ 2 ^ 53 :=
    le_trans hb.2 (Int.ceil_le.2 (by push_cast; exact hq1.le))
  have hR0 : (2 : ℤ) ^ 52 ≤ R :=
    le_trans (Int.le_floor.2 (by push_cast; exact hq0)) hb.1
  have hRq1 : (R : ℚ) ≤ 2 ^ 53 := by exact_mod_cast hR1
  have hRq0 : (2 : ℚ) ^ 52 ≤ (R : ℚ) := by exact_mod_cast hR0
  have hrpos : (0 : ℚ) ≤ (R : ℚ) * 2 ^ e := by positivity
  have hrlt : (R : ℚ) * 2 ^ e < 2 ^ 1024 := by
    calc (R : ℚ) * 2 ^ e ≤ 2 ^ 53 * 2 ^ 10 :=
          mul_le_mul hRq1 hE10 hE.le (by norm_num)
      _ < 2 ^ 1024 := by norm_num
  refine ⟨(R : ℚ) * 2 ^ e, ?_, ?_, ?_⟩
  · unfold Float64.ofInt roundFloat64
    rw [hu, hzp, ← hR, if_neg]
    rw [not_le, abs_of_nonneg hrpos]
    exact hrlt
  · have : (R : ℚ) * 2 ^ e - b = ((R : ℚ) - (b : ℚ) / 2 ^ e) * 2 ^ e := by
      field_simp
    rw [this, abs_mul, abs_of_pos hE]
    calc |(R : ℚ) - (b : ℚ) / 2 ^ e| * 2 ^ e ≤ 1 / 2 * 2 ^ 10 :=
          mul_le_mul herr hE10 hE.le (by norm_num)
      _ = 512 := by norm_num
  · rcases lt_or_eq_of_le hR1 with hlt | heq
    · have hd := roundFloat64_dyadic R ((e : ℤ) - 30)
        (by rw [abs_of_nonneg (by omega)]; exact hlt) (by omega)
        (by
          rw [abs_of_nonneg (by positivity)]
          have h2 : (2 : ℚ) ^ ((e : ℤ) - 30) ≤ 1 := by
            apply zpow_le_one_of_nonpos₀ (by norm_num)
            omega
          calc (R : ℚ) * 2 ^ ((e : ℤ) - 30) ≤ 2 ^ 53 * 1 :=
                mul_le_mul hRq1 h2 (by positivity) (by norm_num)
            _ < 2 ^ 1024 := by norm_num)
      have hform : (R : ℚ) * 2 ^ e / 2 ^ 30 = (R : ℚ) * 2 ^ ((e : ℤ) - 30) := by
        rw [zpow_sub₀ (by norm_num), hzp]
        norm_num
        ring
      rw [hform]
      exact hd
    · have hd := roundFloat64_dyadic (2 ^ 52) ((e : ℤ) - 29) (by norm_num) (by omega)
        (by
          rw [abs_of_nonneg (by positivity)]
          have h2 : (2 : ℚ) ^ ((e : ℤ) - 29) ≤ 1 := by
            apply zpow_le_one_of_nonpos₀ (by norm_num)
            omega
          calc (((2 : ℤ) ^ 52 : ℤ) : ℚ) * 2 ^ ((e : ℤ) - 29) ≤ 2 ^ 52 * 1 :=
                mul_le_mul (by norm_num) h2 (by positivity) (by norm_num)
            _ < 2 ^ 1024 := by norm_num)
      have hform : (R : ℚ) * 2 ^ e / 2 ^ 30
          = (((2 : ℤ) ^ 52 : ℤ) : ℚ) * 2 ^ ((e : ℤ) - 29) := by
        rw [heq, zpow_sub₀ (by norm_num), hzp]
        norm_num
        ring
      rw [hform]
      exact hd

/-- In the GB range `formatSize` prints the quotient of `float64(b)` by `1024 ^ 3`, which
is computed without rounding; `float64(b)` is `b` below `2 ^ 53` and within 512 of `b`
for every `int64`. -/
theorem formatSize_gb_int64 (b : Int) (h1 : 1024 ^ 3 ≤ b) (h2 : b < 2 ^ 63) :
    ∃ r : ℚ, Float64.ofInt b = .fin r ∧ |r - b| ≤ 512 ∧ (b < 2 ^ 53 → r = b) ∧
      formatSize b = sprintF2 (.fin (r / 1024 ^ 3)) ++ " GB" := by
  by_cases hs : b < 2 ^ 53
  · refine ⟨b, ?_, by simp, fun _ => rfl, formatSize_gb_exact b h1 hs⟩
    have hb0 : (0 : ℤ) ≤ b := le_trans (by norm_num) h1
    exact roundFloat64_int b (by rw [abs_of_nonneg hb0]; exact hs)
  · obtain ⟨r, hr, herr, hq⟩ := ofInt_large b (not_lt.1 hs) h2
    refine ⟨r, hr, herr, fun h => absurd h hs, ?_⟩
    rw [formatSize_gb b h1, hr]
    have hu : Float64.ofInt (1024 ^ 3) = .fin ((2 : ℚ) ^ 30) := by
      have := roundFloat64_int (2 ^ 30) (by norm_num)
      unfold Float64.ofInt
      norm_num at this ⊢
      exact this
    rw [hu]
    simp only [Float64.div]
    rw [if_neg (by norm_num), hq]
    norm_num

/-- The value `float64(2 ^ 55 + 5368709)`: the next multiple of 8. -/
theorem ofInt_example : Float64.ofInt (2 ^ 55 + 5368709) = .fin (2 ^ 55 + 5368712) := by
  have hu : ulpExp (((2 ^ 55 + 5368709 : ℤ) : ℚ)) = 3 := by
    have := ulpExp_eq (((2 ^ 55 + 5368709 : ℤ) : ℚ)) 55
      (by rw [abs_of_nonneg (by norm_num)]; norm_num)
      (by rw [abs_of_nonneg (by norm_num)]; norm_num) (by norm_num)
    rw [this]
    norm_num
  have := roundFloat64_near_exp (((2 ^ 55 + 5368709 : ℤ) : ℚ)) (2 ^ 52 + 671089) 3 hu
    (by norm_num) (by norm_num) (by rw [abs_of_nonneg (by norm_num)]; norm_num)
  unfold Float64.ofInt
  rw [this]
  norm_num

/-- Counterexample to claim C15: at `b = 2 ^ 55 + 5368709` both functions print
`33554432.01 GB`, while `b / 1024 ^ 3`, which is 33554432.0049999999, is `33554432.00` to
two decimals: `float64(b)` is `b` rounded to 53 significant bits, here `b + 3`. -/
theorem formatSize_gb_not_exact :
    formatSize (2 ^ 55 + 5368709) = "33554432.01 GB" ∧
    fsFormatSize (2 ^ 55 + 5368709) = "33554432.01 GB" ∧
    sprintF2 (.fin (((2 ^ 55 + 5368709 : ℤ) : ℚ) / 1024 ^ 3)) = "33554432.00" := by
  have h1 : formatSize (2 ^ 55 + 5368709) = "33554432.01 GB" := by
    obtain ⟨r, hr, -, -, hf⟩ := formatSize_gb_int64 (2 ^ 55 + 5368709) (by norm_num)
      (by norm_num)
    rw [ofInt_example] at hr
    have hrv : r = 2 ^ 55 + 5368712 := (Float64.fin.inj hr).symm
    rw [hf, hrv, sprintF2_near _ 3355443201 (by norm_num) (by norm_num) (by norm_num)]
    decide
  refine ⟨h1, h1, ?_⟩
  rw [sprintF2_near _ 3355443200 (by norm_num) (by norm_num) (by norm_num)]
  decide

/-- Claim C15, as the code has it.  For every integer `b`, `formatSize(b)` and
`fs.FormatSize(b)` are the decimal integer followed by ` B` when `b < 1024`; `b / 1024`
with two decimals followed by ` KB` when `1024 ≤ b < 1024 ^ 2`; `b / 1024 ^ 2` with two
decimals followed by ` MB` when `1024 ^ 2 ≤ b < 1024 ^ 3`; and for every `int64`
`b ≥ 1024 ^ 3`, `float64(b) / 1024 ^ 3` with two decimals followed by ` GB`, where
`float64(b)` is within 512 of `b` and is `b` itself while `b < 2 ^ 53`, so that the
value printed is then `b / 1024 ^ 3` with two decimals.  The values just below and at
each boundary show that the boundary belongs to the larger unit. -/
theorem binary_size_units (b : Int) :
    (b < 1024 → formatSize b = sprintD b ++ " B" ∧ fsFormatSize b = sprintD b ++ " B") ∧
    (1024 ≤ b → b < 1024 ^ 2 →
      formatSize b = sprintF2 (.fin ((b : ℚ) / 1024)) ++ " KB" ∧
      fsFormatSize b = sprintF2 (.fin ((b : ℚ) / 1024)) ++ " KB") ∧
    (1024 ^ 2 ≤ b → b < 1024 ^ 3 →
      formatSize b = sprintF2 (.fin ((b : ℚ) / 1024 ^ 2)) ++ " MB" ∧
      fsFormatSize b = sprintF2 (.fin ((b : ℚ) / 1024 ^ 2)) ++ " MB") ∧
    (1024 ^ 3 ≤ b → b < 2 ^ 63 →
      ∃ r : ℚ, Float64.ofInt b = .fin r ∧ |r - b| ≤ 512 ∧ (b < 2 ^ 53 → r = b) ∧
        formatSize b = sprintF2 (.fin (r / 1024 ^ 3)) ++ " GB" ∧
        fsFormatSize b = sprintF2 (.fin (r / 1024 ^ 3)) ++ " GB") ∧
    (1024 ^ 3 ≤ b → b < 2 ^ 53 →
      formatSize b = sprintF2 (.fin ((b : ℚ) / 1024 ^ 3)) ++ " GB" ∧
      fsFormatSize b = sprintF2 (.fin ((b : ℚ) / 1024 ^ 3)) ++ " GB") ∧
    (formatSize 1023 = "1023 B" ∧ formatSize 1024 = "1.00 KB" ∧
      formatSize (1024 ^ 2 - 1) = "1024.00 KB" ∧ formatSize (1024 ^ 2) = "1.00 MB" ∧
      formatSize (1024 ^ 3 - 1) = "1024.00 MB" ∧ formatSize (1024 ^ 3) = "1.00 GB") := by
  refine ⟨fun h => ?_, fun h1 h2 => ?_, fun h1 h2 => ?_, fun h1 h2 => ?_, fun h1 h2 => ?_, ?_⟩
  · rw [formatSize_eq_fs]; exact ⟨formatSize_small b h, formatSize_small b h⟩
  · rw [formatSize_eq_fs]; exact ⟨formatSize_kb b h1 h2, formatSize_kb b h1 h2⟩
  · rw [formatSize_eq_fs]; exact ⟨formatSize_mb b h1 h2, formatSize_mb b h1 h2⟩
  · obtain ⟨r, hr, herr, hex, hf⟩ := formatSize_gb_int64 b h1 h2
    exact ⟨r, hr, herr, hex, hf, by rw [formatSize_eq_fs]; exact hf⟩
  · rw [formatSize_eq_fs]; exact ⟨formatSize_gb_exact b h1 h2, formatSize_gb_exact b h1 h2⟩
  · refine ⟨?_, ?_, ?_, ?_, ?_, ?_⟩
    · rw [formatSize_small 1023 (by norm_num)]; decide
    · rw [formatSize_kb 1024 (by norm_num) (by norm_num),
        sprintF2_near _ 100 (by norm_num) (by norm_num) (by norm_num)]
      decide
    · rw [formatSize_kb (1024 ^ 2 - 1) (by norm_num) (by norm_num),
        sprintF2_near _ 102400 (by norm_num) (by norm_num) (by norm_num)]
      decide
    · rw [formatSize_mb (1024 ^ 2) (by norm_num) (by norm_num),
        sprintF2_near _ 100 (by norm_num) (by norm_num) (by norm_num)]
      decide
    · rw [formatSize_mb (1024 ^ 3 - 1) (by norm_num) (by norm_num),
        sprintF2_near _ 102400 (by norm_num) (by norm_num) (by norm_num)]
      decide
    · rw [formatSize_gb_exact (1024 ^ 3) (by norm_num) (by norm_num),
        sprintF2_near _ 100 (by norm_num) (by norm_num) (by norm_num)]
      decide

/-- Witness of `binary_size_units`: 1536 bytes are `1.50 KB`, and 1.5 GiB are
`1.50 GB`. -/
theorem binary_size_units_witness :
    (1024 : Int) ≤ 1536 ∧ (1536 : Int) < 1024 ^ 2 ∧ formatSize 1536 = "1.50 KB" ∧
    fsFormatSize 1536 = "1.50 KB" ∧ formatSize 1610612736 = "1.50 GB" := by
  have h := (binary_size_units 1536).2.1 (by norm_num) (by norm_num)
  have e : sprintF2 (.fin (((1536 : ℤ) : ℚ) / 1024)) ++ " KB" = "1.50 KB" := by
    rw [sprintF2_near _ 150 (by norm_num) (by norm_num) (by norm_num)]
    decide
  rw [e] at h
  obtain ⟨r, -, -, hex, hf, -⟩ :=
    (binary_size_units 1610612736).2.2.2.1 (by norm_num) (by norm_num)
  have hr : r = ((1610612736 : ℤ) : ℚ) := hex (by norm_num)
  refine ⟨by norm_num, by norm_num, h.1, h.2, ?_⟩
  rw [hf, hr, sprintF2_near _ 150 (by norm_num) (by norm_num) (by norm_num)]
  decide

/-- The day count depends on the two instants only through `time.Since`. -/
theorem goDaysSince_of_since (arch : Float64 → Int) (now t : Int) :
    goDaysSince arch now t = goDaysSince arch (timeSince now t) 0 := by
  have h : timeSince (timeSince now t) 0 = timeSince now t := by
    unfold timeSince
    omega
  unfold goDaysSince
  rw [h]

/-- The day count at the largest `time.Duration`, where `time.Since` stops: 106751. -/
theorem goDaysSince_saturated (arch : Float64 → Int) :
    goDaysSince arch (2 ^ 63 - 1) 0 = 106751 := by
  have hts : timeSince (2 ^ 63 - 1) 0 = 9223372036854775807 := by decide
  have htd : (9223372036854775807 : Int).tdiv nanosPerHour = 2562047 := by decide
  have htm : (9223372036854775807 : Int).tmod nanosPerHour = 2836854775807 := by decide
  have e1 : Float64.ofInt 2562047 = .fin 2562047 := by
    have := roundFloat64_int 2562047 (by norm_num)
    simpa [Float64.ofInt] using this
  have e2 : Float64.ofInt 2836854775807 = .fin 2836854775807 := by
    have := roundFloat64_int 2836854775807 (by norm_num)
    simpa [Float64.ofInt] using this
  obtain ⟨c, hc, hc0, hc1⟩ := roundFloat64_between
    ((2836854775807 : ℚ) / 3600000000000) 12 13 4
    (by norm_num) (by norm_num) (by norm_num)
    (by rw [abs_of_nonneg (by norm_num)]; norm_num) (by norm_num) (by norm_num)
  have e3 : Float64.div (.fin 2836854775807) (.fin 3600000000000) = .fin c := by
    simp only [Float64.div]
    rw [if_neg (by norm_num)]
    exact hc
  have hc0q : (3 : ℚ) / 4 ≤ c := by
    refine le_trans (le_of_eq ?_) hc0
    norm_num
  have hc1q : c ≤ 13 / 16 := by
    refine le_trans hc1 (le_of_eq ?_)
    norm_num
  obtain ⟨H, hH, hH0, hH1⟩ := roundFloat64_between ((2562047 : ℚ) + c)
    (16 * 2562047 + 12) (16 * 2562047 + 13) 4 (by norm_num)
    (by norm_num; linarith) (by norm_num; linarith)
    (by rw [abs_of_nonneg (by linarith)]; norm_num; linarith)
    (by norm_num) (by norm_num)
  have hH0q : (2562047 : ℚ) + 3 / 4 ≤ H := by
    refine le_trans (le_of_eq ?_) hH0
    norm_num
  have hH1q : H ≤ 2562047 + 13 / 16 := by
    refine le_trans hH1 (le_of_eq ?_)
    norm_num
  have key := (trunc_round arch (H / 24) 106751 (by norm_num) (by norm_num)
    (by rw [le_div_iff₀ (by norm_num)]; norm_num; linarith)
    (by rw [div_le_iff₀ (by norm_num)]; norm_num; linarith)).2
    (by rw [div_le_iff₀ (by norm_num)]; norm_num; linarith)
  unfold goDaysSince
  rw [hts]
  unfold durationHours
  rw [htd, htm, e1, e2, e3]
  simp only [Float64.add]
  rw [hH]
  simp only [Float64.div]
  rw [if_neg (by norm_num)]
  exact key

/-- The day count of the Go code for an instant `t` not after `now`, in terms of the
elapsed time `time.Since` gives, which stops at the largest `time.Duration`. -/
theorem goDaysSince_capped (arch : Float64 → Int) (now t : Int) (h0 : 0 ≤ now - t) :
    timeSince now t = min (now - t) (2 ^ 63 - 1) ∧
    (goDaysSince arch now t = timeSince now t / nanosPerDay ∨
      goDaysSince arch now t = timeSince now t / nanosPerDay + 1) ∧
    (timeSince now t / nanosPerHour % 24 ≠ 23 ∨ timeSince now t % nanosPerHour = 0 →
      goDaysSince arch now t = timeSince now t / nanosPerDay) ∧
    (2 ^ 63 - 1 ≤ now - t → goDaysSince arch now t = 106751) := by
  have hts : timeSince now t = min (now - t) (2 ^ 63 - 1) := by
    unfold timeSince
    omega
  have hr0 : 0 ≤ timeSince now t - 0 := by rw [hts]; omega
  have hr1 : timeSince now t - 0 < 2 ^ 63 := by rw [hts]; omega
  have hb := goDaysSince_bounds arch (timeSince now t) 0 hr0 hr1
  rw [← goDaysSince_of_since, sub_zero] at hb
  refine ⟨hts, hb.1, hb.2, ?_⟩
  intro hsat
  have : timeSince now t = 2 ^ 63 - 1 := by rw [hts]; omega
  rw [goDaysSince_of_since, this]
  exact goDaysSince_saturated arch

/-- Claim C19, as the code has it.  On a host whose day count is the one of the Go code,
`int(time.Since(lastAccess).Hours() / 24)`, every dependency `scanDependencies` returns
whose `LastAccess` is not after the current time has, with the elapsed time that
`time.Since` gives (the difference of the two instants, and the largest `time.Duration`,
`2 ^ 63 - 1` nanoseconds, when the difference is larger), a `DaysSince` that is the floor
of the elapsed time divided by 24 hours, or one more; it is the floor whenever the elapsed
time is a whole number of hours or does not lie in the last hour of a day, and it is
106751 when the difference is `2 ^ 63 - 1` nanoseconds or more. -/
theorem elapsed_days (arch : Float64 → Int) (env : Env)
    (henv : env.daysSince = goDaysSince arch env.now)
    (tree : Node) (root : String) (maxDepth days minSize : Int) (d : FoundDependency)
    (hd : d ∈ scanDependencies env tree root maxDepth days minSize)
    (h0 : 0 ≤ env.now - d.LastAccess) :
    d.DaysSince = goDaysSince arch env.now d.LastAccess ∧
    timeSince env.now d.LastAccess = min (env.now - d.LastAccess) (2 ^ 63 - 1) ∧
    (d.DaysSince = timeSince env.now d.LastAccess / nanosPerDay ∨
      d.DaysSince = timeSince env.now d.LastAccess / nanosPerDay + 1) ∧
    (timeSince env.now d.LastAccess / nanosPerHour % 24 ≠ 23 ∨
        timeSince env.now d.LastAccess % nanosPerHour = 0 →
      d.DaysSince = timeSince env.now d.LastAccess / nanosPerDay) ∧
    (2 ^ 63 - 1 ≤ env.now - d.LastAccess → d.DaysSince = 106751) := by
  have hds : d.DaysSince = goDaysSince arch env.now d.LastAccess := by
    obtain ⟨v, -, hdv⟩ := (mem_scan env tree root maxDepth days minSize d).1 hd
    obtain ⟨_, _, _, _, depType, folder, _, _, _, rfl⟩ := (mem_emitted _ _ _ _ _ _ _).1 hdv
    show env.daysSince _ = _
    rw [henv]
  have hb := goDaysSince_capped arch env.now d.LastAccess h0
  rw [← hds] at hb
  exact ⟨hds, hb.1, hb.2.1, hb.2.2.1, hb.2.2.2⟩

set_option maxRecDepth 100000 in
theorem dotnetHost_scan_day200000 :
    scanDependencies (dotnetHost archAmd64 (200000 * nanosPerDay)) dotnetTree "/r" 5 30 0
      = [⟨"/r/app", "/r/app/bin", ".NET", 100, 0,
          goDaysSince archAmd64 (200000 * nanosPerDay) 0⟩] := by
  rfl

/-- Witness of `elapsed_days`: `dotnetTree` scanned exactly 100 days after `app/bin` was
last modified, where the dependency is reported with `DaysSince = 100`; and scanned
200000 days after, more than the largest `time.Duration`, where `DaysSince` is 106751. -/
theorem elapsed_days_witness :
    (∃ d ∈ scanDependencies (dotnetHost archAmd64 (100 * nanosPerDay)) dotnetTree "/r" 5 30 0,
      d.DepPath = "/r/app/bin" ∧ d.LastAccess = 0 ∧ d.DaysSince = 100) ∧
    (∃ d ∈ scanDependencies (dotnetHost archAmd64 (200000 * nanosPerDay)) dotnetTree
        "/r" 5 30 0,
      d.DepPath = "/r/app/bin" ∧ d.LastAccess = 0 ∧ d.DaysSince = 106751) := by
  have hmem : (⟨"/r/app", "/r/app/bin", ".NET", 100, 0,
      goDaysSince archAmd64 (100 * nanosPerDay) 0⟩ : FoundDependency)
      ∈ scanDependencies (dotnetHost archAmd64 (100 * nanosPerDay)) dotnetTree "/r" 5 30 0 := by
    rw [dotnetHost_scan_day100]
    exact List.mem_singleton.2 rfl
  have hmem2 : (⟨"/r/app", "/r/app/bin", ".NET", 100, 0,
      goDaysSince archAmd64 (200000 * nanosPerDay) 0⟩ : FoundDependency)
      ∈ scanDependencies (dotnetHost archAmd64 (200000 * nanosPerDay)) dotnetTree
        "/r" 5 30 0 := by
    rw [dotnetHost_scan_day200000]
    exact List.mem_singleton.2 rfl
  have h := elapsed_days archAmd64 (dotnetHost archAmd64 (100 * nanosPerDay)) rfl
    dotnetTree "/r" 5 30 0 _ hmem (by decide)
  have h2 := elapsed_days archAmd64 (dotnetHost archAmd64 (200000 * nanosPerDay)) rfl
    dotnetTree "/r" 5 30 0 _ hmem2 (by decide)
  refine ⟨⟨_, hmem, rfl, rfl, ?_⟩, ⟨_, hmem2, rfl, rfl, h2.2.2.2.2 (by decide)⟩⟩
  rw [h.2.2.2.1 (Or.inr (by decide))]
  decide

end Depclean
